import Mathlib

/-!
# Sudoku solver (SudokuChecker.c): shallow embedding and verified properties

The C program keeps a global 9x9 array of cells, a 27x9 table of pointers into
it (the rows, columns and squares) and a global guess counter.  The embedding
below models

* a cell as a structure with the five fields of the C struct,
* the board as a function from coordinates to cells,
* a pointer into the board as the coordinate pair it points to,
* every C function as a function that takes the board (and returns the new
  board together with the C return value where the C function mutates it).

The two loops of the program that are not bounded by a constant (the
RESTART loop of solveSet and the while loop of solveLoop) and the
recursion between solveLoop and guess are driven by explicit fuel; running out
of fuel is the result none.
-/

namespace Sudoku

/-- The C struct Cell: value (0 if empty), row, col, noteCount and the nine note flags. -/
structure Cell where
  value : Int
  row : Fin 9
  col : Fin 9
  noteCount : Int
  notes : Fin 9 → Int
deriving DecidableEq

/-- A pointer into the board is modelled by the coordinates (row, column) it points to. -/
abbrev Ptr := Fin 9 × Fin 9

/-- The global array board[Rows][Columns]; board[r][c] is written b (r, c). -/
abbrev Board := Ptr → Cell

/-- Store a cell through a pointer. -/
def setCell (b : Board) (p : Ptr) (c : Cell) : Board :=
  fun q => if q = p then c else b q

/-- An int array that is indexed with a computed C int; positions outside the
declared length are kept as separate locations that are never read back. -/
abbrev IntArr := Int → Int

/-- Assignment a[i] = v on an int array. -/
def setAt (a : IntArr) (i : Int) (v : Int) : IntArr :=
  fun j => if j = i then v else a j

/-- getRow: the row of the cell at position pos of square number square. -/
def getRow (square pos : Nat) : Nat := 3 * (square / 3) + pos / 3

/-- getCol: the column of the cell at position pos of square number square. -/
def getCol (square pos : Nat) : Nat := 3 * (square % 3) + pos % 3

/-- getSq: the square a cell at (row, col) lies in. -/
def getSq (row col : Nat) : Nat := 3 * (row / 3) + col / 3

/-- The pointer table as a C array: entry (i, n) is the coordinate pair stored
in paths[i][n], none standing for a slot that was never written. -/
abbrev PathTable := Nat → Nat → Option (Nat × Nat)

/-- Assignment paths[i][n] = &board[r][c]. -/
def setPath (t : PathTable) (i n : Nat) (rc : Nat × Nat) : PathTable :=
  fun i' n' => if i' = i ∧ n' = n then some rc else t i' n'

/-- definePaths, loop by loop: the running index i is the second component of
the loop state. -/
def definePaths : PathTable :=
  let s0 : PathTable × Nat := (fun _ _ => none, 0)
  let s1 := (List.range 9).foldl
    (fun s r => ((List.range 9).foldl (fun t c => setPath t s.2 c (r, c)) s.1, s.2 + 1)) s0
  let s2 := (List.range 9).foldl
    (fun s c => ((List.range 9).foldl (fun t r => setPath t s.2 r (r, c)) s.1, s.2 + 1)) s1
  let s3 := (List.range 9).foldl
    (fun s sq => ((List.range 9).foldl
      (fun t p => setPath t s.2 p (getRow sq p, getCol sq p)) s.1, s.2 + 1)) s2
  s3.1

/-- The content of the table paths after definePaths, in closed form
(theorem definePaths_table shows that definePaths writes exactly this):
sets 0..8 are the rows, 9..17 the columns, 18..26 the squares. -/
def paths (i : Fin 27) (n : Fin 9) : Ptr :=
  if h : i.val < 9 then (⟨i.val, h⟩, n)
  else if h2 : i.val < 18 then (n, ⟨i.val - 9, by omega⟩)
  else (⟨getRow (i.val - 18) n.val, by unfold getRow; omega⟩,
        ⟨getCol (i.val - 18) n.val, by unfold getCol; omega⟩)

/-- trivialTest: true when no cell of the board has value 0. -/
def trivialTest (b : Board) : Bool :=
  (List.finRange 9).all fun r => (List.finRange 9).all fun c => decide ((b (r, c)).value ≠ 0)

/-- The array nums of setTest after the counting loop over one set of cells. -/
def setTestNums (b : Board) (cells : Fin 9 → Ptr) : IntArr :=
  (List.finRange 9).foldl
    (fun nums n => setAt nums ((b (cells n)).value - 1) (nums ((b (cells n)).value - 1) + 1))
    (fun _ => 0)

/-- setTest: every one of the 27 sets has count 1 for each of the nine digits. -/
def setTest (b : Board) : Bool :=
  (List.finRange 27).all fun i => (List.finRange 9).all fun n =>
    decide (setTestNums b (paths i) (n.val : Int) = 1)

/-- testBoard: trivialTest() && setTest(); setTest is only evaluated on a full board. -/
def testBoard (b : Board) : Bool := trivialTest b && setTest b

/-- setEmpty: all notes 0 and noteCount 0. -/
def setEmpty (c : Cell) : Cell := { c with notes := fun _ => 0, noteCount := 0 }

/-- setFull: all notes 1 and noteCount 9. -/
def setFull (c : Cell) : Cell := { c with notes := fun _ => 1, noteCount := 9 }

/-- annotateBoard: placed cells get empty notes, empty cells get full notes. -/
def annotateBoard (b : Board) : Board :=
  fun p => if (b p).value ≠ 0 then setEmpty (b p) else setFull (b p)

/-- initUpdater: updater[value - 1] = 0 for every placed cell of the set. -/
def initUpdater (b : Board) (cells : Fin 9 → Ptr) (updater : IntArr) : IntArr :=
  (List.finRange 9).foldl
    (fun u i => if (b (cells i)).value ≠ 0 then setAt u ((b (cells i)).value - 1) 0 else u)
    updater

/-- One pass of the inner loop body of clearConflicts on the cell being
processed; the second component is the variable check. -/
def clearNote (updater : IntArr) (s : Cell × Int) (n : Fin 9) : Cell × Int :=
  if updater (n.val : Int) = 0 ∧ s.1.notes n = 1 then
    ({ s.1 with notes := Function.update s.1.notes n 0, noteCount := s.1.noteCount - 1 }, 1)
  else s

/-- The body of the outer loop of clearConflicts for position i; the state is
the variable check and the board. -/
def clearStep (cells : Fin 9 → Ptr) (updater : IntArr) (s : Int × Board) (i : Fin 9) :
    Int × Board :=
  if (s.2 (cells i)).value = 0 then
    let r := (List.finRange 9).foldl (clearNote updater) (s.2 (cells i), s.1)
    (r.2, setCell s.2 (cells i) r.1)
  else s

/-- clearConflicts: remove from every empty cell of the set the notes whose
updater entry is 0; returns check and the new board. -/
def clearConflicts (b : Board) (cells : Fin 9 → Ptr) (updater : IntArr) : Int × Board :=
  (List.finRange 9).foldl (clearStep cells updater) (0, b)

/-- singleCheck: updater starts as all ones, then initUpdater and clearConflicts. -/
def singleCheck (b : Board) (cells : Fin 9 → Ptr) : Int × Board :=
  clearConflicts b cells (initUpdater b cells (fun _ => 1))

/-- equalsArr on two note arrays (the length argument is always 9). -/
def equalsArr (arr1 arr2 : Fin 9 → Int) : Bool :=
  (List.finRange 9).all fun i => decide (arr1 i = arr2 i)

/-- inArray: linear search in the first length entries of arr. -/
def inArray (num : Fin 9) (arr : List (Fin 9)) (length : Int) : Bool :=
  (arr.take length.toNat).any fun x => decide (num = x)

/-- The array noteValues of groupCancel: the indices of the notes set in a cell,
in increasing order. -/
def noteValuesOf (c : Cell) : List (Fin 9) :=
  (List.finRange 9).filter fun i => c.notes i ≠ 0

/-- The inner loop of groupCancel on one cell: every listed note is added to
sum (second component) and then set to 0. -/
def cancelCell (noteValues : List (Fin 9)) (c : Cell) : Cell × Int :=
  noteValues.foldl
    (fun s n => ({ s.1 with notes := Function.update s.1.notes n 0 }, s.2 + s.1.notes n))
    (c, 0)

/-- The body of the second loop of groupCancel for position i; the state is
the variable check and the board. -/
def cancelStep (cells : Fin 9 → Ptr) (indices : List (Fin 9)) (noteCount : Int)
    (noteValues : List (Fin 9)) (s : Int × Board) (i : Fin 9) : Int × Board :=
  if (s.2 (cells i)).value = 0 ∧ inArray i indices noteCount = false then
    let r := cancelCell noteValues (s.2 (cells i))
    (if r.2 ≠ 0 then 1 else s.1,
     setCell s.2 (cells i) { r.1 with noteCount := r.1.noteCount - r.2 })
  else s

/-- groupCancel: clear the notes of cells[indices[0]] from every empty cell of
the set that is not among the first noteCount entries of indices.  The array
indices is the list of its written entries; the loop over n < noteCount reads
the first noteCount entries of noteValues. -/
def groupCancel (b : Board) (cells : Fin 9 → Ptr) (indices : List (Fin 9)) (noteCount : Int) :
    Int × Board :=
  let noteValues := (noteValuesOf (b (cells (indices.headD 0)))).take noteCount.toNat
  (List.finRange 9).foldl (cancelStep cells indices noteCount noteValues) (0, b)

/-- State of the inner loop of groupCheck: check, the board and the array
indices; the variable count is the number of entries written to indices. -/
structure GroupState where
  check : Int
  board : Board
  indices : List (Fin 9)

/-- The first two statements of the body of the inner loop of groupCheck at
position n: a cell with the same noteCount and notes as cells[i] is entered in
indices, and once count equals the noteCount of cells[i] groupCancel runs. -/
def groupInnerStep (cells : Fin 9 → Ptr) (i n : Fin 9) (s : GroupState) : GroupState :=
  let indices1 :=
    if (s.board (cells i)).noteCount = (s.board (cells n)).noteCount ∧
        equalsArr (s.board (cells i)).notes (s.board (cells n)).notes = true
    then s.indices ++ [n] else s.indices
  if (indices1.length : Int) = (s.board (cells i)).noteCount then
    let r := groupCancel s.board cells indices1 (s.board (cells i)).noteCount
    { check := s.check + r.1, board := r.2, indices := indices1 }
  else { check := s.check, board := s.board, indices := indices1 }

/-- The inner loop of groupCheck for the cell at position i, over the
remaining positions; reaching the break ends the loop. -/
def groupCheckInner (cells : Fin 9 → Ptr) (i : Fin 9) : List (Fin 9) → GroupState → GroupState
  | [], s => s
  | n :: rest, s =>
    if 9 - (n.val : Int) <
        ((groupInnerStep cells i n s).board (cells i)).noteCount -
          ((groupInnerStep cells i n s).indices.length : Int)
    then groupInnerStep cells i n s
    else groupCheckInner cells i rest (groupInnerStep cells i n s)

/-- The body of the outer loop of groupCheck for position i (the inner loop
runs over the positions after i, with count back at 1). -/
def groupStep (cells : Fin 9 → Ptr) (s : Int × Board) (i : Fin 9) : Int × Board :=
  if (s.2 (cells i)).noteCount > 1 then
    let r := groupCheckInner cells i ((List.finRange 9).filter fun n => i < n)
      { check := s.1, board := s.2, indices := [i] }
    (r.check, r.board)
  else s

/-- groupCheck: for every cell with more than one note, look for later cells of
the set with the same notes and cancel once as many cells as notes are found. -/
def groupCheck (b : Board) (cells : Fin 9 → Ptr) : Int × Board :=
  (List.finRange 9).foldl (groupStep cells) (0, b)

/-- updateSet: singleCheck, and groupCheck only when singleCheck returned 0. -/
def updateSet (b : Board) (set : Fin 27) : Int × Board :=
  let r1 := singleCheck b (paths set)
  if r1.1 ≠ 0 then (1, r1.2)
  else
    let r2 := groupCheck r1.2 (paths set)
    if r2.1 ≠ 0 then (1, r2.2) else (0, r2.2)

/-- The loop body of updateAll: check += updateSet(i). -/
def updateAllStep (s : Int × Board) (i : Fin 27) : Int × Board :=
  let r := updateSet s.2 i
  (s.1 + r.1, r.2)

/-- updateAll: the sum of updateSet over the 27 sets. -/
def updateAll (b : Board) : Int × Board :=
  (List.finRange 27).foldl (updateAllStep) (0, b)

/-- updateCell: update the row, the column and the square named by the
row and col fields of the cell. -/
def updateCell (b : Board) (p : Ptr) : Board :=
  let b1 := (updateSet b ⟨(b p).row.val, by omega⟩).2
  let b2 := (updateSet b1 ⟨(b1 p).col.val + 9, by omega⟩).2
  (updateSet b2 ⟨getSq (b2 p).row.val (b2 p).col.val + 18, by unfold getSq; omega⟩).2

/-- The first two statements of assignValue: cell->value = val; setEmpty(cell). -/
def storeValue (b : Board) (p : Ptr) (val : Int) : Board :=
  setCell b p (setEmpty { b p with value := val })

/-- assignValue: store the value, empty the notes, update the three sets. -/
def assignValue (b : Board) (p : Ptr) (val : Int) : Board :=
  updateCell (storeValue b p val) p

/-- The inner loop of singleNoteSolve: the first index with a note set, 9 when
the loop runs to its end. -/
def firstNote (c : Cell) : Int :=
  match (List.finRange 9).find? (fun n => decide (c.notes n ≠ 0)) with
  | some n => (n.val : Int)
  | none => 9

/-- The loop body of singleNoteSolve for position i. -/
def singleNoteStep (cells : Fin 9 → Ptr) (s : Int × Board) (i : Fin 9) : Int × Board :=
  if (s.2 (cells i)).noteCount = 1 then
    (1, assignValue s.2 (cells i) (firstNote (s.2 (cells i)) + 1))
  else s

/-- singleNoteSolve: assign every cell of the set whose noteCount is 1. -/
def singleNoteSolve (b : Board) (cells : Fin 9 → Ptr) : Int × Board :=
  (List.finRange 9).foldl (singleNoteStep cells) (0, b)

/-- The inner loop of singleCellSolve for note n: count and loc, leaving the
loop as soon as count exceeds 1. -/
def countNote (b : Board) (cells : Fin 9 → Ptr) (n : Fin 9) :
    List (Fin 9) → Int × Fin 9 → Int × Fin 9
  | [], s => s
  | i :: rest, s =>
    if (b (cells i)).notes n ≠ 0 then
      if s.1 + 1 > 1 then (s.1 + 1, i) else countNote b cells n rest (s.1 + 1, i)
    else countNote b cells n rest s

/-- The body of the outer loop of singleCellSolve for note n. -/
def singleCellStep (cells : Fin 9 → Ptr) (s : Int × Board) (n : Fin 9) : Int × Board :=
  let r := countNote s.2 cells n (List.finRange 9) (0, 0)
  if r.1 = 1 then (1, assignValue s.2 (cells r.2) ((n.val : Int) + 1)) else s

/-- singleCellSolve: a note that is set in exactly one cell of the set is
assigned to that cell.  The variable loc is only read when count is 1, that is
after it was written in the same pass; its initial content is immaterial. -/
def singleCellSolve (b : Board) (cells : Fin 9 → Ptr) : Int × Board :=
  (List.finRange 9).foldl (singleCellStep cells) (0, b)

/-- solveSet: the RESTART loop, one unit of fuel per pass; the last argument
is the variable check. -/
def solveSet : Nat → Board → (Fin 9 → Ptr) → Int → Option (Int × Board)
  | 0, _, _, _ => none
  | fuel + 1, b, cells, check =>
    let r1 := singleNoteSolve b cells
    if r1.1 ≠ 0 then solveSet fuel r1.2 cells 1
    else
      let r2 := singleCellSolve r1.2 cells
      if r2.1 ≠ 0 then solveSet fuel r2.2 cells 1
      else some (check, r2.2)

/-- The loop body of solveAll: check += solveSet(paths[i]); none once a
RESTART loop ran out of fuel. -/
def solveAllStep (fuel : Nat) (s : Option (Int × Board)) (i : Fin 27) : Option (Int × Board) :=
  match s with
  | none => none
  | some (check, b1) =>
    match solveSet fuel b1 (paths i) 0 with
    | none => none
    | some (r, b2) => some (check + r, b2)

/-- solveAll: the sum of solveSet over the 27 sets. -/
def solveAll (fuel : Nat) (b : Board) : Option (Int × Board) :=
  (List.finRange 27).foldl (solveAllStep fuel) (some (0, b))

/-- copyCell: copy the five fields. -/
def copyCell (c : Cell) : Cell :=
  { value := c.value, row := c.row, col := c.col, noteCount := c.noteCount,
    notes := fun i => c.notes i }

/-- copyBoard: copy all 81 cells. -/
def copyBoard (src : Board) : Board := fun p => copyCell (src p)

/-- State of the inner loop of bestGuess. -/
structure BestState where
  minNotes : Int
  row : Fin 9
  col : Fin 9

/-- The inner loop (over the columns of row r) of bestGuess, with its break. -/
def bestGuessRow (b : Board) (r : Fin 9) : List (Fin 9) → BestState → BestState
  | [], s => s
  | c :: rest, s =>
    let s1 : BestState :=
      if (b (r, c)).value = 0 ∧ (b (r, c)).noteCount < s.minNotes then
        { minNotes := (b (r, c)).noteCount, row := r, col := c }
      else s
    if s1.minNotes = 2 then s1 else bestGuessRow b r rest s1

/-- bestGuess: pointer to the cell chosen for guessing.  The variables row and
col are only written inside the loop; the model starts them at 0. -/
def bestGuess (b : Board) : Ptr :=
  let s := (List.finRange 9).foldl (fun s r => bestGuessRow b r (List.finRange 9) s)
    { minNotes := 10, row := 0, col := 0 }
  (s.row, s.col)

/-- The global state that solveLoop and guess work on: the board and the
counter guesses. -/
structure State where
  board : Board
  guesses : Int
deriving DecidableEq

/-- The for loop of guess over the remaining note indices, given the result
function of the recursive solveLoop call. -/
def guessFrom (solveLoopRec : State → Option (Int × State)) (boardCopy : Board) (cellGuess : Ptr) :
    List (Fin 9) → State → Option (Int × State)
  | [], st => some (-1, st)
  | i :: rest, st =>
    if (st.board cellGuess).notes i ≠ 0 then
      match solveLoopRec
        { board := assignValue st.board cellGuess ((i.val : Int) + 1),
          guesses := st.guesses + 1 } with
      | none => none
      | some (solveVal, st2) =>
        if solveVal = 0 then some (0, st2)
        else guessFrom solveLoopRec boardCopy cellGuess rest
          { board := copyBoard boardCopy, guesses := st2.guesses }
    else guessFrom solveLoopRec boardCopy cellGuess rest st

/-- guess: snapshot, choose a cell, try its notes in increasing order. -/
def guess (solveLoopRec : State → Option (Int × State)) (st : State) : Option (Int × State) :=
  guessFrom solveLoopRec (copyBoard st.board) (bestGuess st.board) (List.finRange 9) st

/-- The while loop of solveLoop, one unit of fuel per pass, given the result
function of guess. -/
def solveWhile (fuel : Nat) (guessRec : State → Option (Int × State)) :
    Nat → State → Option (Int × State)
  | 0, _ => none
  | iters + 1, st =>
    if trivialTest st.board = false then
      let u := updateAll st.board
      if u.1 ≠ 0 then solveWhile fuel guessRec iters { board := u.2, guesses := st.guesses }
      else
        match solveAll fuel u.2 with
        | none => none
        | some (s, b2) =>
          if s ≠ 0 then solveWhile fuel guessRec iters { board := b2, guesses := st.guesses }
          else guessRec { board := b2, guesses := st.guesses }
    else some (0, st)

/-- solveLoop with at most depth nested calls of guess; fuel bounds the passes
of every while loop and of every RESTART loop. -/
def solveLoop (fuel : Nat) : Nat → State → Option (Int × State)
  | 0, st => solveWhile fuel (fun _ => none) fuel st
  | depth + 1, st => solveWhile fuel (guess (solveLoop fuel depth)) fuel st

/-- solve: annotateBoard, then solveLoop; the counter guesses starts at 0. -/
def solve (fuel depth : Nat) (b : Board) : Option (Int × State) :=
  solveLoop fuel depth { board := annotateBoard b, guesses := 0 }

/-! ## Predicates used in the statements -/

/-- The candidate set of a cell: the note indices that are set (index n stands for digit n + 1). -/
def cands (c : Cell) : Finset (Fin 9) := Finset.univ.filter fun n => c.notes n ≠ 0

/-- Count consistency of one cell: every note is 0 or 1 and noteCount is the number of ones. -/
def CellCC (c : Cell) : Prop :=
  (∀ n, c.notes n = 0 ∨ c.notes n = 1) ∧
    c.noteCount = ((Finset.univ.filter fun n => c.notes n = 1).card : Int)

/-- Count consistency of the board. -/
def CountConsistent (b : Board) : Prop := ∀ p, CellCC (b p)

/-- Placed-cell invariant: a cell with a value has no note set and noteCount 0. -/
def PlacedEmpty (b : Board) : Prop :=
  ∀ p, (b p).value ≠ 0 → (∀ n, (b p).notes n = 0) ∧ (b p).noteCount = 0

/-- The row and col fields of every cell are its coordinates (as initBoard stores them). -/
def WellFormed (b : Board) : Prop := ∀ p, (b p).row = p.1 ∧ (b p).col = p.2

/-- Every value is 0 or a digit 1..9. -/
def ValuesInRange (b : Board) : Prop := ∀ p, 0 ≤ (b p).value ∧ (b p).value ≤ 9

/-- How often the digit d occurs among the nine values of set i. -/
def occurrences (v : Ptr → Int) (i : Fin 27) (d : Int) : Nat :=
  (Finset.univ.filter fun n : Fin 9 => v (paths i n) = d).card

/-- A fully valid grid of values: every cell holds a digit 1..9 and every one
of the 27 sets contains each digit exactly once. -/
def ValidGrid (v : Ptr → Int) : Prop :=
  (∀ p, 1 ≤ v p ∧ v p ≤ 9) ∧ ∀ i : Fin 27, ∀ d : Fin 9, occurrences v i ((d.val : Int) + 1) = 1

/-- The grid v agrees with every placed value of the board. -/
def Agrees (b : Board) (v : Ptr → Int) : Prop := ∀ p, (b p).value ≠ 0 → v p = (b p).value

/-- The grid v is a valid completion of the board. -/
def Completion (b : Board) (v : Ptr → Int) : Prop := ValidGrid v ∧ Agrees b v

/-- Every empty cell still has the digit of v as a candidate. -/
def Sound (b : Board) (v : Ptr → Int) : Prop :=
  ∀ p, (b p).value = 0 → ∀ n : Fin 9, v p = (n.val : Int) + 1 → (b p).notes n ≠ 0

/-- No empty cell has as a candidate a digit that is placed in one of its sets. -/
def NoPlacedCand (b : Board) : Prop :=
  ∀ (i : Fin 27) (x y n : Fin 9), (b (paths i x)).value = 0 →
    (b (paths i y)).value = (n.val : Int) + 1 → (b (paths i x)).notes n = 0

/-- No two different cells of a set hold the same non-zero value. -/
def NoConflict (b : Board) : Prop :=
  ∀ (i : Fin 27) (x y : Fin 9), (b (paths i x)).value ≠ 0 →
    (b (paths i x)).value = (b (paths i y)).value → x = y

/-- The candidate sets of b2 are contained in those of b1 and no noteCount is larger. -/
def NotesShrink (b1 b2 : Board) : Prop :=
  ∀ p, cands (b2 p) ⊆ cands (b1 p) ∧ (b2 p).noteCount ≤ (b1 p).noteCount

/-- The boards are equal value by value, candidate by candidate and count by count. -/
def SameBoard (b1 b2 : Board) : Prop :=
  ∀ p, (b1 p).value = (b2 p).value ∧ (b1 p).noteCount = (b2 p).noteCount ∧
    ∀ n, (b1 p).notes n = (b2 p).notes n

/-- Number of (cell, note) pairs that are set: the measure that every
elimination and every placement decreases. -/
def noteTotal (b : Board) : Nat :=
  (Finset.univ.filter fun x : Ptr × Fin 9 => (b x.1).notes x.2 ≠ 0).card

/-- Number of empty cells. -/
def emptyCount (b : Board) : Nat := (Finset.univ.filter fun p : Ptr => (b p).value = 0).card

instance (c : Cell) : Decidable (CellCC c) := by unfold CellCC; infer_instance
instance (b : Board) : Decidable (CountConsistent b) := by unfold CountConsistent; infer_instance
instance (b : Board) : Decidable (PlacedEmpty b) := by unfold PlacedEmpty; infer_instance
instance (b : Board) : Decidable (WellFormed b) := by unfold WellFormed; infer_instance
instance (b : Board) : Decidable (ValuesInRange b) := by unfold ValuesInRange; infer_instance
instance (v : Ptr → Int) : Decidable (ValidGrid v) := by unfold ValidGrid; infer_instance
instance (b : Board) (v : Ptr → Int) : Decidable (Agrees b v) := by unfold Agrees; infer_instance
instance (b : Board) (v : Ptr → Int) : Decidable (Completion b v) := by
  unfold Completion; infer_instance
instance (b : Board) (v : Ptr → Int) : Decidable (Sound b v) := by unfold Sound; infer_instance
instance (b : Board) : Decidable (NoPlacedCand b) := by unfold NoPlacedCand; infer_instance
instance (b : Board) : Decidable (NoConflict b) := by unfold NoConflict; infer_instance
instance (b1 b2 : Board) : Decidable (NotesShrink b1 b2) := by unfold NotesShrink; infer_instance
instance (b1 b2 : Board) : Decidable (SameBoard b1 b2) := by unfold SameBoard; infer_instance

/-- The cell at position p of square s, through getRow and getCol. -/
def squareCell (sp : Fin 9 × Fin 9) : Ptr :=
  (⟨getRow sp.1.val sp.2.val, by unfold getRow; omega⟩,
   ⟨getCol sp.1.val sp.2.val, by unfold getCol; omega⟩)

/-! ## Relations between a board and a later board -/

/-- Sum of the nine note flags of a cell. -/
def noteSum (c : Cell) : Int := ∑ n : Fin 9, c.notes n

/-- The cell c2 comes from c1 by clearing notes: value, row and col are the
same, every note is unchanged or 0, noteCount went down by the total that was
cleared, and a placed cell is untouched. -/
def CellShrink (c1 c2 : Cell) : Prop :=
  c2.value = c1.value ∧ c2.row = c1.row ∧ c2.col = c1.col ∧
  (∀ n, c2.notes n = c1.notes n ∨ c2.notes n = 0) ∧
  c2.noteCount - noteSum c2 = c1.noteCount - noteSum c1 ∧
  (c1.value ≠ 0 → c2 = c1)

/-- Every cell of b2 comes from the cell of b1 by clearing notes. -/
def Shrink (b1 b2 : Board) : Prop := ∀ p, CellShrink (b1 p) (b2 p)

/-- Some note that is set in b1 is 0 in b2. -/
def Changed (b1 b2 : Board) : Prop := ∃ p n, (b1 p).notes n ≠ 0 ∧ (b2 p).notes n = 0

/-- What an elimination step with return value r.1 and new board r.2 does to
the board b: it only clears notes, returns 0 exactly when it left the board as
it was, and a non-zero return value means that a note was cleared. -/
def UpdSpec (b : Board) (r : Int × Board) : Prop :=
  Shrink b r.2 ∧ 0 ≤ r.1 ∧ (r.1 = 0 → r.2 = b) ∧ (r.1 ≠ 0 → Changed b r.2)

/-- Every note of the board is 0 or 1. -/
def ZeroOne (b : Board) : Prop := ∀ p m, (b p).notes m = 0 ∨ (b p).notes m = 1

/-- An elimination step only clears notes, and on a board whose notes are 0 or
1 its return value tells whether it cleared one. -/
def UpdSpecZ (b : Board) (r : Int × Board) : Prop :=
  Shrink b r.2 ∧ (ZeroOne b → UpdSpec b r)

/-- A pair of board predicates that the solver maintains: P at the head of the
while loop of solveLoop, Q from the moment updateAll returned 0 (in solveAll and
at the entry of guess). -/
structure SolverInv (P Q : Board → Prop) : Prop where
  upd : ∀ b, P b → P (updateAll b).2
  fix : ∀ b, P b → (updateAll b).1 = 0 → Q (updateAll b).2
  weaken : ∀ b, Q b → P b
  note : ∀ b g i, Q b → (b (paths g i)).noteCount = 1 →
    Q (assignValue b (paths g i) (firstNote (b (paths g i)) + 1))
  cell : ∀ b g n, Q b → (countNote b (paths g) n (List.finRange 9) (0, 0)).1 = 1 →
    Q (assignValue b (paths g (countNote b (paths g) n (List.finRange 9) (0, 0)).2)
      ((n.val : Int) + 1))
  guess : ∀ b i, Q b → (b (bestGuess b)).notes i ≠ 0 →
    P (assignValue b (bestGuess b) ((i.val : Int) + 1))

/-! ## Concrete boards -/

/-- A valid full grid: row r is the digits 1..9 shifted by 3 r + r / 3. -/
def exampleGrid : Ptr → Int :=
  fun p => (((p.1.val * 3 + p.1.val / 3 + p.2.val) % 9 : Nat) : Int) + 1

/-- The full board of exampleGrid as initBoard leaves it (noteCount and notes
are not initialised by initBoard; here they hold arbitrary values). -/
def exampleFull : Board :=
  fun p => { value := exampleGrid p, row := p.1, col := p.2, noteCount := 7, notes := fun _ => 3 }

/-- The board of exampleGrid with the nine cells of the main diagonal empty. -/
def exampleInput : Board :=
  fun p => { value := if p.1 = p.2 then 0 else exampleGrid p, row := p.1, col := p.2,
             noteCount := 7, notes := fun _ => 3 }

/-- The placed values of b1 are still there in b2. -/
def Extends (b1 b2 : Board) : Prop := ∀ p, (b1 p).value ≠ 0 → (b2 p).value = (b1 p).value

/-- The board is full. -/
def Full (b : Board) : Prop := ∀ p, (b p).value ≠ 0

instance (b1 b2 : Board) : Decidable (Extends b1 b2) := by unfold Extends; infer_instance
instance (b : Board) : Decidable (Full b) := by unfold Full; infer_instance

/-- The board that solve reaches from exampleInput: exampleGrid in every cell,
no note left. -/
def exampleSolved : Board :=
  fun p => { value := exampleGrid p, row := p.1, col := p.2, noteCount := 0, notes := fun _ => 0 }

/-- Two cells agree in all five fields. -/
def CellSame (c1 c2 : Cell) : Prop :=
  c1.value = c2.value ∧ c1.row = c2.row ∧ c1.col = c2.col ∧ c1.noteCount = c2.noteCount ∧
    ∀ n, c1.notes n = c2.notes n

instance (c1 c2 : Cell) : Decidable (CellSame c1 c2) := by unfold CellSame; infer_instance

/-- Checks that a result of the solver is the return value v with the board b
and the counter g. -/
def resultIs (r : Option (Int × State)) (v : Int) (b : Board) (g : Int) : Bool :=
  match r with
  | none => false
  | some (v1, st) =>
    decide (v1 = v) && decide (st.guesses = g) && decide (∀ p, CellSame (st.board p) (b p))

/-- The invariant at the head of the while loop of solveLoop on a conflict-free
input: the three structural invariants, values in range and no conflict. -/
def ConflictFree (b : Board) : Prop :=
  CountConsistent b ∧ PlacedEmpty b ∧ WellFormed b ∧ ValuesInRange b ∧ NoConflict b

/-- The invariant from the moment updateAll returned 0: in addition no empty
cell has a placed digit of one of its sets as a candidate. -/
def ConflictFreeFix (b : Board) : Prop := ConflictFree b ∧ NoPlacedCand b

/-! ## Index safety of groupCheck and groupCancel -/

/-- The test of the inner loop of groupCheck: cells[n] has the noteCount and
the notes of cells[i]. -/
def innerMatch (cells : Fin 9 → Ptr) (i n : Fin 9) (s : GroupState) : Prop :=
  (s.board (cells i)).noteCount = (s.board (cells n)).noteCount ∧
    equalsArr (s.board (cells i)).notes (s.board (cells n)).notes = true

instance (cells : Fin 9 → Ptr) (i n : Fin 9) (s : GroupState) :
    Decidable (innerMatch cells i n s) := by unfold innerMatch; infer_instance

/-- The array noteValues of groupCancel is allocated with noteCount entries and
one entry is written for every note set in cells[indices[0]]: the call is safe
when the two numbers are equal. -/
def CancelSafe (b : Board) (cells : Fin 9 → Ptr) (indices : List (Fin 9)) (noteCount : Int) :
    Prop :=
  ((noteValuesOf (b (cells (indices.headD 0)))).length : Int) = noteCount

/-- Safety of the inner loop of groupCheck from the state s on, for the array
indices allocated with alloc entries: count (the number of written entries) is
at most alloc, a write indices[count] = n only happens with count below alloc,
the test count == cells[i]->noteCount compares with alloc, every call of
groupCancel is safe, and the same holds on as long as the break is not taken. -/
def InnerSafe (cells : Fin 9 → Ptr) (i : Fin 9) (alloc : Int) :
    List (Fin 9) → GroupState → Prop
  | [], s => (s.indices.length : Int) ≤ alloc
  | n :: rest, s =>
    (s.indices.length : Int) ≤ alloc ∧
    (innerMatch cells i n s → (s.indices.length : Int) < alloc) ∧
    (s.board (cells i)).noteCount = alloc ∧
    (((groupInnerStep cells i n s).indices.length : Int) = alloc →
      CancelSafe s.board cells (groupInnerStep cells i n s).indices alloc) ∧
    (¬ (9 - (n.val : Int) <
        ((groupInnerStep cells i n s).board (cells i)).noteCount -
          ((groupInnerStep cells i n s).indices.length : Int)) →
      InnerSafe cells i alloc rest (groupInnerStep cells i n s))

/-- Safety of groupCheck from the state s of its outer loop on. -/
def GroupSafe (cells : Fin 9 → Ptr) : List (Fin 9) → Int × Board → Prop
  | [], _ => True
  | i :: rest, s =>
    ((s.2 (cells i)).noteCount > 1 →
      InnerSafe cells i (s.2 (cells i)).noteCount ((List.finRange 9).filter fun n => i < n)
        { check := s.1, board := s.2, indices := [i] }) ∧
    GroupSafe cells rest (groupStep cells s i)

/-- The invariant of the inner loop of groupCheck for the cell at position i
with k notes, before the positions in rest: the board invariants, cells[i]
still has noteCount k, indices starts with i, holds at most k entries, none of
them among the positions still to come, and once it holds k entries no empty
cell outside indices has a note of cells[i] left. -/
def InnerInv (cells : Fin 9 → Ptr) (i : Fin 9) (k : Int) (rest : List (Fin 9))
    (s : GroupState) : Prop :=
  CountConsistent s.board ∧ PlacedEmpty s.board ∧ (s.board (cells i)).noteCount = k ∧ 1 < k ∧
  s.indices.headD 0 = i ∧ i ∈ s.indices ∧ (s.indices.length : Int) ≤ k ∧
  (∀ x ∈ s.indices, x ∉ rest) ∧
  ((s.indices.length : Int) = k → ∀ x, x ∉ s.indices → (s.board (cells x)).value = 0 →
    ∀ m, (s.board (cells i)).notes m ≠ 0 → (s.board (cells x)).notes m = 0)

/-- The per-group update as the specification words it: value elimination
(singleCheck), then naked-subset elimination (groupCheck) on the result, and a
non-zero result exactly when one of the two passes reported a removal. -/
def updateSetBothPasses (b : Board) (set : Fin 27) : Int × Board :=
  let r1 := singleCheck b (paths set)
  let r2 := groupCheck r1.2 (paths set)
  (if r1.1 ≠ 0 ∨ r2.1 ≠ 0 then 1 else 0, r2.2)

/-- A board with count-consistent notes: the first row holds the value 1, then
two cells with the notes 2 and 3 only, then six cells with all nine notes; all
other cells are empty with all nine notes. -/
def pairBoard : Board :=
  fun p =>
    if p.1 = 0 ∧ p.2 = 0 then
      { value := 1, row := p.1, col := p.2, noteCount := 0, notes := fun _ => 0 }
    else if p.1 = 0 ∧ (p.2 = 1 ∨ p.2 = 2) then
      { value := 0, row := p.1, col := p.2, noteCount := 2,
        notes := fun n => if n = 1 ∨ n = 2 then 1 else 0 }
    else { value := 0, row := p.1, col := p.2, noteCount := 9, notes := fun _ => 1 }

/-- Position of a cell in the row-major scan of the board. -/
def rowMajor (p : Ptr) : Nat := 9 * p.1.val + p.2.val

/-- The invariant of the scan of bestGuess when the cells in seen are behind
it: either minNotes is still 10 and no empty cell seen has fewer than 10
notes, or (row, col) is an empty cell that was seen, minNotes is its
noteCount, no empty cell seen has fewer notes, and none with as many notes
comes before it. -/
def BestInv (b : Board) (s : BestState) (seen : Ptr → Prop) : Prop :=
  (s.minNotes = 10 ∧ ∀ q, seen q → (b q).value = 0 → 10 ≤ (b q).noteCount) ∨
  (seen (s.row, s.col) ∧ (b (s.row, s.col)).value = 0 ∧
    (b (s.row, s.col)).noteCount = s.minNotes ∧ s.minNotes < 10 ∧
    ∀ q, seen q → (b q).value = 0 →
      s.minNotes ≤ (b q).noteCount ∧
        ((b q).noteCount = s.minNotes → rowMajor (s.row, s.col) ≤ rowMajor q))

/-- The break of bestGuess skips nothing that matters: either every empty cell
has at least two notes or no empty cell has exactly two notes. -/
def BreakHarmless (b : Board) : Prop :=
  (∀ q, (b q).value = 0 → 2 ≤ (b q).noteCount) ∨ (∀ q, (b q).value = 0 → (b q).noteCount ≠ 2)

/-- A count-consistent board whose first cell is empty with no note left; all
other cells are empty with all nine notes. -/
def deadCellBoard : Board :=
  fun p =>
    if p.1 = 0 ∧ p.2 = 0 then
      { value := 0, row := p.1, col := p.2, noteCount := 0, notes := fun _ => 0 }
    else { value := 0, row := p.1, col := p.2, noteCount := 9, notes := fun _ => 1 }

/-- A count-consistent board whose first cell is empty with the notes 1 and 2,
and whose cell in row 1, column 5 is empty with the note 1 only; all other
cells are empty with all nine notes. -/
def lateSingleBoard : Board :=
  fun p =>
    if p.1 = 0 ∧ p.2 = 0 then
      { value := 0, row := p.1, col := p.2, noteCount := 2,
        notes := fun n => if n = 0 ∨ n = 1 then 1 else 0 }
    else if p.1 = 1 ∧ p.2 = 5 then
      { value := 0, row := p.1, col := p.2, noteCount := 1,
        notes := fun n => if n = 0 then 1 else 0 }
    else { value := 0, row := p.1, col := p.2, noteCount := 9, notes := fun _ => 1 }

instance (b : Board) : Decidable (BreakHarmless b) := by unfold BreakHarmless; infer_instance

/-- The board reached from b by k calls of assignValue, each of which gives a
cell that is empty at that moment a digit that is one of its notes at that
moment. -/
inductive AssignSteps (b : Board) : Nat → Board → Prop
  | start : AssignSteps b 0 b
  | assign {k : Nat} {b1 : Board} (p : Ptr) (m : Fin 9) :
      AssignSteps b k b1 → (b1 p).value = 0 → (b1 p).notes m ≠ 0 →
      AssignSteps b (k + 1) (assignValue b1 p ((m.val : Int) + 1))

/-- The trials of guess as the specification words them: the digits of the
list are tried in order on the entry board; the counter is incremented by one,
the digit is assigned and the recursive solve loop is called; a result 0 is
returned at once with the state as the call left it; otherwise the next digit
is tried from the entry board with the counter as the call left it; after the
last digit the result is -1 with the entry board. -/
def guessTrials (solveLoopRec : State → Option (Int × State)) (entry : Board) (p : Ptr) :
    List (Fin 9) → Int → Option (Int × State)
  | [], g => some (-1, { board := entry, guesses := g })
  | i :: rest, g =>
    match solveLoopRec { board := assignValue entry p ((i.val : Int) + 1), guesses := g + 1 } with
    | none => none
    | some (v, st2) =>
      if v = 0 then some (0, st2) else guessTrials solveLoopRec entry p rest st2.guesses

/-- The result r with g added to its counter. -/
def addGuesses (g : Int) (r : Int × State) : Int × State :=
  (r.1, { board := r.2.board, guesses := r.2.guesses + g })

/-- The function f only adds to the counter: started with a counter that is
larger by g it gives the same result with a counter larger by g. -/
def Counting (f : State → Option (Int × State)) : Prop :=
  ∀ b a g, f { board := b, guesses := a + g } =
    (f { board := b, guesses := a }).map (addGuesses g)

/-! ## Reading and writing the board as text -/

/-- State of the loop of initBoard: the board, the cell counter i and the flag
modified. -/
structure LoadState where
  board : Board
  i : Nat
  modified : Int

/-- The cell that initBoard stores at p: value, row and col are set; noteCount
and notes are not initialised and hold what junk p says. -/
def loadedCell (junk : Ptr → Cell) (p : Ptr) (v : Int) : Cell :=
  { value := v, row := p.1, col := p.2, noteCount := (junk p).noteCount, notes := (junk p).notes }

/-- The body of the loop of initBoard for the character c, with i below 81. -/
def initBody (junk : Ptr → Cell) (s : LoadState) (h : s.i < 81) (c : Char) : LoadState :=
  let p : Ptr := (⟨s.i / 9, by omega⟩, ⟨s.i % 9, by omega⟩)
  if s.modified = 0 ∧ ('1' ≤ c ∧ c ≤ '9') then
    { board := setCell s.board p (loadedCell junk p ((c.toNat : Int) - ('0'.toNat : Int))),
      i := s.i, modified := 1 }
  else if c = ',' then
    { board := if s.modified = 0 then setCell s.board p (loadedCell junk p 0) else s.board,
      i := s.i + 1, modified := 0 }
  else s

/-- The loop of initBoard over the characters of the file: it ends at the end
of the file or when i reaches 81, whatever is left unread. -/
def initLoop (junk : Ptr → Cell) : List Char → LoadState → LoadState
  | [], s => s
  | c :: rest, s => if h : s.i < 81 then initLoop junk rest (initBody junk s h c) else s

/-- initBoard: read the file into the board start; -1 when the loop ended with
i other than 81, else 0. -/
def initBoard (junk : Ptr → Cell) (start : Board) (input : List Char) : Int × Board :=
  let s := initLoop junk input { board := start, i := 0, modified := 0 }
  (if s.i ≠ 81 then -1 else 0, s.board)

/-- What fprintf writes for the format "%d, ". -/
def cellText (v : Int) : List Char := v.repr.toList ++ [',', ' ']

/-- One pass of the outer loop of outputBoard: the nine values of row r, then a
newline, appended to the text written so far. -/
def outputRow (b : Board) (r : Fin 9) (out : List Char) : List Char :=
  (List.finRange 9).foldl (fun o c => o ++ cellText (b (r, c)).value) out ++ ['\n']

/-- outputBoard: the nine rows, then an empty line and the line of the counter. -/
def outputBoard (b : Board) (guesses : Int) : List Char :=
  (List.finRange 9).foldl (fun o r => outputRow b r o) [] ++
    ['\n', 'G', 'u', 'e', 's', 's', 'e', 's', ':', ' '] ++ guesses.repr.toList ++ ['\n']

/-- The cell with number i in row-major order. -/
def cellOf (i : Nat) : Ptr := (⟨i / 9 % 9, by omega⟩, ⟨i % 9, by omega⟩)

/-- The invariant of the loop of initBoard while it reads the text of the board
b: no digit is pending and the cells before number i hold the values of b. -/
def LoadInv (junk : Ptr → Cell) (b : Board) (s : LoadState) : Prop :=
  s.modified = 0 ∧ ∀ p, rowMajor p < s.i → s.board p = loadedCell junk p (b p).value

/-- The board of a program that has not stored anything yet: all fields are 0. -/
def blankBoard : Board :=
  fun _ => { value := 0, row := 0, col := 0, noteCount := 0, notes := fun _ => 0 }

/-- A text of one line with 81 commas: the first token is a letter, the second
the digit 0, the third holds two digits, all others are empty. -/
def malformedInput : List Char :=
  ['x', ',', '0', ',', '1', '2', ','] ++ List.replicate 78 ','

/-- The board exampleInput with the digit 2 stored in the first cell, next to
the 2 that the first row already holds in its second cell. -/
def clashBoard : Board :=
  fun p => { value := if p = (0, 0) then 2 else if p.1 = p.2 then 0 else exampleGrid p,
             row := p.1, col := p.2, noteCount := 7, notes := fun _ => 3 }

/-- No naked subset is left to cancel: whenever T is a set of at least two
positions of a set of cells, all empty, whose candidate sets are the same and
have as many digits as T has positions, no other empty cell of the set has one
of these digits as a candidate. -/
def NakedFix (b : Board) : Prop :=
  ∀ (g : Fin 27) (T : Finset (Fin 9)), 2 ≤ T.card →
    (∀ x ∈ T, (b (paths g x)).value = 0) →
    (∀ x ∈ T, (cands (b (paths g x))).card = T.card) →
    (∀ x ∈ T, ∀ y ∈ T, cands (b (paths g x)) = cands (b (paths g y))) →
    ∀ y, y ∉ T → (b (paths g y)).value = 0 →
      ∀ x ∈ T, ∀ n ∈ cands (b (paths g x)), (b (paths g y)).notes n = 0

/-- The note index of the digit v (v - 1 for a digit 1..9). -/
def digitOf (v : Int) : Fin 9 := ⟨(v - 1).toNat % 9, Nat.mod_lt _ (by decide)⟩

/-- The invariant of the inner loop of groupCheck that keeps the digits of the
completion S: the invariant of index safety, indices without repetition, every
cell of indices with the notes of cells[i], and the board sound for S. -/
def SoundInv (S : Ptr → Int) (cells : Fin 9 → Ptr) (i : Fin 9) (k : Int) (rest : List (Fin 9))
    (s : GroupState) : Prop :=
  InnerInv cells i k rest s ∧ s.indices.Nodup ∧
  (∀ x ∈ s.indices, ∀ m, (s.board (cells x)).notes m = (s.board (cells i)).notes m) ∧
  Sound s.board S

/-- The invariant of solveAll relative to a completion S: the board invariants,
every placed value is the digit of S, every empty cell has the digit of S as a
candidate, and no empty cell has a digit placed in one of its sets as a
candidate. -/
def SoundFix (S : Ptr → Int) (b : Board) : Prop :=
  CountConsistent b ∧ PlacedEmpty b ∧ WellFormed b ∧ Agrees b S ∧ Sound b S ∧ NoPlacedCand b

/-- What the scan of bestGuess always keeps: either minNotes is still 10 and no
empty cell seen has fewer than 10 notes, or (row, col) is an empty cell. -/
def BestEmpty (b : Board) (s : BestState) (seen : Ptr → Prop) : Prop :=
  (s.minNotes = 10 ∧ ∀ q, seen q → (b q).value = 0 → 10 ≤ (b q).noteCount) ∨
  ((b (s.row, s.col)).value = 0 ∧ s.minNotes < 10)

/-- The invariant of the while loop of solveLoop relative to a completion S. -/
def SoundInvariant (S : Ptr → Int) (b : Board) : Prop :=
  CountConsistent b ∧ PlacedEmpty b ∧ WellFormed b ∧ Agrees b S ∧ Sound b S

/-! ## The pointer table -/

theorem paths_injective : ∀ (i : Fin 27) (x y : Fin 9), paths i x = paths i y → x = y := by decide

theorem paths_row : ∀ p : Ptr, paths ⟨p.1.val, by omega⟩ p.2 = p := by decide

theorem paths_col : ∀ p : Ptr, paths ⟨p.2.val + 9, by omega⟩ p.1 = p := by decide

theorem paths_sq : ∀ p : Ptr, paths ⟨getSq p.1.val p.2.val + 18, by unfold getSq; omega⟩
    ⟨3 * (p.1.val % 3) + p.2.val % 3, by omega⟩ = p := by decide

theorem paths_owner : ∀ (i : Fin 27) (n : Fin 9),
    i.val = (paths i n).1.val ∨ i.val = (paths i n).2.val + 9 ∨
      i.val = getSq (paths i n).1.val (paths i n).2.val + 18 := by decide

theorem paths_rows : ∀ (i : Fin 27) (n : Fin 9), i.val < 9 →
    ((paths i n).1.val, (paths i n).2.val) = (i.val, n.val) := by decide

theorem paths_cols : ∀ (i : Fin 27) (n : Fin 9), 9 ≤ i.val → i.val < 18 →
    ((paths i n).1.val, (paths i n).2.val) = (n.val, i.val - 9) := by decide

theorem paths_squares : ∀ (i : Fin 27) (n : Fin 9), 18 ≤ i.val →
    ((paths i n).1.val, (paths i n).2.val) = (getRow (i.val - 18) n.val, getCol (i.val - 18) n.val) := by
  decide

theorem paths_row_owner : ∀ (i : Fin 27) (n : Fin 9), i.val < 9 → i.val = (paths i n).1.val := by
  decide

theorem paths_col_owner : ∀ (i : Fin 27) (n : Fin 9), 9 ≤ i.val → i.val < 18 →
    i.val = (paths i n).2.val + 9 := by decide

theorem paths_sq_owner : ∀ (i : Fin 27) (n : Fin 9), 18 ≤ i.val →
    i.val = getSq (paths i n).1.val (paths i n).2.val + 18 := by decide

set_option maxRecDepth 1000000 in
theorem definePaths_table : ∀ (i : Fin 27) (n : Fin 9),
    definePaths i.val n.val = some ((paths i n).1.val, (paths i n).2.val) := by decide

set_option maxRecDepth 1000000 in
theorem squareCell_injective : ∀ a b : Fin 9 × Fin 9, squareCell a = squareCell b → a = b := by
  decide


/-! ## The completion check -/

theorem trivialTest_iff (b : Board) : trivialTest b = true ↔ ∀ p, (b p).value ≠ 0 := by
  unfold trivialTest
  simp only [List.all_eq_true, List.mem_finRange, true_implies, decide_eq_true_eq]
  constructor
  · intro h p; exact h p.1 p.2
  · intro h r c; exact h (r, c)

theorem card_filter_finRange (p : Fin 9 → Prop) [DecidablePred p] :
    (Finset.univ.filter p).card = ((List.finRange 9).filter fun n => decide (p n)).length := by
  rfl

theorem setTestNums_fold (v : Fin 9 → Int) (k : Int) (l : List (Fin 9)) (init : IntArr) :
    (l.foldl (fun nums n => setAt nums (v n - 1) (nums (v n - 1) + 1)) init) k =
      init k + ((l.filter fun n => decide (v n - 1 = k)).length : Int) := by
  induction l generalizing init with
  | nil => simp
  | cons a l ih =>
    rw [List.foldl_cons, ih]
    by_cases h : v a - 1 = k
    · simp [setAt, List.filter_cons, h]; omega
    · have h2 : ¬ k = v a - 1 := fun e => h e.symm
      simp [setAt, List.filter_cons, h, h2]

theorem setTestNums_eq (b : Board) (cells : Fin 9 → Ptr) (k : Int) :
    setTestNums b cells k =
      ((Finset.univ.filter fun n : Fin 9 => (b (cells n)).value - 1 = k).card : Int) := by
  unfold setTestNums
  rw [setTestNums_fold (fun n => (b (cells n)).value), card_filter_finRange]
  simp

theorem setTest_iff (b : Board) : setTest b = true ↔
    ∀ (i : Fin 27) (d : Fin 9), occurrences (fun p => (b p).value) i ((d.val : Int) + 1) = 1 := by
  unfold setTest occurrences
  simp only [List.all_eq_true, List.mem_finRange, true_implies, decide_eq_true_eq, setTestNums_eq]
  constructor
  · intro h i d
    have := h i d
    have e : (fun n : Fin 9 => (b (paths i n)).value = (d.val : Int) + 1) =
        (fun n : Fin 9 => (b (paths i n)).value - 1 = (d.val : Int)) := by
      funext n; apply propext; constructor <;> intro h <;> omega
    simp only [e]
    exact_mod_cast this
  · intro h i d
    have := h i d
    have e : (fun n : Fin 9 => (b (paths i n)).value = (d.val : Int) + 1) =
        (fun n : Fin 9 => (b (paths i n)).value - 1 = (d.val : Int)) := by
      funext n; apply propext; constructor <;> intro h <;> omega
    simp only [e] at this
    exact_mod_cast this


theorem testBoard_eq_true_iff (b : Board) :
    testBoard b = true ↔
      (∀ p, (b p).value ≠ 0) ∧
      ∀ (i : Fin 27) (d : Fin 9), occurrences (fun p => (b p).value) i ((d.val : Int) + 1) = 1 := by
  unfold testBoard
  rw [Bool.and_eq_true, trivialTest_iff, setTest_iff]

/-! ## Clearing notes: the shrink relation -/

theorem foldl_invariant {α β : Type} (P : β → Prop) (f : β → α → β) (l : List α) (init : β)
    (h0 : P init) (hstep : ∀ s a, a ∈ l → P s → P (f s a)) : P (l.foldl f init) := by
  induction l generalizing init with
  | nil => exact h0
  | cons a l ih =>
    rw [List.foldl_cons]
    exact ih _ (hstep _ _ (List.mem_cons_self _ _) h0)
      (fun s x hx hs => hstep s x (List.mem_cons_of_mem _ hx) hs)

theorem setCell_same (b : Board) (p : Ptr) (c : Cell) : setCell b p c p = c := by
  simp [setCell]

theorem setCell_other (b : Board) (p q : Ptr) (c : Cell) (h : q ≠ p) : setCell b p c q = b q := by
  simp [setCell, h]

theorem setCell_self (b : Board) (p : Ptr) : setCell b p (b p) = b := by
  funext q
  by_cases h : q = p
  · subst h; simp [setCell]
  · simp [setCell, h]

theorem sum_update (f : Fin 9 → Int) (n : Fin 9) (v : Int) :
    ∑ m, Function.update f n v m = ∑ m, f m - f n + v := by
  rw [Finset.sum_update_of_mem (Finset.mem_univ n)]
  have := Finset.add_sum_erase Finset.univ f (Finset.mem_univ n)
  rw [Finset.sdiff_singleton_eq_erase]
  omega

theorem CellShrink.cs_refl (c : Cell) : CellShrink c c :=
  ⟨rfl, rfl, rfl, fun _ => Or.inl rfl, rfl, fun _ => rfl⟩

theorem CellShrink.cs_trans {c1 c2 c3 : Cell} (h12 : CellShrink c1 c2) (h23 : CellShrink c2 c3) :
    CellShrink c1 c3 := by
  obtain ⟨v1, r1, k1, n1, s1, p1⟩ := h12
  obtain ⟨v2, r2, k2, n2, s2, p2⟩ := h23
  refine ⟨v2.trans v1, r2.trans r1, k2.trans k1, ?_, s2.trans s1, ?_⟩
  · intro n
    rcases n2 n with h | h
    · rcases n1 n with h' | h'
      · exact Or.inl (h.trans h')
      · exact Or.inr (h.trans h')
    · exact Or.inr h
  · intro h
    have e := p1 h
    rw [p2 (by rw [e]; exact h), e]

theorem Shrink.sh_refl (b : Board) : Shrink b b := fun p => CellShrink.cs_refl (b p)

theorem Shrink.sh_trans {b1 b2 b3 : Board} (h12 : Shrink b1 b2) (h23 : Shrink b2 b3) :
    Shrink b1 b3 := fun p => (h12 p).cs_trans (h23 p)

theorem Shrink.setCell {b : Board} {p : Ptr} {c : Cell} (h : CellShrink (b p) c) :
    Shrink b (setCell b p c) := by
  intro q
  by_cases e : q = p
  · subst e; rw [setCell_same]; exact h
  · rw [setCell_other _ _ _ _ e]; exact CellShrink.cs_refl _

theorem Changed.of_shrink_right {b1 b2 b3 : Board} (h : Changed b1 b2) (h23 : Shrink b2 b3) :
    Changed b1 b3 := by
  obtain ⟨p, n, h1, h2⟩ := h
  refine ⟨p, n, h1, ?_⟩
  rcases (h23 p).2.2.2.1 n with e | e
  · rw [e, h2]
  · exact e

theorem Changed.of_shrink_left {b1 b2 b3 : Board} (h12 : Shrink b1 b2) (h : Changed b2 b3) :
    Changed b1 b3 := by
  obtain ⟨p, n, h1, h2⟩ := h
  refine ⟨p, n, ?_, h2⟩
  rcases (h12 p).2.2.2.1 n with e | e
  · rw [← e]; exact h1
  · exact absurd e h1

theorem UpdSpec.us_refl (b : Board) : UpdSpec b (0, b) :=
  ⟨Shrink.sh_refl b, le_refl _, fun _ => rfl, fun h => absurd rfl h⟩

theorem UpdSpec.us_seq {b b1 b2 : Board} {r1 r2 : Int} (h1 : UpdSpec b (r1, b1))
    (h2 : UpdSpec b1 (r2, b2)) : UpdSpec b (r1 + r2, b2) := by
  obtain ⟨s1, n1, z1, c1⟩ := h1
  obtain ⟨s2, n2, z2, c2⟩ := h2
  simp only at s1 n1 z1 c1 s2 n2 z2 c2
  refine ⟨s1.sh_trans s2, by simp only; omega, ?_, ?_⟩
  · intro h
    simp only at h
    have e1 : r1 = 0 := by omega
    have e2 : r2 = 0 := by omega
    simp only
    rw [z2 e2, z1 e1]
  · intro h
    simp only at h
    by_cases e1 : r1 = 0
    · have e2 : r2 ≠ 0 := by omega
      exact Changed.of_shrink_left s1 (c2 e2)
    · exact Changed.of_shrink_right (c1 e1) s2

theorem UpdSpec.us_flag {b b1 : Board} {r1 : Int} (h1 : UpdSpec b (r1, b1)) :
    UpdSpec b ((if r1 ≠ 0 then 1 else 0), b1) := by
  obtain ⟨s1, n1, z1, c1⟩ := h1
  simp only at s1 n1 z1 c1
  refine ⟨s1, ?_, ?_, ?_⟩
  · simp only; split <;> omega
  · simp only; intro h; split at h
    · omega
    · exact z1 (by omega)
  · simp only; intro h; split at h
    · exact c1 (by assumption)
    · omega

/-! ## Value elimination (singleCheck) -/

theorem clearNote_step (updater : IntArr) (s : Cell × Int) (a : Fin 9) (hv : s.1.value = 0) :
    CellShrink s.1 (clearNote updater s a).1 ∧
    (∀ m, (clearNote updater s a).1.notes m =
      if m = a ∧ updater (m.val : Int) = 0 ∧ s.1.notes m = 1 then 0 else s.1.notes m) ∧
    (clearNote updater s a = s ∨
      ((clearNote updater s a).2 = 1 ∧ s.1.notes a ≠ 0 ∧ (clearNote updater s a).1.notes a = 0)) := by
  unfold clearNote
  by_cases h : updater (a.val : Int) = 0 ∧ s.1.notes a = 1
  · rw [if_pos h]
    refine ⟨⟨rfl, rfl, rfl, ?_, ?_, fun hne => absurd hv hne⟩, ?_, Or.inr ⟨rfl, ?_, ?_⟩⟩
    · intro n
      by_cases e : n = a
      · subst e; right; simp
      · left; simp [Function.update_noteq e]
    · simp only [noteSum, sum_update]
      omega
    · intro m
      by_cases e : m = a
      · subst e; simp [h.1, h.2]
      · simp [Function.update_noteq e, e]
    · rw [h.2]; decide
    · simp
  · rw [if_neg h]
    refine ⟨CellShrink.cs_refl _, ?_, Or.inl rfl⟩
    intro m
    by_cases e : m = a
    · subst e; rw [if_neg]; intro hh; exact h hh.2
    · simp [e]

theorem clearNote_fold (updater : IntArr) (l : List (Fin 9)) (s : Cell × Int)
    (hv : s.1.value = 0) :
    CellShrink s.1 (l.foldl (clearNote updater) s).1 ∧
    (∀ m, (l.foldl (clearNote updater) s).1.notes m =
      if m ∈ l ∧ updater (m.val : Int) = 0 ∧ s.1.notes m = 1 then 0 else s.1.notes m) ∧
    (l.foldl (clearNote updater) s = s ∨
      ((l.foldl (clearNote updater) s).2 = 1 ∧
        ∃ m, s.1.notes m ≠ 0 ∧ (l.foldl (clearNote updater) s).1.notes m = 0)) := by
  induction l generalizing s with
  | nil => exact ⟨CellShrink.cs_refl _, fun m => by simp, Or.inl rfl⟩
  | cons a l ih =>
    rw [List.foldl_cons]
    obtain ⟨hs, hn, hc⟩ := clearNote_step updater s a hv
    have hv1 : (clearNote updater s a).1.value = 0 := by rw [hs.1, hv]
    obtain ⟨is, inn, ic⟩ := ih (clearNote updater s a) hv1
    refine ⟨hs.cs_trans is, ?_, ?_⟩
    · intro m
      rw [inn m, hn m]
      by_cases e : m = a
      · subst e
        by_cases c1 : updater (m.val : Int) = 0 ∧ s.1.notes m = 1
        · simp [c1.1, c1.2]
        · have : ¬ (updater (m.val : Int) = 0 ∧ s.1.notes m = 1) := c1
          simp only [true_and, List.mem_cons]
          rw [if_neg c1]
          by_cases c2 : m ∈ l
          · simp [c2, c1]
          · simp [c2, c1]
      · simp [e]
    · rcases ic with ic | ⟨ic1, m, ic2, ic3⟩
      · rw [ic]
        rcases hc with hc | ⟨hc1, hc2, hc3⟩
        · left; exact hc
        · right; exact ⟨hc1, a, hc2, hc3⟩
      · right
        refine ⟨ic1, m, ?_, ic3⟩
        rcases hs.2.2.2.1 m with e | e
        · rw [← e]; exact ic2
        · exact absurd e ic2


theorem clearStep_spec (cells : Fin 9 → Ptr) (updater : IntArr) (s : Int × Board) (i : Fin 9) :
    Shrink s.2 (clearStep cells updater s i).2 ∧
    (∀ p m, ((clearStep cells updater s i).2 p).notes m =
      if (s.2 p).value = 0 ∧ cells i = p ∧ updater (m.val : Int) = 0 ∧ (s.2 p).notes m = 1
      then 0 else (s.2 p).notes m) ∧
    (clearStep cells updater s i = s ∨
      ((clearStep cells updater s i).1 = 1 ∧ Changed s.2 (clearStep cells updater s i).2)) := by
  unfold clearStep
  by_cases hv : (s.2 (cells i)).value = 0
  · rw [if_pos hv]
    obtain ⟨hs, hn, hc⟩ := clearNote_fold updater (List.finRange 9) (s.2 (cells i), s.1) hv
    dsimp only at hs hn hc ⊢
    refine ⟨Shrink.setCell hs, ?_, ?_⟩
    · intro p m
      by_cases e : p = cells i
      · subst e
        simp only [setCell_same]
        rw [hn m]
        simp [hv]
      · rw [setCell_other _ _ _ _ e]
        have : ¬ cells i = p := fun h => e h.symm
        simp [this]
    · rcases hc with hc | ⟨hc1, m, hc2, hc3⟩
      · left
        simp only [hc, setCell_self]
      · right
        refine ⟨hc1, cells i, m, hc2, ?_⟩
        simp only [setCell_same]
        exact hc3
  · rw [if_neg hv]
    refine ⟨Shrink.sh_refl _, ?_, Or.inl rfl⟩
    intro p m
    rw [if_neg]
    rintro ⟨h1, h2, -⟩
    rw [h2] at hv
    exact hv h1

theorem clearConflicts_fold (cells : Fin 9 → Ptr) (updater : IntArr) (l : List (Fin 9))
    (s : Int × Board) :
    Shrink s.2 (l.foldl (clearStep cells updater) s).2 ∧
    (∀ p m, ((l.foldl (clearStep cells updater) s).2 p).notes m =
      if (s.2 p).value = 0 ∧ (∃ x ∈ l, cells x = p) ∧ updater (m.val : Int) = 0 ∧
        (s.2 p).notes m = 1
      then 0 else (s.2 p).notes m) ∧
    (l.foldl (clearStep cells updater) s = s ∨
      ((l.foldl (clearStep cells updater) s).1 = 1 ∧
        Changed s.2 (l.foldl (clearStep cells updater) s).2)) := by
  induction l generalizing s with
  | nil => exact ⟨Shrink.sh_refl _, fun p m => by simp, Or.inl rfl⟩
  | cons a l ih =>
    rw [List.foldl_cons]
    obtain ⟨hs, hn, hc⟩ := clearStep_spec cells updater s a
    obtain ⟨is, inn, ic⟩ := ih (clearStep cells updater s a)
    refine ⟨hs.sh_trans is, ?_, ?_⟩
    · intro p m
      rw [inn p m, hn p m, (hs p).1]
      by_cases h0 : (s.2 p).value = 0
      · by_cases h1 : updater (m.val : Int) = 0
        · by_cases h2 : (s.2 p).notes m = 1
          · by_cases h3 : cells a = p
            · simp [h0, h1, h2, h3]
            · simp [h0, h1, h2, h3]
          · simp [h0, h1, h2]
        · simp [h0, h1]
      · simp [h0]
    · rcases ic with ic | ⟨ic1, ic2⟩
      · rw [ic]
        rcases hc with hc | ⟨hc1, hc2⟩
        · left; exact hc
        · right; exact ⟨hc1, hc2⟩
      · right
        exact ⟨ic1, Changed.of_shrink_left hs ic2⟩

theorem clearConflicts_spec (b : Board) (cells : Fin 9 → Ptr) (updater : IntArr) :
    UpdSpec b (clearConflicts b cells updater) ∧
    (∀ p m, ((clearConflicts b cells updater).2 p).notes m =
      if (b p).value = 0 ∧ (∃ x, cells x = p) ∧ updater (m.val : Int) = 0 ∧ (b p).notes m = 1
      then 0 else (b p).notes m) ∧
    ((clearConflicts b cells updater).1 = 0 ∨ (clearConflicts b cells updater).1 = 1) := by
  unfold clearConflicts
  obtain ⟨hs, hn, hc⟩ := clearConflicts_fold cells updater (List.finRange 9) (0, b)
  refine ⟨⟨hs, ?_, ?_, ?_⟩, ?_, ?_⟩
  · rcases hc with hc | ⟨hc, -⟩
    · rw [hc]
    · rw [hc]; decide
  · intro h
    rcases hc with hc | ⟨hc, -⟩
    · rw [hc]
    · rw [hc] at h; exact absurd h (by decide)
  · intro h
    rcases hc with hc | ⟨-, hc⟩
    · rw [hc] at h; exact absurd rfl h
    · exact hc
  · intro p m
    rw [hn p m]
    simp
  · rcases hc with hc | ⟨hc, -⟩
    · left; rw [hc]
    · right; exact hc


theorem initUpdater_fold (b : Board) (cells : Fin 9 → Ptr) (l : List (Fin 9)) (u : IntArr)
    (k : Int) :
    (l.foldl (fun u i => if (b (cells i)).value ≠ 0 then
        setAt u ((b (cells i)).value - 1) 0 else u) u) k =
      if ∃ j ∈ l, (b (cells j)).value ≠ 0 ∧ (b (cells j)).value - 1 = k then 0 else u k := by
  induction l generalizing u with
  | nil => simp
  | cons a l ih =>
    rw [List.foldl_cons, ih]
    have hex : (∃ j ∈ a :: l, (b (cells j)).value ≠ 0 ∧ (b (cells j)).value - 1 = k) ↔
        (((b (cells a)).value ≠ 0 ∧ (b (cells a)).value - 1 = k) ∨
          ∃ j ∈ l, (b (cells j)).value ≠ 0 ∧ (b (cells j)).value - 1 = k) := by
      simp only [List.mem_cons, exists_eq_or_imp]
    simp only [hex]
    by_cases h : ∃ j ∈ l, (b (cells j)).value ≠ 0 ∧ (b (cells j)).value - 1 = k
    · simp only [h, or_true, if_true]
    · by_cases hv : (b (cells a)).value ≠ 0
      · by_cases hk : (b (cells a)).value - 1 = k
        · simp [h, hv, hk, setAt]
        · have : ¬ k = (b (cells a)).value - 1 := fun e => hk e.symm
          simp [h, hv, hk, setAt, this]
      · simp [h, hv]

theorem initUpdater_eq (b : Board) (cells : Fin 9 → Ptr) (m : Fin 9) :
    initUpdater b cells (fun _ => 1) (m.val : Int) = 0 ↔
      ∃ j, (b (cells j)).value = (m.val : Int) + 1 := by
  unfold initUpdater
  rw [initUpdater_fold]
  constructor
  · intro h
    split at h
    · rename_i h'
      obtain ⟨j, -, h1, h2⟩ := h'
      exact ⟨j, by omega⟩
    · exact absurd h (by decide)
  · rintro ⟨j, hj⟩
    rw [if_pos]
    exact ⟨j, List.mem_finRange j, by omega, by omega⟩

theorem singleCheck_spec (b : Board) (cells : Fin 9 → Ptr) :
    UpdSpec b (singleCheck b cells) ∧
    (∀ p m, ((singleCheck b cells).2 p).notes m =
      if (b p).value = 0 ∧ (∃ x, cells x = p) ∧
        (∃ j, (b (cells j)).value = (m.val : Int) + 1) ∧ (b p).notes m = 1
      then 0 else (b p).notes m) ∧
    ((singleCheck b cells).1 = 0 ∨ (singleCheck b cells).1 = 1) := by
  unfold singleCheck
  obtain ⟨h1, h2, h3⟩ := clearConflicts_spec b cells (initUpdater b cells (fun _ => 1))
  refine ⟨h1, ?_, h3⟩
  intro p m
  rw [h2 p m]
  simp only [initUpdater_eq]


/-! ## Naked-subset elimination (groupCheck) -/

theorem cancelCell_fold (l : List (Fin 9)) (s : Cell × Int) :
    (l.foldl (fun s n => (({ s.1 with notes := Function.update s.1.notes n 0 } : Cell),
        s.2 + s.1.notes n)) s).1.value = s.1.value ∧
    (l.foldl (fun s n => (({ s.1 with notes := Function.update s.1.notes n 0 } : Cell),
        s.2 + s.1.notes n)) s).1.row = s.1.row ∧
    (l.foldl (fun s n => (({ s.1 with notes := Function.update s.1.notes n 0 } : Cell),
        s.2 + s.1.notes n)) s).1.col = s.1.col ∧
    (l.foldl (fun s n => (({ s.1 with notes := Function.update s.1.notes n 0 } : Cell),
        s.2 + s.1.notes n)) s).1.noteCount = s.1.noteCount ∧
    (∀ m, (l.foldl (fun s n => (({ s.1 with notes := Function.update s.1.notes n 0 } : Cell),
        s.2 + s.1.notes n)) s).1.notes m = if m ∈ l then 0 else s.1.notes m) ∧
    (l.foldl (fun s n => (({ s.1 with notes := Function.update s.1.notes n 0 } : Cell),
        s.2 + s.1.notes n)) s).2 +
      noteSum (l.foldl (fun s n => (({ s.1 with notes := Function.update s.1.notes n 0 } : Cell),
        s.2 + s.1.notes n)) s).1 = s.2 + noteSum s.1 := by
  induction l generalizing s with
  | nil => simp
  | cons a l ih =>
    rw [List.foldl_cons]
    obtain ⟨h1, h2, h3, h4, h5, h6⟩ := ih
      (({ s.1 with notes := Function.update s.1.notes a 0 } : Cell), s.2 + s.1.notes a)
    refine ⟨h1, h2, h3, h4, ?_, ?_⟩
    · intro m
      rw [h5 m]
      by_cases e : m = a
      · subst e; simp
      · simp [Function.update_noteq e, e]
    · rw [h6]
      simp only [noteSum, sum_update]
      omega

theorem cancelCell_spec (l : List (Fin 9)) (c : Cell) :
    (cancelCell l c).1.value = c.value ∧ (cancelCell l c).1.row = c.row ∧
    (cancelCell l c).1.col = c.col ∧ (cancelCell l c).1.noteCount = c.noteCount ∧
    (∀ m, (cancelCell l c).1.notes m = if m ∈ l then 0 else c.notes m) ∧
    (cancelCell l c).2 + noteSum (cancelCell l c).1 = noteSum c := by
  have h := cancelCell_fold l (c, 0)
  simp only [zero_add] at h
  exact h

theorem Cell.eq_of_fields {c1 c2 : Cell} (h1 : c1.value = c2.value) (h2 : c1.row = c2.row)
    (h3 : c1.col = c2.col) (h4 : c1.noteCount = c2.noteCount) (h5 : ∀ m, c1.notes m = c2.notes m) :
    c1 = c2 := by
  cases c1; cases c2
  simp only at h1 h2 h3 h4 h5
  have h6 := funext h5
  subst h1 h2 h3 h4 h6
  rfl

theorem cancel_cellShrink (l : List (Fin 9)) (c : Cell) (hv : c.value = 0) :
    CellShrink c { (cancelCell l c).1 with
      noteCount := (cancelCell l c).1.noteCount - (cancelCell l c).2 } := by
  obtain ⟨h1, h2, h3, h4, h5, h6⟩ := cancelCell_spec l c
  refine ⟨h1, h2, h3, ?_, ?_, fun hne => absurd hv hne⟩
  · intro m
    simp only [h5 m]
    by_cases e : m ∈ l
    · right; simp [e]
    · left; simp [e]
  · simp only [noteSum] at h6 ⊢
    rw [h4]
    omega

theorem cancel_cases (l : List (Fin 9)) (c : Cell) (hz : ∀ m, c.notes m = 0 ∨ c.notes m = 1) :
    ((cancelCell l c).2 = 0 ∧ ({ (cancelCell l c).1 with
        noteCount := (cancelCell l c).1.noteCount - (cancelCell l c).2 } : Cell) = c) ∨
    ((cancelCell l c).2 ≠ 0 ∧ ∃ m, c.notes m ≠ 0 ∧ (cancelCell l c).1.notes m = 0) := by
  obtain ⟨h1, h2, h3, h4, h5, h6⟩ := cancelCell_spec l c
  by_cases h : ∃ m, m ∈ l ∧ c.notes m ≠ 0
  · right
    obtain ⟨m, hm, hne⟩ := h
    refine ⟨?_, m, hne, by rw [h5 m, if_pos hm]⟩
    have hsum : (cancelCell l c).2 = ∑ j, (c.notes j - (cancelCell l c).1.notes j) := by
      rw [Finset.sum_sub_distrib]
      simp only [noteSum] at h6
      omega
    have hnn : ∀ j ∈ (Finset.univ : Finset (Fin 9)),
        0 ≤ c.notes j - (cancelCell l c).1.notes j := by
      intro j _
      rw [h5 j]
      rcases hz j with e | e <;> split <;> omega
    have hle := Finset.single_le_sum hnn (Finset.mem_univ m)
    rw [h5 m, if_pos hm] at hle
    rcases hz m with e | e
    · exact absurd e hne
    · omega
  · left
    have hn : ∀ m, (cancelCell l c).1.notes m = c.notes m := by
      intro m
      rw [h5 m]
      split
      · rename_i hm
        by_contra hh
        exact h ⟨m, hm, fun e => hh e.symm⟩
      · rfl
    have hs : noteSum (cancelCell l c).1 = noteSum c := by
      simp only [noteSum, hn]
    have h0 : (cancelCell l c).2 = 0 := by omega
    refine ⟨h0, Cell.eq_of_fields h1 h2 h3 ?_ hn⟩
    simp only [h0, h4, sub_zero]

theorem cancelStep_spec (cells : Fin 9 → Ptr) (indices : List (Fin 9)) (k : Int)
    (nv : List (Fin 9)) (s : Int × Board) (i : Fin 9) :
    Shrink s.2 (cancelStep cells indices k nv s i).2 ∧
    (∀ p m, ((cancelStep cells indices k nv s i).2 p).notes m =
      if (s.2 p).value = 0 ∧ (cells i = p ∧ inArray i indices k = false) ∧ m ∈ nv
      then 0 else (s.2 p).notes m) ∧
    ((∀ m, (s.2 (cells i)).notes m = 0 ∨ (s.2 (cells i)).notes m = 1) →
      (cancelStep cells indices k nv s i = s ∨
        ((cancelStep cells indices k nv s i).1 = 1 ∧
          Changed s.2 (cancelStep cells indices k nv s i).2))) := by
  unfold cancelStep
  by_cases hv : (s.2 (cells i)).value = 0 ∧ inArray i indices k = false
  · rw [if_pos hv]
    dsimp only
    refine ⟨Shrink.setCell (cancel_cellShrink nv _ hv.1), ?_, ?_⟩
    · intro p m
      by_cases e : p = cells i
      · subst e
        simp only [setCell_same]
        rw [(cancelCell_spec nv _).2.2.2.2.1 m]
        simp [hv.1, hv.2]
      · rw [setCell_other _ _ _ _ e]
        have : ¬ cells i = p := fun h => e h.symm
        simp [this]
    · intro hz
      rcases cancel_cases nv _ hz with ⟨h0, hc⟩ | ⟨h0, m, hm1, hm2⟩
      · left
        rw [hc, setCell_self]
        simp [h0]
      · right
        refine ⟨by simp [h0], cells i, m, hm1, ?_⟩
        simp only [setCell_same]
        exact hm2
  · rw [if_neg hv]
    refine ⟨Shrink.sh_refl _, ?_, fun _ => Or.inl rfl⟩
    intro p m
    rw [if_neg]
    rintro ⟨h1, ⟨h2, h3⟩, -⟩
    rw [← h2] at h1
    exact hv ⟨h1, h3⟩

theorem cancel_fold (cells : Fin 9 → Ptr) (indices : List (Fin 9)) (k : Int)
    (nv : List (Fin 9)) (l : List (Fin 9)) (s : Int × Board) :
    Shrink s.2 (l.foldl (cancelStep cells indices k nv) s).2 ∧
    (∀ p m, ((l.foldl (cancelStep cells indices k nv) s).2 p).notes m =
      if (s.2 p).value = 0 ∧ (∃ x ∈ l, cells x = p ∧ inArray x indices k = false) ∧ m ∈ nv
      then 0 else (s.2 p).notes m) ∧
    ((∀ p m, (s.2 p).notes m = 0 ∨ (s.2 p).notes m = 1) →
      (l.foldl (cancelStep cells indices k nv) s = s ∨
        ((l.foldl (cancelStep cells indices k nv) s).1 = 1 ∧
          Changed s.2 (l.foldl (cancelStep cells indices k nv) s).2))) := by
  induction l generalizing s with
  | nil => exact ⟨Shrink.sh_refl _, fun p m => by simp, fun _ => Or.inl rfl⟩
  | cons a l ih =>
    rw [List.foldl_cons]
    obtain ⟨hs, hn, hc⟩ := cancelStep_spec cells indices k nv s a
    obtain ⟨is, inn, ic⟩ := ih (cancelStep cells indices k nv s a)
    refine ⟨hs.sh_trans is, ?_, ?_⟩
    · intro p m
      rw [inn p m, hn p m, (hs p).1]
      simp only [List.mem_cons, exists_eq_or_imp]
      by_cases h0 : (s.2 p).value = 0
      · by_cases h1 : m ∈ nv
        · by_cases h3 : cells a = p ∧ inArray a indices k = false
          · simp [h0, h1, h3]
          · simp [h0, h1, h3]
        · simp [h0, h1]
      · simp [h0]
    · intro hz
      have hz1 : ∀ p m, ((cancelStep cells indices k nv s a).2 p).notes m = 0 ∨
          ((cancelStep cells indices k nv s a).2 p).notes m = 1 := by
        intro p m
        rcases (hs p).2.2.2.1 m with e | e
        · rw [e]; exact hz p m
        · exact Or.inl e
      rcases ic hz1 with ic | ⟨ic1, ic2⟩
      · rw [ic]
        rcases hc (hz _) with hc | ⟨hc1, hc2⟩
        · left; exact hc
        · right; exact ⟨hc1, hc2⟩
      · right
        exact ⟨ic1, Changed.of_shrink_left hs ic2⟩

theorem groupCancel_spec (b : Board) (cells : Fin 9 → Ptr) (indices : List (Fin 9)) (k : Int) :
    Shrink b (groupCancel b cells indices k).2 ∧
    (∀ p m, ((groupCancel b cells indices k).2 p).notes m =
      if (b p).value = 0 ∧ (∃ x, cells x = p ∧ inArray x indices k = false) ∧
        m ∈ (noteValuesOf (b (cells (indices.headD 0)))).take k.toNat
      then 0 else (b p).notes m) ∧
    ((∀ p m, (b p).notes m = 0 ∨ (b p).notes m = 1) → UpdSpec b (groupCancel b cells indices k)) := by
  unfold groupCancel
  dsimp only
  obtain ⟨hs, hn, hc⟩ := cancel_fold cells indices k
    ((noteValuesOf (b (cells (indices.headD 0)))).take k.toNat) (List.finRange 9) (0, b)
  refine ⟨hs, ?_, ?_⟩
  · intro p m
    rw [hn p m]
    simp
  · intro hz
    refine ⟨hs, ?_, ?_, ?_⟩
    · rcases hc hz with hc | ⟨hc, -⟩
      · rw [hc]
      · rw [hc]; decide
    · intro h
      rcases hc hz with hc | ⟨hc, -⟩
      · rw [hc]
      · rw [hc] at h; exact absurd h (by decide)
    · intro h
      rcases hc hz with hc | ⟨-, hc⟩
      · rw [hc] at h; exact absurd rfl h
      · exact hc


/-! ## updateSet, updateAll and updateCell only clear notes -/

theorem Shrink.sh_zeroOne {b1 b2 : Board} (h : Shrink b1 b2) (hz : ZeroOne b1) : ZeroOne b2 := by
  intro p m
  rcases (h p).2.2.2.1 m with e | e
  · rw [e]; exact hz p m
  · exact Or.inl e

theorem UpdSpecZ.uz_refl (b : Board) : UpdSpecZ b (0, b) := ⟨Shrink.sh_refl b, fun _ => UpdSpec.us_refl b⟩

theorem UpdSpecZ.uz_seq {b b1 b2 : Board} {r1 r2 : Int} (h1 : UpdSpecZ b (r1, b1))
    (h2 : UpdSpecZ b1 (r2, b2)) : UpdSpecZ b (r1 + r2, b2) :=
  ⟨h1.1.sh_trans h2.1, fun hz => UpdSpec.us_seq (h1.2 hz) (h2.2 (h1.1.sh_zeroOne hz))⟩

theorem UpdSpecZ.uz_flag {b b1 : Board} {r1 : Int} (h1 : UpdSpecZ b (r1, b1)) :
    UpdSpecZ b ((if r1 ≠ 0 then 1 else 0), b1) :=
  ⟨h1.1, fun hz => UpdSpec.us_flag (h1.2 hz)⟩

theorem groupCancel_updSpecZ (b : Board) (cells : Fin 9 → Ptr) (indices : List (Fin 9))
    (k : Int) :
    UpdSpecZ b ((groupCancel b cells indices k).1, (groupCancel b cells indices k).2) :=
  ⟨(groupCancel_spec b cells indices k).1, fun hz => (groupCancel_spec b cells indices k).2.2 hz⟩

theorem singleCheck_updSpecZ (b : Board) (cells : Fin 9 → Ptr) :
    UpdSpecZ b ((singleCheck b cells).1, (singleCheck b cells).2) :=
  ⟨(singleCheck_spec b cells).1.1, fun _ => (singleCheck_spec b cells).1⟩

theorem groupInnerStep_upd (cells : Fin 9 → Ptr) (i n : Fin 9) (s : GroupState) :
    ∃ d, (groupInnerStep cells i n s).check = s.check + d ∧
      UpdSpecZ s.board (d, (groupInnerStep cells i n s).board) := by
  unfold groupInnerStep
  dsimp only
  generalize (if (s.board (cells i)).noteCount = (s.board (cells n)).noteCount ∧
      equalsArr (s.board (cells i)).notes (s.board (cells n)).notes = true
    then s.indices ++ [n] else s.indices) = idx
  split
  · exact ⟨_, rfl, groupCancel_updSpecZ _ _ _ _⟩
  · exact ⟨0, by simp, UpdSpecZ.uz_refl _⟩

theorem groupCheckInner_upd (cells : Fin 9 → Ptr) (i : Fin 9) (l : List (Fin 9))
    (s : GroupState) :
    ∃ d, (groupCheckInner cells i l s).check = s.check + d ∧
      UpdSpecZ s.board (d, (groupCheckInner cells i l s).board) := by
  induction l generalizing s with
  | nil =>
    rw [groupCheckInner]
    exact ⟨0, by simp, UpdSpecZ.uz_refl _⟩
  | cons n rest ih =>
    rw [groupCheckInner]
    obtain ⟨d1, e1, h1⟩ := groupInnerStep_upd cells i n s
    split
    · exact ⟨d1, e1, h1⟩
    · obtain ⟨d2, e2, h2⟩ := ih (groupInnerStep cells i n s)
      exact ⟨d1 + d2, by omega, UpdSpecZ.uz_seq h1 h2⟩

theorem groupStep_upd (cells : Fin 9 → Ptr) (s : Int × Board) (i : Fin 9) :
    ∃ d, (groupStep cells s i).1 = s.1 + d ∧ UpdSpecZ s.2 (d, (groupStep cells s i).2) := by
  unfold groupStep
  split
  · exact groupCheckInner_upd cells i _ { check := s.1, board := s.2, indices := [i] }
  · exact ⟨0, by simp, UpdSpecZ.uz_refl _⟩

theorem groupCheck_fold (cells : Fin 9 → Ptr) (l : List (Fin 9)) (s : Int × Board) :
    ∃ d, (l.foldl (groupStep cells) s).1 = s.1 + d ∧
      UpdSpecZ s.2 (d, (l.foldl (groupStep cells) s).2) := by
  induction l generalizing s with
  | nil => exact ⟨0, by simp, UpdSpecZ.uz_refl _⟩
  | cons a l ih =>
    rw [List.foldl_cons]
    obtain ⟨d1, e1, h1⟩ := groupStep_upd cells s a
    obtain ⟨d2, e2, h2⟩ := ih (groupStep cells s a)
    exact ⟨d1 + d2, by omega, UpdSpecZ.uz_seq h1 h2⟩

theorem groupCheck_updSpecZ (b : Board) (cells : Fin 9 → Ptr) :
    UpdSpecZ b ((groupCheck b cells).1, (groupCheck b cells).2) := by
  obtain ⟨d, e, h⟩ := groupCheck_fold cells (List.finRange 9) (0, b)
  rw [zero_add] at e
  unfold groupCheck
  rw [e]
  exact h

theorem updateSet_updSpecZ (b : Board) (set : Fin 27) :
    UpdSpecZ b ((updateSet b set).1, (updateSet b set).2) := by
  have h1 := singleCheck_updSpecZ b (paths set)
  have h2 := groupCheck_updSpecZ (singleCheck b (paths set)).2 (paths set)
  unfold updateSet
  dsimp only
  split
  · rename_i hne
    have h := h1.uz_flag
    rw [if_pos hne] at h
    exact h
  · rename_i hne
    have h0 : (singleCheck b (paths set)).1 = 0 := by
      by_contra hh; exact hne hh
    have h := (UpdSpecZ.uz_seq h1 h2).uz_flag
    rw [h0, zero_add] at h
    split
    · rename_i h5; rw [if_pos h5] at h; exact h
    · rename_i h5; rw [if_neg h5] at h; exact h

theorem updateSet_result (b : Board) (set : Fin 27) :
    (updateSet b set).1 = 0 ∨ (updateSet b set).1 = 1 := by
  unfold updateSet
  dsimp only
  split
  · right; rfl
  · split
    · right; rfl
    · left; rfl

theorem updateAll_fold (l : List (Fin 27)) (s : Int × Board) :
    ∃ d, (l.foldl updateAllStep s).1 = s.1 + d ∧
      UpdSpecZ s.2 (d, (l.foldl updateAllStep s).2) := by
  induction l generalizing s with
  | nil => exact ⟨0, by simp, UpdSpecZ.uz_refl _⟩
  | cons a l ih =>
    rw [List.foldl_cons]
    obtain ⟨d2, e2, h2⟩ := ih (updateAllStep s a)
    have h1 := updateSet_updSpecZ s.2 a
    exact ⟨(updateSet s.2 a).1 + d2, by rw [e2]; simp only [updateAllStep]; omega,
      UpdSpecZ.uz_seq h1 h2⟩

theorem updateAll_updSpecZ (b : Board) :
    UpdSpecZ b ((updateAll b).1, (updateAll b).2) := by
  obtain ⟨d, e, h⟩ := updateAll_fold (List.finRange 27) (0, b)
  rw [zero_add] at e
  unfold updateAll
  rw [e]
  exact h

theorem updateCell_shrink (b : Board) (p : Ptr) : Shrink b (updateCell b p) := by
  unfold updateCell
  dsimp only
  exact ((updateSet_updSpecZ _ _).1.sh_trans (updateSet_updSpecZ _ _).1).sh_trans
    (updateSet_updSpecZ _ _).1


/-! ## What clearing notes preserves -/

theorem card_ones_eq_sum (f : Fin 9 → Int) (hz : ∀ n, f n = 0 ∨ f n = 1) :
    ((Finset.univ.filter fun n => f n = 1).card : Int) = ∑ n, f n := by
  rw [Finset.card_filter]
  push_cast
  apply Finset.sum_congr rfl
  intro n _
  rcases hz n with e | e <;> simp [e]

theorem cellCC_iff (c : Cell) :
    CellCC c ↔ (∀ n, c.notes n = 0 ∨ c.notes n = 1) ∧ c.noteCount = noteSum c := by
  unfold CellCC noteSum
  constructor
  · rintro ⟨hz, h⟩
    exact ⟨hz, by rw [h, card_ones_eq_sum _ hz]⟩
  · rintro ⟨hz, h⟩
    exact ⟨hz, by rw [h, card_ones_eq_sum _ hz]⟩

theorem CountConsistent.cc_zeroOne {b : Board} (h : CountConsistent b) : ZeroOne b :=
  fun p m => (h p).1 m

theorem CellShrink.cs_cc {c1 c2 : Cell} (h : CellShrink c1 c2) (hc : CellCC c1) : CellCC c2 := by
  rw [cellCC_iff] at hc ⊢
  obtain ⟨hz, hn⟩ := hc
  refine ⟨?_, ?_⟩
  · intro n
    rcases h.2.2.2.1 n with e | e
    · rw [e]; exact hz n
    · exact Or.inl e
  · have := h.2.2.2.2.1
    omega

theorem Shrink.sh_cc {b1 b2 : Board} (h : Shrink b1 b2) (hc : CountConsistent b1) :
    CountConsistent b2 := fun p => (h p).cs_cc (hc p)

theorem Shrink.value_eq {b1 b2 : Board} (h : Shrink b1 b2) (p : Ptr) :
    (b2 p).value = (b1 p).value := (h p).1

theorem Shrink.placedEmpty {b1 b2 : Board} (h : Shrink b1 b2) (hp : PlacedEmpty b1) :
    PlacedEmpty b2 := by
  intro p hv
  rw [h.value_eq] at hv
  rw [(h p).2.2.2.2.2 hv]
  exact hp p hv

theorem Shrink.wellFormed {b1 b2 : Board} (h : Shrink b1 b2) (hw : WellFormed b1) :
    WellFormed b2 := by
  intro p
  rw [(h p).2.1, (h p).2.2.1]
  exact hw p

theorem Shrink.notes_ne {b1 b2 : Board} (h : Shrink b1 b2) {p : Ptr} {n : Fin 9}
    (hn : (b2 p).notes n ≠ 0) : (b1 p).notes n ≠ 0 := by
  rcases (h p).2.2.2.1 n with e | e
  · rw [← e]; exact hn
  · exact absurd e hn

theorem Shrink.notes_zero {b1 b2 : Board} (h : Shrink b1 b2) {p : Ptr} {n : Fin 9}
    (hn : (b1 p).notes n = 0) : (b2 p).notes n = 0 := by
  rcases (h p).2.2.2.1 n with e | e
  · rw [e]; exact hn
  · exact e

theorem Shrink.notesShrink {b1 b2 : Board} (h : Shrink b1 b2) (hc : CountConsistent b1) :
    NotesShrink b1 b2 := by
  intro p
  refine ⟨?_, ?_⟩
  · intro n hn
    simp only [cands, Finset.mem_filter, Finset.mem_univ, true_and] at hn ⊢
    exact h.notes_ne hn
  · have hs := (h p).2.2.2.2.1
    have hle : noteSum (b2 p) ≤ noteSum (b1 p) := by
      unfold noteSum
      apply Finset.sum_le_sum
      intro n _
      rcases (h p).2.2.2.1 n with e | e
      · rw [e]
      · rw [e]; rcases (hc p).1 n with e' | e' <;> rw [e']; decide
    omega

set_option maxRecDepth 8192 in
theorem noteTotal_le {b1 b2 : Board}
    (h : ∀ p n, (b2 p).notes n ≠ 0 → (b1 p).notes n ≠ 0) : noteTotal b2 ≤ noteTotal b1 := by
  unfold noteTotal
  apply Finset.card_le_card
  intro x hx
  simp only [Finset.mem_filter, Finset.mem_univ, true_and] at hx ⊢
  exact h _ _ hx

set_option maxRecDepth 8192 in
theorem noteTotal_lt {b1 b2 : Board}
    (h : ∀ p n, (b2 p).notes n ≠ 0 → (b1 p).notes n ≠ 0) (hc : Changed b1 b2) :
    noteTotal b2 < noteTotal b1 := by
  unfold noteTotal
  apply Finset.card_lt_card
  rw [Finset.ssubset_iff_of_subset]
  · obtain ⟨p, n, h1, h2⟩ := hc
    refine ⟨(p, n), ?_, ?_⟩
    · simp only [Finset.mem_filter, Finset.mem_univ, true_and]; exact h1
    · simp only [Finset.mem_filter, Finset.mem_univ, true_and, not_not]; exact h2
  · intro x hx
    simp only [Finset.mem_filter, Finset.mem_univ, true_and] at hx ⊢
    exact h _ _ hx

theorem noteTotal_le_729 (b : Board) : noteTotal b ≤ 729 := by
  unfold noteTotal
  exact le_trans (Finset.card_filter_le _ _) (by simp only [Finset.card_univ, Fintype.card_prod, Fintype.card_fin]; decide)

theorem emptyCount_le_81 (b : Board) : emptyCount b ≤ 81 := by
  unfold emptyCount
  exact le_trans (Finset.card_filter_le _ _) (by simp only [Finset.card_univ, Fintype.card_prod, Fintype.card_fin]; decide)


/-! ## assignValue -/

theorem copyBoard_eq (b : Board) : copyBoard b = b := rfl

theorem storeValue_same (b : Board) (p : Ptr) (v : Int) :
    storeValue b p v p = setEmpty { b p with value := v } := by
  simp [storeValue, setCell]

theorem storeValue_other (b : Board) (p q : Ptr) (v : Int) (h : q ≠ p) :
    storeValue b p v q = b q := by
  simp [storeValue, setCell, h]

theorem cellCC_setEmpty (c : Cell) : CellCC (setEmpty c) := by
  rw [cellCC_iff]
  simp [setEmpty, noteSum]

theorem cellCC_setFull (c : Cell) : CellCC (setFull c) := by
  rw [cellCC_iff]
  simp [setFull, noteSum]

theorem storeValue_cc {b : Board} (h : CountConsistent b) (p : Ptr) (v : Int) :
    CountConsistent (storeValue b p v) := by
  intro q
  by_cases e : q = p
  · subst e; rw [storeValue_same]; exact cellCC_setEmpty _
  · rw [storeValue_other _ _ _ _ e]; exact h q

theorem storeValue_placedEmpty {b : Board} (h : PlacedEmpty b) (p : Ptr) (v : Int) :
    PlacedEmpty (storeValue b p v) := by
  intro q hq
  by_cases e : q = p
  · subst e; rw [storeValue_same]; simp [setEmpty]
  · rw [storeValue_other _ _ _ _ e] at hq ⊢; exact h q hq

theorem storeValue_wellFormed {b : Board} (h : WellFormed b) (p : Ptr) (v : Int) :
    WellFormed (storeValue b p v) := by
  intro q
  by_cases e : q = p
  · subst e; rw [storeValue_same]; exact h q
  · rw [storeValue_other _ _ _ _ e]; exact h q

theorem assignValue_shrink (b : Board) (p : Ptr) (v : Int) :
    Shrink (storeValue b p v) (assignValue b p v) := updateCell_shrink _ _

theorem assignValue_cc {b : Board} (h : CountConsistent b) (p : Ptr) (v : Int) :
    CountConsistent (assignValue b p v) := (assignValue_shrink b p v).sh_cc (storeValue_cc h p v)

theorem assignValue_placedEmpty {b : Board} (h : PlacedEmpty b) (p : Ptr) (v : Int) :
    PlacedEmpty (assignValue b p v) :=
  (assignValue_shrink b p v).placedEmpty (storeValue_placedEmpty h p v)

theorem assignValue_wellFormed {b : Board} (h : WellFormed b) (p : Ptr) (v : Int) :
    WellFormed (assignValue b p v) :=
  (assignValue_shrink b p v).wellFormed (storeValue_wellFormed h p v)

theorem assignValue_value_same (b : Board) (p : Ptr) (v : Int) :
    (assignValue b p v p).value = v := by
  rw [(assignValue_shrink b p v).value_eq, storeValue_same]; rfl

theorem assignValue_value_other (b : Board) (p q : Ptr) (v : Int) (h : q ≠ p) :
    (assignValue b p v q).value = (b q).value := by
  rw [(assignValue_shrink b p v).value_eq, storeValue_other _ _ _ _ h]

theorem assignValue_notes_same (b : Board) (p : Ptr) (v : Int) (n : Fin 9) :
    (assignValue b p v p).notes n = 0 := by
  apply (assignValue_shrink b p v).notes_zero
  rw [storeValue_same]; rfl

theorem assignValue_notes_ne {b : Board} {p q : Ptr} {v : Int} {n : Fin 9}
    (h : (assignValue b p v q).notes n ≠ 0) : (b q).notes n ≠ 0 := by
  by_cases e : q = p
  · subst e; exact absurd (assignValue_notes_same b q v n) h
  · have := (assignValue_shrink b p v).notes_ne h
    rwa [storeValue_other _ _ _ _ e] at this

theorem assignValue_notes_zero {b : Board} {p q : Ptr} {v : Int} {n : Fin 9}
    (h : (b q).notes n = 0) : (assignValue b p v q).notes n = 0 := by
  by_contra hh
  exact assignValue_notes_ne hh h

theorem assignValue_noteTotal_le (b : Board) (p : Ptr) (v : Int) :
    noteTotal (assignValue b p v) ≤ noteTotal b :=
  noteTotal_le fun _ _ h => assignValue_notes_ne h

theorem assignValue_noteTotal_lt (b : Board) (p : Ptr) (v : Int) (n : Fin 9)
    (h : (b p).notes n ≠ 0) : noteTotal (assignValue b p v) < noteTotal b :=
  noteTotal_lt (fun _ _ h => assignValue_notes_ne h) ⟨p, n, h, assignValue_notes_same b p v n⟩


/-! ## Invariants carried through solveSet, solveAll, guess and solveLoop -/

theorem singleNoteSolve_preserves (Q : Board → Prop) (cells : Fin 9 → Ptr)
    (hnote : ∀ b i, Q b → (b (cells i)).noteCount = 1 →
      Q (assignValue b (cells i) (firstNote (b (cells i)) + 1)))
    (b : Board) (hb : Q b) : Q (singleNoteSolve b cells).2 := by
  unfold singleNoteSolve
  apply foldl_invariant (fun s : Int × Board => Q s.2)
  · exact hb
  · intro s a _ hs
    unfold singleNoteStep
    split
    · exact hnote _ _ hs (by assumption)
    · exact hs

theorem singleCellSolve_preserves (Q : Board → Prop) (cells : Fin 9 → Ptr)
    (hcell : ∀ b n, Q b → (countNote b cells n (List.finRange 9) (0, 0)).1 = 1 →
      Q (assignValue b (cells (countNote b cells n (List.finRange 9) (0, 0)).2)
        ((n.val : Int) + 1)))
    (b : Board) (hb : Q b) : Q (singleCellSolve b cells).2 := by
  unfold singleCellSolve
  apply foldl_invariant (fun s : Int × Board => Q s.2)
  · exact hb
  · intro s a _ hs
    unfold singleCellStep
    dsimp only
    split
    · exact hcell _ _ hs (by assumption)
    · exact hs

theorem solveSet_preserves (Q : Board → Prop) (cells : Fin 9 → Ptr)
    (hnote : ∀ b i, Q b → (b (cells i)).noteCount = 1 →
      Q (assignValue b (cells i) (firstNote (b (cells i)) + 1)))
    (hcell : ∀ b n, Q b → (countNote b cells n (List.finRange 9) (0, 0)).1 = 1 →
      Q (assignValue b (cells (countNote b cells n (List.finRange 9) (0, 0)).2)
        ((n.val : Int) + 1)))
    (fuel : Nat) (b : Board) (chk : Int) (r : Int × Board) (hb : Q b)
    (h : solveSet fuel b cells chk = some r) : Q r.2 := by
  induction fuel generalizing b chk with
  | zero => simp [solveSet] at h
  | succ fuel ih =>
    rw [solveSet] at h
    dsimp only at h
    have h1 := singleNoteSolve_preserves Q cells hnote b hb
    split at h
    · exact ih _ _ h1 h
    · have h2 := singleCellSolve_preserves Q cells hcell _ h1
      split at h
      · exact ih _ _ h2 h
      · cases h; exact h2

theorem solveAll_fold_preserves (Q : Board → Prop)
    (hnote : ∀ b g i, Q b → (b (paths g i)).noteCount = 1 →
      Q (assignValue b (paths g i) (firstNote (b (paths g i)) + 1)))
    (hcell : ∀ b g n, Q b → (countNote b (paths g) n (List.finRange 9) (0, 0)).1 = 1 →
      Q (assignValue b (paths g (countNote b (paths g) n (List.finRange 9) (0, 0)).2)
        ((n.val : Int) + 1)))
    (fuel : Nat) (l : List (Fin 27)) (s : Option (Int × Board))
    (hs : ∀ x, s = some x → Q x.2) (r : Int × Board)
    (h : l.foldl (solveAllStep fuel) s = some r) : Q r.2 := by
  induction l generalizing s with
  | nil => exact hs r h
  | cons a l ih =>
    rw [List.foldl_cons] at h
    refine ih _ ?_ h
    intro x hx
    unfold solveAllStep at hx
    split at hx
    · cases hx
    · rename_i chk b1
      split at hx
      · cases hx
      · rename_i r2 b2 heq
        cases hx
        exact solveSet_preserves Q (paths a) (fun b i => hnote b a i) (fun b n => hcell b a n)
          fuel b1 0 (r2, b2) (hs _ rfl) heq

theorem solveAll_preserves (Q : Board → Prop)
    (hnote : ∀ b g i, Q b → (b (paths g i)).noteCount = 1 →
      Q (assignValue b (paths g i) (firstNote (b (paths g i)) + 1)))
    (hcell : ∀ b g n, Q b → (countNote b (paths g) n (List.finRange 9) (0, 0)).1 = 1 →
      Q (assignValue b (paths g (countNote b (paths g) n (List.finRange 9) (0, 0)).2)
        ((n.val : Int) + 1)))
    (fuel : Nat) (b : Board) (r : Int × Board) (hb : Q b)
    (h : solveAll fuel b = some r) : Q r.2 := by
  unfold solveAll at h
  exact solveAll_fold_preserves Q hnote hcell fuel _ _ (fun x hx => by cases hx; exact hb) r h

theorem guessFrom_preserves (P Q : Board → Prop) (rc : State → Option (Int × State))
    (hrc : ∀ st r, P st.board → rc st = some r → P r.2.board)
    (copy : Board) (p : Ptr) (hQ : Q copy) (hw : ∀ b, Q b → P b)
    (hguess : ∀ i, (copy p).notes i ≠ 0 → P (assignValue copy p ((i.val : Int) + 1)))
    (l : List (Fin 9)) (st : State) (hst : st.board = copy) (r : Int × State)
    (h : guessFrom rc copy p l st = some r) : P r.2.board := by
  induction l generalizing st with
  | nil =>
    rw [guessFrom] at h
    cases h
    rw [hst]; exact hw _ hQ
  | cons i rest ih =>
    rw [guessFrom] at h
    split at h
    · rename_i hn
      split at h
      · cases h
      · rename_i solveVal st2 heq
        have h2 : P st2.board := by
          refine hrc _ (solveVal, st2) ?_ heq
          dsimp only
          rw [hst] at hn ⊢
          exact hguess i hn
        split at h
        · cases h; exact h2
        · exact ih _ rfl h
    · exact ih _ hst h

theorem guess_preserves (P Q : Board → Prop) (hinv : SolverInv P Q)
    (rc : State → Option (Int × State))
    (hrc : ∀ st r, P st.board → rc st = some r → P r.2.board)
    (st : State) (r : Int × State) (hQ : Q st.board) (h : guess rc st = some r) :
    P r.2.board := by
  unfold guess at h
  exact guessFrom_preserves P Q rc hrc (copyBoard st.board) (bestGuess st.board) hQ hinv.weaken
    (fun i hi => hinv.guess st.board i hQ hi) _ st rfl r h

theorem solveWhile_zero (fuel : Nat) (gr : State → Option (Int × State)) (st : State) :
    solveWhile fuel gr 0 st = none := rfl

theorem solveWhile_succ (fuel : Nat) (gr : State → Option (Int × State)) (iters : Nat)
    (st : State) :
    solveWhile fuel gr (iters + 1) st =
      if trivialTest st.board = false then
        if (updateAll st.board).1 ≠ 0 then
          solveWhile fuel gr iters { board := (updateAll st.board).2, guesses := st.guesses }
        else
          match solveAll fuel (updateAll st.board).2 with
          | none => none
          | some (s, b2) =>
            if s ≠ 0 then solveWhile fuel gr iters { board := b2, guesses := st.guesses }
            else gr { board := b2, guesses := st.guesses }
      else some (0, st) := rfl

theorem solveLoop_zero (fuel : Nat) (st : State) :
    solveLoop fuel 0 st = solveWhile fuel (fun _ => none) fuel st := rfl

theorem solveLoop_succ (fuel depth : Nat) (st : State) :
    solveLoop fuel (depth + 1) st = solveWhile fuel (guess (solveLoop fuel depth)) fuel st := rfl

theorem solveWhile_preserves (P Q : Board → Prop) (hinv : SolverInv P Q) (fuel : Nat)
    (gr : State → Option (Int × State))
    (hgr : ∀ st r, Q st.board → gr st = some r → P r.2.board)
    (iters : Nat) (st : State) (r : Int × State) (hP : P st.board)
    (h : solveWhile fuel gr iters st = some r) : P r.2.board := by
  induction iters generalizing st with
  | zero => rw [solveWhile_zero] at h; cases h
  | succ iters ih =>
    rw [solveWhile_succ] at h
    by_cases ht : trivialTest st.board = false
    · rw [if_pos ht] at h
      by_cases hu : (updateAll st.board).1 ≠ 0
      · rw [if_pos hu] at h
        refine ih _ ?_ h
        dsimp only
        exact hinv.upd st.board hP
      · rw [if_neg hu] at h
        have hq : Q (updateAll st.board).2 := hinv.fix st.board hP (by
          by_contra hh; exact hu hh)
        cases hsa : solveAll fuel (updateAll st.board).2 with
        | none => rw [hsa] at h; cases h
        | some x =>
          obtain ⟨s, b2⟩ := x
          rw [hsa] at h
          dsimp only at h
          have hq2 : Q b2 := solveAll_preserves Q hinv.note hinv.cell fuel _ (s, b2) hq hsa
          by_cases hs : s ≠ 0
          · rw [if_pos hs] at h
            refine ih _ ?_ h
            dsimp only
            exact hinv.weaken b2 hq2
          · rw [if_neg hs] at h
            refine hgr _ r ?_ h
            dsimp only
            exact hq2
    · rw [if_neg ht] at h
      cases h; exact hP

theorem solveLoop_preserves (P Q : Board → Prop) (hinv : SolverInv P Q) (fuel depth : Nat)
    (st : State) (r : Int × State) (hP : P st.board)
    (h : solveLoop fuel depth st = some r) : P r.2.board := by
  induction depth generalizing st r with
  | zero =>
    rw [solveLoop_zero] at h
    exact solveWhile_preserves P Q hinv fuel _ (fun _ _ _ hh => by cases hh) fuel st r hP h
  | succ depth ih =>
    rw [solveLoop_succ] at h
    refine solveWhile_preserves P Q hinv fuel _ ?_ fuel st r hP h
    intro st1 r1 hq hg
    exact guess_preserves P Q hinv _ (fun st2 r2 hp2 h2 => ih st2 r2 hp2 h2) st1 r1 hq hg


/-! ## annotateBoard and the three basic invariants -/

theorem annotateBoard_cc (b : Board) : CountConsistent (annotateBoard b) := by
  intro p
  unfold annotateBoard
  split
  · exact cellCC_setEmpty _
  · exact cellCC_setFull _

theorem annotateBoard_placedEmpty (b : Board) : PlacedEmpty (annotateBoard b) := by
  intro p hp
  unfold annotateBoard at hp ⊢
  split
  · simp [setEmpty]
  · rename_i h
    rw [if_neg h] at hp
    exact absurd hp (by simpa [setFull] using h)

theorem annotateBoard_value (b : Board) (p : Ptr) : (annotateBoard b p).value = (b p).value := by
  unfold annotateBoard
  split <;> rfl

theorem annotateBoard_wellFormed {b : Board} (h : WellFormed b) : WellFormed (annotateBoard b) := by
  intro p
  unfold annotateBoard
  split <;> exact h p

theorem updateSet_shrink (b : Board) (g : Fin 27) : Shrink b (updateSet b g).2 := by
  have h := (updateSet_updSpecZ b g).1
  dsimp only at h
  exact h

theorem updateAll_shrink (b : Board) : Shrink b (updateAll b).2 := by
  have h := (updateAll_updSpecZ b).1
  dsimp only at h
  exact h

theorem solverInv_cc : SolverInv CountConsistent CountConsistent where
  upd := fun b h => (updateAll_shrink b).sh_cc h
  fix := fun b h _ => (updateAll_shrink b).sh_cc h
  weaken := fun _ h => h
  note := fun _ _ _ h _ => assignValue_cc h _ _
  cell := fun _ _ _ h _ => assignValue_cc h _ _
  guess := fun _ _ h _ => assignValue_cc h _ _

theorem solverInv_placedEmpty : SolverInv PlacedEmpty PlacedEmpty where
  upd := fun b h => (updateAll_shrink b).placedEmpty h
  fix := fun b h _ => (updateAll_shrink b).placedEmpty h
  weaken := fun _ h => h
  note := fun _ _ _ h _ => assignValue_placedEmpty h _ _
  cell := fun _ _ _ h _ => assignValue_placedEmpty h _ _
  guess := fun _ _ h _ => assignValue_placedEmpty h _ _

theorem NotesShrink.ns_refl (b : Board) : NotesShrink b b :=
  fun _ => ⟨Finset.Subset.refl _, le_refl _⟩

theorem NotesShrink.ns_trans {b1 b2 b3 : Board} (h12 : NotesShrink b1 b2) (h23 : NotesShrink b2 b3) :
    NotesShrink b1 b3 :=
  fun p => ⟨(h23 p).1.trans (h12 p).1, (h23 p).2.trans (h12 p).2⟩

theorem storeValue_notesShrink {b : Board} (h : CountConsistent b) (p : Ptr) (v : Int) :
    NotesShrink b (storeValue b p v) := by
  intro q
  by_cases e : q = p
  · subst e
    rw [storeValue_same]
    refine ⟨?_, ?_⟩
    · intro n hn
      simp [cands, setEmpty] at hn
    · have := (h q).2
      simp only [setEmpty]
      omega
  · rw [storeValue_other _ _ _ _ e]
    exact ⟨Finset.Subset.refl _, le_refl _⟩

theorem assignValue_notesShrink {b : Board} (h : CountConsistent b) (p : Ptr) (v : Int) :
    NotesShrink b (assignValue b p v) :=
  (storeValue_notesShrink h p v).ns_trans ((assignValue_shrink b p v).notesShrink (storeValue_cc h p v))


/-! ## guess: failure restores the snapshot -/

theorem guessFrom_nil (rc : State → Option (Int × State)) (copy : Board) (p : Ptr) (st : State) :
    guessFrom rc copy p [] st = some (-1, st) := rfl

theorem guessFrom_cons (rc : State → Option (Int × State)) (copy : Board) (p : Ptr) (i : Fin 9)
    (rest : List (Fin 9)) (st : State) :
    guessFrom rc copy p (i :: rest) st =
      if (st.board p).notes i ≠ 0 then
        match rc { board := assignValue st.board p ((i.val : Int) + 1),
                   guesses := st.guesses + 1 } with
        | none => none
        | some (solveVal, st2) =>
          if solveVal = 0 then some (0, st2)
          else guessFrom rc copy p rest { board := copyBoard copy, guesses := st2.guesses }
      else guessFrom rc copy p rest st := rfl

theorem guessFrom_fail (rc : State → Option (Int × State)) (copy : Board) (p : Ptr)
    (l : List (Fin 9)) (st st2 : State) (hst : st.board = copy)
    (h : guessFrom rc copy p l st = some (-1, st2)) : st2.board = copy := by
  induction l generalizing st with
  | nil =>
    rw [guessFrom_nil] at h
    cases h
    exact hst
  | cons i rest ih =>
    rw [guessFrom_cons] at h
    by_cases hn : (st.board p).notes i ≠ 0
    · rw [if_pos hn] at h
      cases hrc : rc { board := assignValue st.board p ((i.val : Int) + 1),
                       guesses := st.guesses + 1 } with
      | none => rw [hrc] at h; cases h
      | some x =>
        obtain ⟨v, s3⟩ := x
        rw [hrc] at h
        dsimp only at h
        by_cases hv : v = 0
        · rw [if_pos hv] at h
          cases h
        · rw [if_neg hv] at h
          exact ih _ rfl h
    · rw [if_neg hn] at h
      exact ih _ hst h

theorem guess_fail (rc : State → Option (Int × State)) (st st2 : State)
    (h : guess rc st = some (-1, st2)) : st2.board = st.board := by
  unfold guess at h
  exact guessFrom_fail rc (copyBoard st.board) (bestGuess st.board) _ st st2 rfl h

theorem guessFrom_result (rc : State → Option (Int × State)) (copy : Board) (p : Ptr)
    (l : List (Fin 9)) (st : State) (r : Int × State)
    (h : guessFrom rc copy p l st = some r) : r.1 = 0 ∨ r.1 = -1 := by
  induction l generalizing st with
  | nil =>
    rw [guessFrom_nil] at h
    cases h
    right; rfl
  | cons i rest ih =>
    rw [guessFrom_cons] at h
    by_cases hn : (st.board p).notes i ≠ 0
    · rw [if_pos hn] at h
      cases hrc : rc { board := assignValue st.board p ((i.val : Int) + 1),
                       guesses := st.guesses + 1 } with
      | none => rw [hrc] at h; cases h
      | some x =>
        obtain ⟨v, s3⟩ := x
        rw [hrc] at h
        dsimp only at h
        by_cases hv : v = 0
        · rw [if_pos hv] at h
          cases h
          left; rfl
        · rw [if_neg hv] at h
          exact ih _ h
    · rw [if_neg hn] at h
      exact ih _ h

theorem solveWhile_fail (fuel : Nat) (g1 : State → Option (Int × State))
    (hg1 : ∀ s s2, g1 s = some (-1, s2) → s2.board = s.board)
    (iters : Nat) (st st2 : State) (h : solveWhile fuel g1 iters st = some (-1, st2)) :
    solveWhile fuel (fun s => some (-1, s)) iters st =
      some (-1, { board := st2.board, guesses := st.guesses }) := by
  induction iters generalizing st with
  | zero => rw [solveWhile_zero] at h; cases h
  | succ iters ih =>
    rw [solveWhile_succ] at h ⊢
    by_cases ht : trivialTest st.board = false
    · rw [if_pos ht] at h ⊢
      by_cases hu : (updateAll st.board).1 ≠ 0
      · rw [if_pos hu] at h ⊢
        exact ih _ h
      · rw [if_neg hu] at h ⊢
        cases hsa : solveAll fuel (updateAll st.board).2 with
        | none => rw [hsa] at h; cases h
        | some x =>
          obtain ⟨s, b2⟩ := x
          rw [hsa] at h
          dsimp only at h ⊢
          by_cases hs : s ≠ 0
          · rw [if_pos hs] at h ⊢
            exact ih _ h
          · rw [if_neg hs] at h ⊢
            have := hg1 _ _ h
            dsimp only at this
            rw [this]
    · rw [if_neg ht] at h
      cases h


/-! ## The inner loops of singleNoteSolve and singleCellSolve -/

theorem countNote_nil (b : Board) (cells : Fin 9 → Ptr) (n : Fin 9) (s : Int × Fin 9) :
    countNote b cells n [] s = s := rfl

theorem countNote_cons (b : Board) (cells : Fin 9 → Ptr) (n : Fin 9) (i : Fin 9)
    (rest : List (Fin 9)) (s : Int × Fin 9) :
    countNote b cells n (i :: rest) s =
      if (b (cells i)).notes n ≠ 0 then
        if s.1 + 1 > 1 then (s.1 + 1, i) else countNote b cells n rest (s.1 + 1, i)
      else countNote b cells n rest s := rfl

theorem countNote_one (b : Board) (cells : Fin 9 → Ptr) (n : Fin 9) (l : List (Fin 9))
    (loc : Fin 9) :
    ((countNote b cells n l (1, loc)).1 = 1 ∧ (countNote b cells n l (1, loc)).2 = loc ∧
        ∀ y ∈ l, (b (cells y)).notes n = 0) ∨
    ((countNote b cells n l (1, loc)).1 = 2 ∧ ∃ y ∈ l, (b (cells y)).notes n ≠ 0) := by
  induction l with
  | nil => left; exact ⟨rfl, rfl, fun y hy => absurd hy (List.not_mem_nil _)⟩
  | cons i rest ih =>
    rw [countNote_cons]
    by_cases hn : (b (cells i)).notes n ≠ 0
    · rw [if_pos hn]
      right
      exact ⟨by simp, i, List.mem_cons_self _ _, hn⟩
    · rw [if_neg hn]
      rcases ih with ⟨h1, h2, h3⟩ | ⟨h1, y, hy, h2⟩
      · left
        refine ⟨h1, h2, ?_⟩
        intro y hy
        rcases List.mem_cons.mp hy with e | e
        · subst e; by_contra hh; exact hn hh
        · exact h3 y e
      · right
        exact ⟨h1, y, List.mem_cons_of_mem _ hy, h2⟩

theorem countNote_zero (b : Board) (cells : Fin 9 → Ptr) (n : Fin 9) (l : List (Fin 9))
    (loc : Fin 9) :
    ((countNote b cells n l (0, loc)).1 = 0 ∧ ∀ y ∈ l, (b (cells y)).notes n = 0) ∨
    ((countNote b cells n l (0, loc)).1 = 1 ∧
      (b (cells (countNote b cells n l (0, loc)).2)).notes n ≠ 0 ∧
      ∃ l1 l2, l = l1 ++ (countNote b cells n l (0, loc)).2 :: l2 ∧
        (∀ y ∈ l1, (b (cells y)).notes n = 0) ∧ ∀ y ∈ l2, (b (cells y)).notes n = 0) ∨
    ((countNote b cells n l (0, loc)).1 = 2 ∧
      ∃ l1 x l2 y, l = l1 ++ x :: l2 ∧ (b (cells x)).notes n ≠ 0 ∧ y ∈ l2 ∧
        (b (cells y)).notes n ≠ 0) := by
  induction l generalizing loc with
  | nil => left; exact ⟨rfl, fun y hy => absurd hy (List.not_mem_nil _)⟩
  | cons i rest ih =>
    rw [countNote_cons]
    by_cases hn : (b (cells i)).notes n ≠ 0
    · rw [if_pos hn]
      have e : ¬ ((1 : Int) > 1) := by decide
      simp only [zero_add, e, if_false]
      rcases countNote_one b cells n rest i with ⟨h1, h2, h3⟩ | ⟨h1, y, hy, h2⟩
      · right; left
        rw [h2]
        exact ⟨h1, hn, [], rest, rfl, fun y hy => absurd hy (List.not_mem_nil _), h3⟩
      · right; right
        exact ⟨h1, [], i, rest, y, rfl, hn, hy, h2⟩
    · rw [if_neg hn]
      have hn0 : (b (cells i)).notes n = 0 := by
        by_contra hh; exact hn hh
      rcases ih loc with ⟨h1, h2⟩ | ⟨h1, h3, l1, l2, hl, h4, h5⟩ | ⟨h1, l1, x, l2, y, hl, hx, hy, hy2⟩
      · left
        refine ⟨h1, ?_⟩
        intro y hy
        rcases List.mem_cons.mp hy with e | e
        · subst e; exact hn0
        · exact h2 y e
      · right; left
        refine ⟨h1, h3, i :: l1, l2, by rw [List.cons_append, ← hl], ?_, h5⟩
        intro y hy
        rcases List.mem_cons.mp hy with e | e
        · subst e; exact hn0
        · exact h4 y e
      · right; right
        exact ⟨h1, i :: l1, x, l2, y, by rw [hl]; rfl, hx, hy, hy2⟩

theorem countNote_eq_one (b : Board) (cells : Fin 9 → Ptr) (n : Fin 9) (l : List (Fin 9))
    (loc : Fin 9) (h : (countNote b cells n l (0, loc)).1 = 1) :
    (countNote b cells n l (0, loc)).2 ∈ l ∧
    (b (cells (countNote b cells n l (0, loc)).2)).notes n ≠ 0 ∧
    ∀ y ∈ l, (b (cells y)).notes n ≠ 0 → y = (countNote b cells n l (0, loc)).2 := by
  rcases countNote_zero b cells n l loc with ⟨h1, -⟩ | ⟨-, h3, l1, l2, hl, h4, h5⟩ | ⟨h1, -⟩
  · rw [h] at h1; exact absurd h1 (by decide)
  · refine ⟨?_, h3, ?_⟩
    · exact List.mem_iff_append.mpr ⟨l1, l2, hl⟩
    · intro y hy hne
      rw [hl] at hy
      rcases List.mem_append.mp hy with e | e
      · exact absurd (h4 y e) hne
      · rcases List.mem_cons.mp e with e | e
        · exact e
        · exact absurd (h5 y e) hne
  · rw [h] at h1; exact absurd h1 (by decide)

theorem countNote_unique (b : Board) (cells : Fin 9 → Ptr) (n : Fin 9) (l : List (Fin 9))
    (hl : l.Nodup) (loc x : Fin 9) (hx : x ∈ l) (hn : (b (cells x)).notes n ≠ 0)
    (hu : ∀ y ∈ l, (b (cells y)).notes n ≠ 0 → y = x) :
    countNote b cells n l (0, loc) = (1, x) := by
  rcases countNote_zero b cells n l loc with ⟨-, h2⟩ | ⟨h1, h3, l1, l2, hl2, h4, h5⟩ |
    ⟨-, l1, a, l2, y, hl2, ha, hy, hy2⟩
  · exact absurd (h2 x hx) hn
  · have : (countNote b cells n l (0, loc)).2 = x := by
      exact hu _ (List.mem_iff_append.mpr ⟨l1, l2, hl2⟩) h3
    exact Prod.ext h1 this
  · exfalso
    have e1 : a = x := hu a (by rw [hl2]; simp) ha
    have e2 : y = x := hu y (by rw [hl2]; simp [hy]) hy2
    rw [hl2] at hl
    have := (List.nodup_append.mp hl).2.1
    rw [List.nodup_cons] at this
    rw [e1, ← e2] at this
    exact this.1 hy

theorem firstNote_spec (c : Cell) (hc : CellCC c) (h1 : c.noteCount = 1) :
    ∃ n : Fin 9, firstNote c = (n.val : Int) ∧ c.notes n = 1 ∧ ∀ m, c.notes m ≠ 0 → m = n := by
  rw [cellCC_iff] at hc
  obtain ⟨hz, hs⟩ := hc
  have hsum : noteSum c = 1 := by omega
  have hex : ∃ n, c.notes n ≠ 0 := by
    by_contra hh
    push_neg at hh
    have : noteSum c = 0 := by
      unfold noteSum
      exact Finset.sum_eq_zero (fun n _ => hh n)
    omega
  have huniq : ∀ n m, c.notes n ≠ 0 → c.notes m ≠ 0 → m = n := by
    intro n m hn hm
    by_contra hne
    have hn1 : c.notes n = 1 := by rcases hz n with e | e; exact absurd e hn; exact e
    have hm1 : c.notes m = 1 := by rcases hz m with e | e; exact absurd e hm; exact e
    have hle : c.notes n + c.notes m ≤ noteSum c := by
      unfold noteSum
      have hsub : ({n, m} : Finset (Fin 9)) ⊆ Finset.univ := Finset.subset_univ _
      have := Finset.sum_le_sum_of_subset_of_nonneg hsub (f := c.notes)
        (fun i _ _ => by rcases hz i with e | e <;> rw [e] <;> decide)
      rw [Finset.sum_pair (fun e => hne e.symm)] at this
      exact this
    omega
  unfold firstNote
  cases hf : (List.finRange 9).find? (fun n => decide (c.notes n ≠ 0)) with
  | none =>
    exfalso
    obtain ⟨n, hn⟩ := hex
    have := List.find?_eq_none.mp hf n (List.mem_finRange n)
    simp at this
    exact hn this
  | some n =>
    have hn := List.find?_some hf
    simp only [ne_eq, decide_eq_true_eq] at hn
    refine ⟨n, rfl, ?_, fun m hm => huniq n m hn hm⟩
    rcases hz n with e | e
    · exact absurd e hn
    · exact e


/-! ## The givens stay in place -/

theorem placedEmpty_unplaced {b : Board} (hp : PlacedEmpty b) {p : Ptr}
    (h : (b p).noteCount = 1 ∨ ∃ n, (b p).notes n ≠ 0) : (b p).value = 0 := by
  by_contra hv
  obtain ⟨h1, h2⟩ := hp p hv
  rcases h with h | ⟨n, hn⟩
  · rw [h2] at h; exact absurd h (by decide)
  · exact hn (h1 n)

theorem Shrink.valuesInRange {b1 b2 : Board} (h : Shrink b1 b2) (hv : ValuesInRange b1) :
    ValuesInRange b2 := by
  intro p; rw [h.value_eq]; exact hv p

theorem Shrink.extends_of {b0 b1 b2 : Board} (h : Shrink b1 b2) (he : Extends b0 b1) :
    Extends b0 b2 := by
  intro p hp; rw [h.value_eq]; exact he p hp

theorem Shrink.full_iff {b1 b2 : Board} (h : Shrink b1 b2) : Full b2 ↔ Full b1 := by
  unfold Full
  constructor
  · intro hf p; rw [← h.value_eq]; exact hf p
  · intro hf p; rw [h.value_eq]; exact hf p

theorem assignValue_valuesInRange {b : Board} (hv : ValuesInRange b) (p : Ptr) (v : Int)
    (h1 : 1 ≤ v) (h9 : v ≤ 9) : ValuesInRange (assignValue b p v) := by
  intro q
  by_cases e : q = p
  · subst e; rw [assignValue_value_same]; omega
  · rw [assignValue_value_other _ _ _ _ e]; exact hv q

theorem assignValue_extends {b0 b : Board} (he : Extends b0 b) (p : Ptr) (v : Int)
    (hp : (b p).value = 0) : Extends b0 (assignValue b p v) := by
  intro q hq
  have h := he q hq
  by_cases e : q = p
  · subst e; rw [hp] at h; exact absurd h.symm hq
  · rw [assignValue_value_other _ _ _ _ e]; exact h

/-- The invariant of the whole run relative to the board b0 at its start. -/
theorem solverInv_extends (b0 : Board) :
    SolverInv
      (fun b => CountConsistent b ∧ PlacedEmpty b ∧ ValuesInRange b ∧ Extends b0 b)
      (fun b => CountConsistent b ∧ PlacedEmpty b ∧ ValuesInRange b ∧ Extends b0 b) where
  upd := fun b h => ⟨(updateAll_shrink b).sh_cc h.1, (updateAll_shrink b).placedEmpty h.2.1,
    (updateAll_shrink b).valuesInRange h.2.2.1, (updateAll_shrink b).extends_of h.2.2.2⟩
  fix := fun b h _ => ⟨(updateAll_shrink b).sh_cc h.1, (updateAll_shrink b).placedEmpty h.2.1,
    (updateAll_shrink b).valuesInRange h.2.2.1, (updateAll_shrink b).extends_of h.2.2.2⟩
  weaken := fun _ h => h
  note := by
    intro b g i h h1
    obtain ⟨n, hn, -, -⟩ := firstNote_spec _ (h.1 (paths g i)) h1
    have hlt := n.isLt
    exact ⟨assignValue_cc h.1 _ _, assignValue_placedEmpty h.2.1 _ _,
      assignValue_valuesInRange h.2.2.1 _ _ (by omega) (by omega),
      assignValue_extends h.2.2.2 _ _ (placedEmpty_unplaced h.2.1 (Or.inl h1))⟩
  cell := by
    intro b g n h h1
    obtain ⟨-, hne, -⟩ := countNote_eq_one b (paths g) n _ 0 h1
    have hlt := n.isLt
    exact ⟨assignValue_cc h.1 _ _, assignValue_placedEmpty h.2.1 _ _,
      assignValue_valuesInRange h.2.2.1 _ _ (by omega) (by omega),
      assignValue_extends h.2.2.2 _ _ (placedEmpty_unplaced h.2.1 (Or.inr ⟨n, hne⟩))⟩
  guess := by
    intro b i h hne
    have hlt := i.isLt
    exact ⟨assignValue_cc h.1 _ _, assignValue_placedEmpty h.2.1 _ _,
      assignValue_valuesInRange h.2.2.1 _ _ (by omega) (by omega),
      assignValue_extends h.2.2.2 _ _ (placedEmpty_unplaced h.2.1 (Or.inr ⟨i, hne⟩))⟩

theorem annotateBoard_valuesInRange {b : Board} (h : ValuesInRange b) :
    ValuesInRange (annotateBoard b) := by
  intro p; rw [annotateBoard_value]; exact h p

theorem solve_invariant (b : Board) (hv : ValuesInRange b) (fuel depth : Nat) (r : Int × State)
    (h : solve fuel depth b = some r) :
    CountConsistent r.2.board ∧ PlacedEmpty r.2.board ∧ ValuesInRange r.2.board ∧
      Extends b r.2.board := by
  unfold solve at h
  have h1 := solveLoop_preserves _ _ (solverInv_extends (annotateBoard b)) fuel depth _ r
    ⟨annotateBoard_cc b, annotateBoard_placedEmpty b, annotateBoard_valuesInRange hv,
      fun _ _ => rfl⟩ h
  refine ⟨h1.1, h1.2.1, h1.2.2.1, ?_⟩
  intro p hp
  have := h1.2.2.2 p (by rw [annotateBoard_value]; exact hp)
  rw [this, annotateBoard_value]

theorem testBoard_full {b : Board} (h : testBoard b = true) : Full b := by
  unfold testBoard at h
  rw [Bool.and_eq_true, trivialTest_iff] at h
  exact h.1

theorem testBoard_occurrences {b : Board} (h : testBoard b = true) (i : Fin 27) (d : Fin 9) :
    occurrences (fun p => (b p).value) i ((d.val : Int) + 1) = 1 := by
  unfold testBoard at h
  rw [Bool.and_eq_true, setTest_iff] at h
  exact h.2 i d


theorem cellSame_eq {c1 c2 : Cell} (h : CellSame c1 c2) : c1 = c2 :=
  Cell.eq_of_fields h.1 h.2.1 h.2.2.1 h.2.2.2.1 h.2.2.2.2

theorem resultIs_eq {r : Option (Int × State)} {v : Int} {b : Board} {g : Int}
    (h : resultIs r v b g = true) : r = some (v, { board := b, guesses := g }) := by
  unfold resultIs at h
  cases r with
  | none => cases h
  | some x =>
    obtain ⟨v1, st⟩ := x
    simp only [Bool.and_eq_true, decide_eq_true_eq] at h
    obtain ⟨⟨h1, h2⟩, h3⟩ := h
    have hb : st.board = b := funext fun p => cellSame_eq (h3 p)
    cases st
    simp only at h2 hb
    subst h1 h2 hb
    rfl

/-! ## A zero result of updateAll and the placed digits -/

theorem updateSet_updSpec (b : Board) (hz : ZeroOne b) (g : Fin 27) :
    UpdSpec b ((updateSet b g).1, (updateSet b g).2) := (updateSet_updSpecZ b g).2 hz

theorem updateAll_updSpec (b : Board) (hz : ZeroOne b) :
    UpdSpec b ((updateAll b).1, (updateAll b).2) := (updateAll_updSpecZ b).2 hz

theorem updateAll_unchanged (b : Board) (hz : ZeroOne b) (h : (updateAll b).1 = 0) :
    (updateAll b).2 = b := by
  have h1 := (updateAll_updSpec b hz).2.2.1
  dsimp only at h1
  exact h1 h

theorem updateSet_unchanged (b : Board) (hz : ZeroOne b) (g : Fin 27)
    (h : (updateSet b g).1 = 0) : (updateSet b g).2 = b := by
  have h1 := (updateSet_updSpec b hz g).2.2.1
  dsimp only at h1
  exact h1 h

theorem updateSet_nonneg (b : Board) (g : Fin 27) : 0 ≤ (updateSet b g).1 := by
  rcases updateSet_result b g with h | h <;> rw [h] <;> decide

theorem updateAll_fold_zero (l : List (Fin 27)) (s : Int × Board) (hz : ZeroOne s.2)
    (h : (l.foldl updateAllStep s).1 = s.1) :
    ∀ g ∈ l, (updateSet s.2 g).1 = 0 := by
  induction l generalizing s with
  | nil => intro g hg; exact absurd hg (List.not_mem_nil _)
  | cons a l ih =>
    rw [List.foldl_cons] at h
    obtain ⟨d, e, hd⟩ := updateAll_fold l (updateAllStep s a)
    have hz1 : ZeroOne (updateAllStep s a).2 := by
      have := (updateSet_updSpecZ s.2 a).1
      exact this.sh_zeroOne hz
    have hd0 := (hd.2 hz1).2.1
    have ha := updateSet_nonneg s.2 a
    have e1 : (updateAllStep s a).1 = s.1 + (updateSet s.2 a).1 := rfl
    dsimp only at hd0
    have ha0 : (updateSet s.2 a).1 = 0 := by omega
    have hs2 : (updateAllStep s a).2 = s.2 := updateSet_unchanged s.2 hz a ha0
    intro g hg
    rcases List.mem_cons.mp hg with e2 | e2
    · subst e2; exact ha0
    · have := ih (updateAllStep s a) hz1 (by omega) g e2
      rw [hs2] at this
      exact this

theorem updateAll_zero_sets (b : Board) (hz : ZeroOne b) (h : (updateAll b).1 = 0) (g : Fin 27) :
    (updateSet b g).1 = 0 := by
  unfold updateAll at h
  exact updateAll_fold_zero (List.finRange 27) (0, b) hz h g (List.mem_finRange g)

theorem updateSet_zero_single (b : Board) (g : Fin 27) (h : (updateSet b g).1 = 0) :
    (singleCheck b (paths g)).1 = 0 := by
  unfold updateSet at h
  dsimp only at h
  by_contra hne
  rw [if_pos hne] at h
  simp at h

theorem singleCheck_zero_noPlaced (b : Board) (hc : CountConsistent b) (g : Fin 27)
    (h : (singleCheck b (paths g)).1 = 0) (x y n : Fin 9)
    (hx : (b (paths g x)).value = 0) (hy : (b (paths g y)).value = (n.val : Int) + 1) :
    (b (paths g x)).notes n = 0 := by
  obtain ⟨hu, hn, -⟩ := singleCheck_spec b (paths g)
  have hb := hu.2.2.1 h
  have := hn (paths g x) n
  rw [hb] at this
  rcases (hc (paths g x)).1 n with e | e
  · exact e
  · rw [if_pos ⟨hx, ⟨x, rfl⟩, ⟨y, hy⟩, e⟩] at this
    exact this

theorem updateAll_zero_noPlacedCand (b : Board) (hc : CountConsistent b)
    (h : (updateAll b).1 = 0) : NoPlacedCand b := by
  intro g x y n hx hy
  exact singleCheck_zero_noPlaced b hc g
    (updateSet_zero_single b g (updateAll_zero_sets b hc.cc_zeroOne h g)) x y n hx hy

theorem Shrink.noPlacedCand {b1 b2 : Board} (h : Shrink b1 b2) (hn : NoPlacedCand b1) :
    NoPlacedCand b2 := by
  intro g x y n hx hy
  rw [h.value_eq] at hx hy
  exact h.notes_zero (hn g x y n hx hy)

theorem Shrink.noConflict {b1 b2 : Board} (h : Shrink b1 b2) (hn : NoConflict b1) :
    NoConflict b2 := by
  intro g x y hx hy
  rw [h.value_eq] at hx
  rw [h.value_eq, h.value_eq] at hy
  exact hn g x y hx hy


/-! ## assignValue clears the placed digit from the three sets of the cell -/

theorem updateSet_after_single (b : Board) (g : Fin 27) :
    Shrink (singleCheck b (paths g)).2 (updateSet b g).2 := by
  unfold updateSet
  dsimp only
  split
  · exact Shrink.sh_refl _
  · have h := (groupCheck_updSpecZ (singleCheck b (paths g)).2 (paths g)).1
    dsimp only at h
    split
    · exact h
    · exact h

theorem updateSet_clears (b : Board) (hc : CountConsistent b) (g : Fin 27) (x y n : Fin 9)
    (hx : (b (paths g x)).value = 0) (hy : (b (paths g y)).value = (n.val : Int) + 1) :
    ((updateSet b g).2 (paths g x)).notes n = 0 := by
  apply (updateSet_after_single b g).notes_zero
  rw [(singleCheck_spec b (paths g)).2.1]
  rcases (hc (paths g x)).1 n with e | e
  · rw [e]; simp
  · rw [if_pos ⟨hx, ⟨x, rfl⟩, ⟨y, hy⟩, e⟩]

theorem three_updates_clear (b : Board) (hc : CountConsistent b) (g1 g2 g3 g : Fin 27)
    (hg : g.val = g1.val ∨ g.val = g2.val ∨ g.val = g3.val) (x y n : Fin 9)
    (hx : (b (paths g x)).value = 0) (hy : (b (paths g y)).value = (n.val : Int) + 1) :
    ((updateSet (updateSet (updateSet b g1).2 g2).2 g3).2 (paths g x)).notes n = 0 := by
  have s1 := updateSet_shrink b g1
  have s2 := updateSet_shrink (updateSet b g1).2 g2
  have s3 := updateSet_shrink (updateSet (updateSet b g1).2 g2).2 g3
  have c1 := s1.sh_cc hc
  have c2 := s2.sh_cc c1
  rcases hg with e | e | e
  · have eg : g = g1 := Fin.ext e
    subst eg
    apply s3.notes_zero
    apply s2.notes_zero
    exact updateSet_clears b hc g x y n hx hy
  · have eg : g = g2 := Fin.ext e
    subst eg
    apply s3.notes_zero
    refine updateSet_clears _ c1 g x y n ?_ ?_
    · rw [s1.value_eq]; exact hx
    · rw [s1.value_eq]; exact hy
  · have eg : g = g3 := Fin.ext e
    subst eg
    refine updateSet_clears _ c2 g x y n ?_ ?_
    · rw [s2.value_eq, s1.value_eq]; exact hx
    · rw [s2.value_eq, s1.value_eq]; exact hy

theorem updateCell_clears (b : Board) (hc : CountConsistent b) (hw : WellFormed b) (p : Ptr)
    (g : Fin 27) (x y n : Fin 9) (hp : paths g y = p)
    (hv : (b p).value = (n.val : Int) + 1) (hx : (b (paths g x)).value = 0) :
    (updateCell b p (paths g x)).notes n = 0 := by
  have s1 := updateSet_shrink b ⟨(b p).row.val, by omega⟩
  have w1 := s1.wellFormed hw
  have s2 := updateSet_shrink (updateSet b ⟨(b p).row.val, by omega⟩).2
    ⟨((updateSet b ⟨(b p).row.val, by omega⟩).2 p).col.val + 9, by omega⟩
  have w2 := s2.wellFormed w1
  have hown := paths_owner g y
  rw [hp] at hown
  rw [← hp] at hv
  unfold updateCell
  refine three_updates_clear b hc _ _ _ g ?_ x y n hx hv
  dsimp only
  have r0 := congrArg Fin.val (hw p).1
  have c1 := congrArg Fin.val (w1 p).2
  have r2 := congrArg Fin.val (w2 p).1
  have c2 := congrArg Fin.val (w2 p).2
  rcases hown with e | e | e
  · left; rw [e, r0]
  · right; left; rw [e, c1]
  · right; right; rw [e, r2, c2]

theorem assignValue_noPlacedCand {b : Board} (hc : CountConsistent b) (hw : WellFormed b)
    (hn : NoPlacedCand b) (p : Ptr) (m : Fin 9) :
    NoPlacedCand (assignValue b p ((m.val : Int) + 1)) := by
  intro g x y n hx hy
  by_cases ey : paths g y = p
  · -- the placed digit is the new one
    rw [ey, assignValue_value_same] at hy
    have emn : m = n := Fin.ext (by omega)
    subst emn
    have hxp : paths g x ≠ p := by
      intro e
      rw [e, assignValue_value_same] at hx
      omega
    rw [assignValue_value_other _ _ _ _ hxp] at hx
    unfold assignValue
    apply updateCell_clears _ (storeValue_cc hc p _) (storeValue_wellFormed hw p _) p g x y m ey
    · rw [storeValue_same]; rfl
    · rw [storeValue_other _ _ _ _ hxp]; exact hx
  · rw [assignValue_value_other _ _ _ _ ey] at hy
    by_cases ex : paths g x = p
    · rw [ex]; exact assignValue_notes_same b p _ n
    · rw [assignValue_value_other _ _ _ _ ex] at hx
      exact assignValue_notes_zero (hn g x y n hx hy)

theorem assignValue_noConflict {b : Board} (hk : NoConflict b) (hn : NoPlacedCand b)
    (p : Ptr) (m : Fin 9) (hp : (b p).value = 0) (hm : (b p).notes m ≠ 0) :
    NoConflict (assignValue b p ((m.val : Int) + 1)) := by
  intro g x y hx hy
  by_cases ex : paths g x = p
  · by_cases ey : paths g y = p
    · exact paths_injective g x y (ex.trans ey.symm)
    · exfalso
      rw [ex, assignValue_value_same, assignValue_value_other _ _ _ _ ey] at hy
      have := hn g x y m (by rw [ex]; exact hp) hy.symm
      rw [ex] at this
      exact hm this
  · by_cases ey : paths g y = p
    · exfalso
      rw [ey, assignValue_value_same, assignValue_value_other _ _ _ _ ex] at hy
      have := hn g y x m (by rw [ey]; exact hp) hy
      rw [ey] at this
      exact hm this
    · rw [assignValue_value_other _ _ _ _ ex] at hx
      rw [assignValue_value_other _ _ _ _ ex, assignValue_value_other _ _ _ _ ey] at hy
      exact hk g x y hx hy


/-! ## No conflict is introduced -/

theorem Shrink.conflictFree {b1 b2 : Board} (h : Shrink b1 b2) (hc : ConflictFree b1) :
    ConflictFree b2 :=
  ⟨h.sh_cc hc.1, h.placedEmpty hc.2.1, h.wellFormed hc.2.2.1, h.valuesInRange hc.2.2.2.1,
    h.noConflict hc.2.2.2.2⟩

theorem assignValue_conflictFreeFix {b : Board} (h : ConflictFreeFix b) (p : Ptr) (m : Fin 9)
    (hm : (b p).notes m ≠ 0) : ConflictFreeFix (assignValue b p ((m.val : Int) + 1)) := by
  obtain ⟨⟨hc, hp, hw, hv, hk⟩, hn⟩ := h
  have hlt := m.isLt
  have h0 : (b p).value = 0 := placedEmpty_unplaced hp (Or.inr ⟨m, hm⟩)
  exact ⟨⟨assignValue_cc hc _ _, assignValue_placedEmpty hp _ _, assignValue_wellFormed hw _ _,
    assignValue_valuesInRange hv _ _ (by omega) (by omega),
    assignValue_noConflict hk hn p m h0 hm⟩, assignValue_noPlacedCand hc hw hn p m⟩

theorem solverInv_conflictFree : SolverInv ConflictFree ConflictFreeFix where
  upd := fun b h => (updateAll_shrink b).conflictFree h
  fix := fun b h h0 => ⟨(updateAll_shrink b).conflictFree h,
    (updateAll_shrink b).noPlacedCand (updateAll_zero_noPlacedCand b h.1 h0)⟩
  weaken := fun _ h => h.1
  note := by
    intro b g i h h1
    obtain ⟨n, hn, hn1, -⟩ := firstNote_spec _ (h.1.1 (paths g i)) h1
    rw [hn]
    exact assignValue_conflictFreeFix h _ n (by rw [hn1]; decide)
  cell := by
    intro b g n h h1
    obtain ⟨-, hne, -⟩ := countNote_eq_one b (paths g) n _ 0 h1
    exact assignValue_conflictFreeFix h _ n hne
  guess := fun b i h hne => (assignValue_conflictFreeFix h _ i hne).1

theorem full_noConflict_valid {b : Board} (hf : Full b) (hv : ValuesInRange b)
    (hk : NoConflict b) (i : Fin 27) (d : Fin 9) :
    occurrences (fun p => (b p).value) i ((d.val : Int) + 1) = 1 := by
  have hr : ∀ x : Fin 9, ((b (paths i x)).value - 1).toNat < 9 := by
    intro x
    have h1 := hv (paths i x)
    have h2 := hf (paths i x)
    omega
  have hinj : Function.Injective (fun x : Fin 9 => (⟨((b (paths i x)).value - 1).toNat, hr x⟩ : Fin 9)) := by
    intro x y hxy
    have h3 := congrArg Fin.val hxy
    simp only at h3
    have h1 := hv (paths i x)
    have h2 := hf (paths i x)
    have h1' := hv (paths i y)
    have h2' := hf (paths i y)
    exact hk i x y h2 (by omega)
  obtain ⟨x, hx⟩ := (Finite.injective_iff_surjective.mp hinj) d
  have hxv : (b (paths i x)).value = (d.val : Int) + 1 := by
    have h3 := congrArg Fin.val hx
    simp only at h3
    have h1 := hv (paths i x)
    have h2 := hf (paths i x)
    omega
  unfold occurrences
  rw [Finset.card_eq_one]
  refine ⟨x, ?_⟩
  ext y
  simp only [Finset.mem_filter, Finset.mem_univ, true_and, Finset.mem_singleton]
  constructor
  · intro hy
    exact (hk i x y (hf _) (by rw [hxv, hy])).symm
  · intro hy
    rw [hy]; exact hxv

theorem full_noConflict_testBoard {b : Board} (hf : Full b) (hv : ValuesInRange b)
    (hk : NoConflict b) : testBoard b = true := by
  rw [testBoard_eq_true_iff]
  exact ⟨hf, full_noConflict_valid hf hv hk⟩

theorem guessFrom_zero_full (rc : State → Option (Int × State))
    (hrc : ∀ s s2, rc s = some (0, s2) → Full s2.board)
    (copy : Board) (p : Ptr) (l : List (Fin 9)) (st st2 : State)
    (h : guessFrom rc copy p l st = some (0, st2)) : Full st2.board := by
  induction l generalizing st with
  | nil =>
    rw [guessFrom_nil] at h
    simp at h
  | cons i rest ih =>
    rw [guessFrom_cons] at h
    by_cases hn : (st.board p).notes i ≠ 0
    · rw [if_pos hn] at h
      cases hx : rc { board := assignValue st.board p ((i.val : Int) + 1),
                      guesses := st.guesses + 1 } with
      | none => rw [hx] at h; cases h
      | some x =>
        obtain ⟨v, s3⟩ := x
        rw [hx] at h
        dsimp only at h
        by_cases hv : v = 0
        · rw [if_pos hv] at h
          cases h
          subst hv
          exact hrc _ _ hx
        · rw [if_neg hv] at h
          exact ih _ h
    · rw [if_neg hn] at h
      exact ih _ h

theorem solveWhile_zero_full (fuel : Nat) (gr : State → Option (Int × State))
    (hgr : ∀ s s2, gr s = some (0, s2) → Full s2.board)
    (iters : Nat) (st st2 : State) (h : solveWhile fuel gr iters st = some (0, st2)) :
    Full st2.board := by
  induction iters generalizing st with
  | zero => rw [solveWhile_zero] at h; cases h
  | succ iters ih =>
    rw [solveWhile_succ] at h
    by_cases ht : trivialTest st.board = false
    · rw [if_pos ht] at h
      by_cases hu : (updateAll st.board).1 ≠ 0
      · rw [if_pos hu] at h
        exact ih _ h
      · rw [if_neg hu] at h
        cases hsa : solveAll fuel (updateAll st.board).2 with
        | none => rw [hsa] at h; cases h
        | some x =>
          obtain ⟨s, b2⟩ := x
          rw [hsa] at h
          dsimp only at h
          by_cases hs : s ≠ 0
          · rw [if_pos hs] at h
            exact ih _ h
          · rw [if_neg hs] at h
            exact hgr _ _ h
    · rw [if_neg ht] at h
      have htt : trivialTest st.board = true := by
        cases hh : trivialTest st.board
        · exact absurd hh ht
        · rfl
      cases h
      exact (trivialTest_iff _).mp htt

theorem solveLoop_zero_full (fuel depth : Nat) (st st2 : State)
    (h : solveLoop fuel depth st = some (0, st2)) : Full st2.board := by
  induction depth generalizing st st2 with
  | zero =>
    rw [solveLoop_zero] at h
    exact solveWhile_zero_full fuel _ (fun _ _ hh => by cases hh) fuel st st2 h
  | succ depth ih =>
    rw [solveLoop_succ] at h
    refine solveWhile_zero_full fuel _ ?_ fuel st st2 h
    intro s s2 hg
    unfold guess at hg
    exact guessFrom_zero_full _ (fun a a2 ha => ih a a2 ha) _ _ _ s s2 hg

theorem annotateBoard_conflictFree {b : Board} (hw : WellFormed b) (hv : ValuesInRange b)
    (hk : NoConflict b) : ConflictFree (annotateBoard b) := by
  refine ⟨annotateBoard_cc b, annotateBoard_placedEmpty b, annotateBoard_wellFormed hw,
    annotateBoard_valuesInRange hv, ?_⟩
  intro g x y hx hy
  rw [annotateBoard_value] at hx
  rw [annotateBoard_value, annotateBoard_value] at hy
  exact hk g x y hx hy


/-! ## Index safety of groupCheck -/

theorem mem_noteValuesOf (c : Cell) (m : Fin 9) : m ∈ noteValuesOf c ↔ c.notes m ≠ 0 := by
  unfold noteValuesOf
  simp [List.mem_filter, List.mem_finRange]

theorem noteValuesOf_length (c : Cell) (hc : CellCC c) :
    ((noteValuesOf c).length : Int) = c.noteCount := by
  rw [hc.2]
  unfold noteValuesOf
  rw [← card_filter_finRange (fun i => c.notes i ≠ 0)]
  congr 2
  ext n
  simp only [Finset.mem_filter, Finset.mem_univ, true_and]
  rcases hc.1 n with e | e <;> rw [e] <;> decide

theorem equalsArr_iff (a1 a2 : Fin 9 → Int) : equalsArr a1 a2 = true ↔ ∀ i, a1 i = a2 i := by
  unfold equalsArr
  simp [List.all_eq_true, List.mem_finRange]

theorem inArray_eq_false_iff (x : Fin 9) (l : List (Fin 9)) (k : Int) :
    inArray x l k = false ↔ x ∉ l.take k.toNat := by
  unfold inArray
  rw [← Bool.not_eq_true, List.any_eq_true]
  simp

theorem groupInnerStep_indices (cells : Fin 9 → Ptr) (i n : Fin 9) (s : GroupState) :
    (groupInnerStep cells i n s).indices =
      if innerMatch cells i n s then s.indices ++ [n] else s.indices := by
  unfold groupInnerStep innerMatch
  dsimp only
  generalize (if (s.board (cells i)).noteCount = (s.board (cells n)).noteCount ∧
      equalsArr (s.board (cells i)).notes (s.board (cells n)).notes = true
    then s.indices ++ [n] else s.indices) = idx
  split <;> rfl

theorem groupInnerStep_board (cells : Fin 9 → Ptr) (i n : Fin 9) (s : GroupState) :
    (groupInnerStep cells i n s).board =
      if ((groupInnerStep cells i n s).indices.length : Int) = (s.board (cells i)).noteCount then
        (groupCancel s.board cells (groupInnerStep cells i n s).indices
          (s.board (cells i)).noteCount).2
      else s.board := by
  rw [groupInnerStep_indices]
  unfold groupInnerStep innerMatch
  dsimp only
  generalize (if (s.board (cells i)).noteCount = (s.board (cells n)).noteCount ∧
      equalsArr (s.board (cells i)).notes (s.board (cells n)).notes = true
    then s.indices ++ [n] else s.indices) = idx
  split <;> rfl


theorem cellCC_exists_note {c : Cell} (hc : CellCC c) (h : 0 < c.noteCount) :
    ∃ m, c.notes m ≠ 0 := by
  by_contra hh
  push_neg at hh
  rw [cellCC_iff] at hc
  have : noteSum c = 0 := by
    unfold noteSum
    exact Finset.sum_eq_zero (fun n _ => hh n)
  omega

theorem headD_append_of_mem (l : List (Fin 9)) (n i : Fin 9) (h : i ∈ l) :
    (l ++ [n]).headD 0 = l.headD 0 := by
  cases l with
  | nil => exact absurd h (List.not_mem_nil _)
  | cons a l => rfl

theorem innerInv_match_lt (cells : Fin 9 → Ptr) (i n : Fin 9) (k : Int) (rest : List (Fin 9))
    (s : GroupState) (hJ : InnerInv cells i k (n :: rest) s) (hm : innerMatch cells i n s) :
    (s.indices.length : Int) < k := by
  obtain ⟨hc, hp, hk, h1, hhead, hmem, hlen, hnot, hcan⟩ := hJ
  by_contra hlt
  have heq : (s.indices.length : Int) = k := by omega
  have hn : n ∉ s.indices := fun h => hnot n h (List.mem_cons_self _ _)
  obtain ⟨hm1, hm2⟩ := hm
  rw [equalsArr_iff] at hm2
  have hval : (s.board (cells n)).value = 0 := by
    by_contra hv
    have := (hp (cells n) hv).2
    omega
  obtain ⟨m, hne⟩ := cellCC_exists_note (hc (cells i)) (by omega)
  have := hcan heq n hn hval m hne
  rw [← hm2 m] at this
  exact hne this

theorem groupCancel_protected (b : Board) (cells : Fin 9 → Ptr)
    (hinj : Function.Injective cells) (idx : List (Fin 9)) (k : Int) (i : Fin 9)
    (hi : i ∈ idx.take k.toNat) :
    (∀ m, ((groupCancel b cells idx k).2 (cells i)).notes m = (b (cells i)).notes m) ∧
    ((groupCancel b cells idx k).2 (cells i)).noteCount = (b (cells i)).noteCount := by
  obtain ⟨hs, hn, -⟩ := groupCancel_spec b cells idx k
  have hnotes : ∀ m, ((groupCancel b cells idx k).2 (cells i)).notes m = (b (cells i)).notes m := by
    intro m
    rw [hn (cells i) m, if_neg]
    rintro ⟨-, ⟨x, hx, hx2⟩, -⟩
    have := hinj hx
    subst this
    rw [inArray_eq_false_iff] at hx2
    exact hx2 hi
  refine ⟨hnotes, ?_⟩
  have := (hs (cells i)).2.2.2.2.1
  have e : noteSum ((groupCancel b cells idx k).2 (cells i)) = noteSum (b (cells i)) := by
    unfold noteSum
    exact Finset.sum_congr rfl (fun m _ => hnotes m)
  omega

theorem innerInv_step (cells : Fin 9 → Ptr) (hinj : Function.Injective cells) (i n : Fin 9)
    (k : Int) (rest : List (Fin 9)) (hnd : (n :: rest).Nodup) (s : GroupState)
    (hJ : InnerInv cells i k (n :: rest) s) :
    InnerInv cells i k rest (groupInnerStep cells i n s) := by
  have hlt := innerInv_match_lt cells i n k rest s hJ
  obtain ⟨hc, hp, hk, h1, hhead, hmem, hlen, hnot, hcan⟩ := hJ
  have hidx := groupInnerStep_indices cells i n s
  have hbd := groupInnerStep_board cells i n s
  -- facts on the new list of indices
  have hhead1 : (groupInnerStep cells i n s).indices.headD 0 = i := by
    rw [hidx]; split
    · rw [headD_append_of_mem _ _ _ hmem]; exact hhead
    · exact hhead
  have hmem1 : i ∈ (groupInnerStep cells i n s).indices := by
    rw [hidx]; split
    · exact List.mem_append_left _ hmem
    · exact hmem
  have hlen1 : ((groupInnerStep cells i n s).indices.length : Int) ≤ k := by
    rw [hidx]; split
    · rename_i hm
      have := hlt hm
      simp only [List.length_append, List.length_singleton]
      push_cast
      omega
    · exact hlen
  have hnot1 : ∀ x ∈ (groupInnerStep cells i n s).indices, x ∉ rest := by
    intro x hx
    rw [hidx] at hx
    split at hx
    · rcases List.mem_append.mp hx with e | e
      · exact fun h => hnot x e (List.mem_cons_of_mem _ h)
      · rw [List.mem_singleton] at e
        subst e
        exact (List.nodup_cons.mp hnd).1
    · exact fun h => hnot x hx (List.mem_cons_of_mem _ h)
  by_cases hcall : ((groupInnerStep cells i n s).indices.length : Int) = (s.board (cells i)).noteCount
  · -- groupCancel runs
    rw [if_pos hcall] at hbd
    rw [hk] at hcall hbd
    have hsh := (groupCancel_spec s.board cells (groupInnerStep cells i n s).indices k).1
    have hfull : (groupInnerStep cells i n s).indices.take k.toNat =
        (groupInnerStep cells i n s).indices := by
      apply List.take_of_length_le
      omega
    have hprot := groupCancel_protected s.board cells hinj (groupInnerStep cells i n s).indices k i
      (by rw [hfull]; exact hmem1)
    rw [← hbd] at hsh hprot
    refine ⟨hsh.sh_cc hc, hsh.placedEmpty hp, by rw [hprot.2, hk], h1, hhead1, hmem1, hlen1,
      hnot1, ?_⟩
    intro _ x hx hv m hm
    rw [hprot.1 m] at hm
    rw [hbd, (groupCancel_spec s.board cells (groupInnerStep cells i n s).indices k).2.1,
      if_pos]
    refine ⟨?_, ⟨x, rfl, ?_⟩, ?_⟩
    · rw [← hsh.value_eq]; exact hv
    · rw [inArray_eq_false_iff, hfull]; exact hx
    · rw [hhead1]
      have hl := noteValuesOf_length _ (hc (cells i))
      rw [List.take_of_length_le (by omega), mem_noteValuesOf]
      exact hm
  · rw [if_neg hcall] at hbd
    rw [hk] at hcall
    refine ⟨by rw [hbd]; exact hc, by rw [hbd]; exact hp, by rw [hbd]; exact hk, h1, hhead1,
      hmem1, hlen1, hnot1, ?_⟩
    intro h
    exact absurd h hcall

theorem innerSafe_of_inv (cells : Fin 9 → Ptr) (hinj : Function.Injective cells) (i : Fin 9)
    (k : Int) (rest : List (Fin 9)) (hnd : rest.Nodup) (s : GroupState)
    (hJ : InnerInv cells i k rest s) : InnerSafe cells i k rest s := by
  induction rest generalizing s with
  | nil => exact hJ.2.2.2.2.2.2.1
  | cons n rest ih =>
    have hstep := innerInv_step cells hinj i n k rest hnd s hJ
    refine ⟨hJ.2.2.2.2.2.2.1, innerInv_match_lt cells i n k rest s hJ, hJ.2.2.1, ?_, ?_⟩
    · intro _
      unfold CancelSafe
      rw [hstep.2.2.2.2.1, noteValuesOf_length _ (hJ.1 (cells i)), hJ.2.2.1]
    · intro _
      exact ih (List.nodup_cons.mp hnd).2 _ hstep

theorem groupStep_shrink (cells : Fin 9 → Ptr) (s : Int × Board) (i : Fin 9) :
    Shrink s.2 (groupStep cells s i).2 := by
  obtain ⟨d, -, h⟩ := groupStep_upd cells s i
  exact h.1

theorem groupSafe_of_inv (cells : Fin 9 → Ptr) (hinj : Function.Injective cells)
    (l : List (Fin 9)) (s : Int × Board) (hc : CountConsistent s.2) (hp : PlacedEmpty s.2) :
    GroupSafe cells l s := by
  induction l generalizing s with
  | nil => trivial
  | cons i rest ih =>
    refine ⟨?_, ih _ ((groupStep_shrink cells s i).sh_cc hc)
      ((groupStep_shrink cells s i).placedEmpty hp)⟩
    intro hgt
    apply innerSafe_of_inv cells hinj i _ _ ((List.nodup_finRange 9).filter _)
    refine ⟨hc, hp, rfl, hgt, rfl, List.mem_singleton_self i, ?_, ?_, ?_⟩
    · simp only [List.length_singleton]
      push_cast
      omega
    · intro x hx
      rw [List.mem_singleton] at hx
      subst hx
      simp [List.mem_filter]
    · intro h
      simp only [List.length_singleton] at h
      push_cast at h
      omega


theorem not_changed_self (b : Board) : ¬ Changed b b := by
  rintro ⟨p, n, h1, h2⟩
  exact h1 h2

theorem updSpec_changed_iff {b : Board} {r : Int × Board} (h : UpdSpec b r) :
    r.1 ≠ 0 ↔ Changed b r.2 := by
  refine ⟨h.2.2.2, ?_⟩
  intro hc h0
  rw [h.2.2.1 h0] at hc
  exact not_changed_self b hc

/-! ## bestGuess -/

theorem BestInv.congr {b : Board} {s : BestState} {seen seen2 : Ptr → Prop}
    (h : BestInv b s seen) (e : ∀ q, seen2 q ↔ seen q) : BestInv b s seen2 := by
  rcases h with ⟨h1, h2⟩ | ⟨h1, h2, h3, h4, h5⟩
  · exact Or.inl ⟨h1, fun q hq => h2 q ((e q).mp hq)⟩
  · exact Or.inr ⟨(e _).mpr h1, h2, h3, h4, fun q hq => h5 q ((e q).mp hq)⟩

theorem bestGuessRow_nil (b : Board) (r : Fin 9) (s : BestState) :
    bestGuessRow b r [] s = s := rfl

theorem bestGuessRow_cons (b : Board) (r c : Fin 9) (rest : List (Fin 9)) (s : BestState) :
    bestGuessRow b r (c :: rest) s =
      if (if (b (r, c)).value = 0 ∧ (b (r, c)).noteCount < s.minNotes then
            ({ minNotes := (b (r, c)).noteCount, row := r, col := c } : BestState)
          else s).minNotes = 2
      then (if (b (r, c)).value = 0 ∧ (b (r, c)).noteCount < s.minNotes then
            ({ minNotes := (b (r, c)).noteCount, row := r, col := c } : BestState)
          else s)
      else bestGuessRow b r rest
        (if (b (r, c)).value = 0 ∧ (b (r, c)).noteCount < s.minNotes then
            ({ minNotes := (b (r, c)).noteCount, row := r, col := c } : BestState)
          else s) := rfl

/-- One cell of the scan: the comparison of bestGuess keeps the invariant. -/
theorem bestInv_cell (b : Board) (r c : Fin 9) (s : BestState) (seen : Ptr → Prop)
    (h : BestInv b s seen) (hb : ∀ q, seen q → rowMajor q < rowMajor (r, c)) :
    BestInv b
      (if (b (r, c)).value = 0 ∧ (b (r, c)).noteCount < s.minNotes then
        ({ minNotes := (b (r, c)).noteCount, row := r, col := c } : BestState)
      else s) (fun q => seen q ∨ q = (r, c)) := by
  by_cases hu : (b (r, c)).value = 0 ∧ (b (r, c)).noteCount < s.minNotes
  · rw [if_pos hu]
    refine Or.inr ⟨Or.inr rfl, hu.1, rfl, ?_, ?_⟩
    · rcases h with ⟨h1, -⟩ | ⟨-, -, -, h4, -⟩
      · have := hu.2; dsimp only; omega
      · have := hu.2; dsimp only; omega
    · intro q hq hv
      dsimp only
      rcases hq with hq | hq
      · rcases h with ⟨h1, h2⟩ | ⟨-, -, -, -, h5⟩
        · have := h2 q hq hv
          have := hu.2
          exact ⟨by omega, fun e => by omega⟩
        · have := (h5 q hq hv).1
          have := hu.2
          exact ⟨by omega, fun e => by omega⟩
      · subst hq
        exact ⟨le_refl _, fun _ => le_refl _⟩
  · rw [if_neg hu]
    rcases h with ⟨h1, h2⟩ | ⟨h1, h2, h3, h4, h5⟩
    · refine Or.inl ⟨h1, ?_⟩
      intro q hq hv
      rcases hq with hq | hq
      · exact h2 q hq hv
      · subst hq
        by_contra hlt
        exact hu ⟨hv, by omega⟩
    · refine Or.inr ⟨Or.inl h1, h2, h3, h4, ?_⟩
      intro q hq hv
      rcases hq with hq | hq
      · exact h5 q hq hv
      · subst hq
        refine ⟨?_, fun _ => le_of_lt (hb _ h1)⟩
        by_contra hlt
        exact hu ⟨hv, by omega⟩

theorem bestInv_row (b : Board) (hH : BreakHarmless b) (r : Fin 9) (l : List (Fin 9))
    (s : BestState) (seen : Ptr → Prop) (h : BestInv b s seen)
    (hb : ∀ c ∈ l, ∀ q, seen q → rowMajor q < rowMajor (r, c))
    (hl : l.Pairwise (fun x y => x < y)) :
    BestInv b (bestGuessRow b r l s) (fun q => seen q ∨ (q.1 = r ∧ q.2 ∈ l)) := by
  induction l generalizing s seen with
  | nil =>
    rw [bestGuessRow_nil]
    exact h.congr (fun q => by simp)
  | cons c rest ih =>
    rw [bestGuessRow_cons]
    have h1 := bestInv_cell b r c s seen h (hb c (List.mem_cons_self _ _))
    obtain ⟨hc, hrest⟩ := List.pairwise_cons.mp hl
    generalize (if (b (r, c)).value = 0 ∧ (b (r, c)).noteCount < s.minNotes then
        ({ minNotes := (b (r, c)).noteCount, row := r, col := c } : BestState)
      else s) = s1 at h1 ⊢
    have hb1 : ∀ c2 ∈ rest, ∀ q, (seen q ∨ q = (r, c)) → rowMajor q < rowMajor (r, c2) := by
      intro c2 hc2 q hq
      rcases hq with hq | hq
      · exact hb c2 (List.mem_cons_of_mem _ hc2) q hq
      · subst hq
        have := hc c2 hc2
        unfold rowMajor
        dsimp only
        omega
    by_cases h2 : s1.minNotes = 2
    · rw [if_pos h2]
      rcases h1 with ⟨e, -⟩ | ⟨k1, k2, k3, k4, k5⟩
      · rw [e] at h2; exact absurd h2 (by decide)
      · refine Or.inr ⟨k1.elim Or.inl (fun e => Or.inr ?_), k2, k3, k4, ?_⟩
        · rw [e]
          exact ⟨rfl, List.mem_cons_self _ _⟩
        intro q hq hv
        rcases hq with hq | ⟨hq1, hq2⟩
        · exact k5 q (Or.inl hq) hv
        · rcases List.mem_cons.mp hq2 with e | e
          · have : q = (r, c) := Prod.ext hq1 e
            exact k5 q (Or.inr this) hv
          · have hq : q = (r, q.2) := Prod.ext hq1 rfl
            have hlt := hb1 q.2 e _ k1
            rw [← hq] at hlt
            rcases hH with hH | hH
            · have := hH q hv
              exact ⟨by omega, fun _ => le_of_lt hlt⟩
            · exact absurd (k3.trans h2) (hH _ k2)
    · rw [if_neg h2]
      refine (ih s1 _ h1 hb1 hrest).congr ?_
      intro q
      constructor
      · rintro (hq | ⟨hq1, hq2⟩)
        · exact Or.inl (Or.inl hq)
        · rcases List.mem_cons.mp hq2 with e | e
          · exact Or.inl (Or.inr (Prod.ext hq1 e))
          · exact Or.inr ⟨hq1, e⟩
      · rintro ((hq | hq) | ⟨hq1, hq2⟩)
        · exact Or.inl hq
        · subst hq
          exact Or.inr ⟨rfl, List.mem_cons_self _ _⟩
        · exact Or.inr ⟨hq1, List.mem_cons_of_mem _ hq2⟩

theorem finRange_pairwise_lt : (List.finRange 9).Pairwise (fun x y => x < y) := by decide

theorem bestInv_rows (b : Board) (hH : BreakHarmless b) (L : List (Fin 9)) (s : BestState)
    (seen : Ptr → Prop) (h : BestInv b s seen)
    (hb : ∀ r ∈ L, ∀ q, seen q → q.1 < r)
    (hl : L.Pairwise (fun x y => x < y)) :
    BestInv b (L.foldl (fun s r => bestGuessRow b r (List.finRange 9) s) s)
      (fun q => seen q ∨ q.1 ∈ L) := by
  induction L generalizing s seen with
  | nil => exact h.congr (fun q => by simp)
  | cons r rest ih =>
    rw [List.foldl_cons]
    obtain ⟨hc, hrest⟩ := List.pairwise_cons.mp hl
    have h1 := bestInv_row b hH r (List.finRange 9) s seen h
      (by
        intro c _ q hq
        have := hb r (List.mem_cons_self _ _) q hq
        unfold rowMajor
        dsimp only
        omega)
      finRange_pairwise_lt
    refine (ih _ _ h1 ?_ hrest).congr ?_
    · intro r2 hr2 q hq
      rcases hq with hq | ⟨hq, -⟩
      · exact hb r2 (List.mem_cons_of_mem _ hr2) q hq
      · rw [hq]; exact hc r2 hr2
    · intro q
      constructor
      · rintro (hq | hq)
        · exact Or.inl (Or.inl hq)
        · rcases List.mem_cons.mp hq with e | e
          · exact Or.inl (Or.inr ⟨e, List.mem_finRange _⟩)
          · exact Or.inr e
      · rintro ((hq | ⟨hq, -⟩) | hq)
        · exact Or.inl hq
        · exact Or.inr (by rw [hq]; exact List.mem_cons_self _ _)
        · exact Or.inr (List.mem_cons_of_mem _ hq)

theorem bestGuess_inv (b : Board) (hH : BreakHarmless b) :
    BestInv b ((List.finRange 9).foldl (fun s r => bestGuessRow b r (List.finRange 9) s)
      { minNotes := 10, row := 0, col := 0 }) (fun _ => True) := by
  refine (bestInv_rows b hH (List.finRange 9) { minNotes := 10, row := 0, col := 0 }
    (fun _ => False) (Or.inl ⟨rfl, fun q hq => hq.elim⟩) (fun _ _ q hq => hq.elim)
    finRange_pairwise_lt).congr ?_
  intro q
  simp [List.mem_finRange]

/-- The cell found by bestGuess when the break is harmless and some empty cell
has fewer than 10 notes. -/
theorem bestGuess_spec (b : Board) (hH : BreakHarmless b)
    (hex : ∃ p, (b p).value = 0 ∧ (b p).noteCount < 10) :
    (b (bestGuess b)).value = 0 ∧
    (∀ q, (b q).value = 0 → (b (bestGuess b)).noteCount ≤ (b q).noteCount) ∧
    (∀ q, (b q).value = 0 → (b q).noteCount = (b (bestGuess b)).noteCount →
      rowMajor (bestGuess b) ≤ rowMajor q) := by
  have h := bestGuess_inv b hH
  unfold bestGuess
  dsimp only
  generalize (List.finRange 9).foldl (fun s r => bestGuessRow b r (List.finRange 9) s)
      { minNotes := 10, row := 0, col := 0 } = s at h ⊢
  rcases h with ⟨-, h2⟩ | ⟨-, h2, h3, -, h5⟩
  · obtain ⟨p, hp1, hp2⟩ := hex
    have := h2 p trivial hp1
    omega
  · refine ⟨h2, ?_, ?_⟩
    · intro q hq
      rw [h3]
      exact (h5 q trivial hq).1
    · intro q hq e
      rw [h3] at e
      exact (h5 q trivial hq).2 e

theorem cellCC_noteCount_le {c : Cell} (h : CellCC c) : c.noteCount ≤ 9 := by
  rw [h.2]
  have := Finset.card_le_univ (Finset.univ.filter fun n : Fin 9 => c.notes n = 1)
  simp only [Fintype.card_fin] at this
  exact_mod_cast this

/-! ## The postcondition of assignValue -/

theorem paths_contains : ∀ (p : Ptr) (g : Fin 27),
    (∃ y, paths g y = p) ↔
      (g.val = p.1.val ∨ g.val = p.2.val + 9 ∨ g.val = getSq p.1.val p.2.val + 18) := by
  decide

/-- The three sets that updateCell updates for a cell that stores its coordinates. -/
theorem updateCell_sets (b : Board) (p : Ptr) (hr : (b p).row = p.1) (hcl : (b p).col = p.2) :
    ∃ g1 g2 g3 : Fin 27, g1.val = p.1.val ∧ g2.val = p.2.val + 9 ∧
      g3.val = getSq p.1.val p.2.val + 18 ∧
      updateCell b p = (updateSet (updateSet (updateSet b g1).2 g2).2 g3).2 := by
  have s1 := updateSet_shrink b ⟨(b p).row.val, by omega⟩
  have s2 := updateSet_shrink (updateSet b ⟨(b p).row.val, by omega⟩).2
    ⟨((updateSet b ⟨(b p).row.val, by omega⟩).2 p).col.val + 9, by omega⟩
  have c1 := (s1 p).2.2.1
  have r2 := (s2 p).2.1
  have c2 := (s2 p).2.2.1
  have r1 := (s1 p).2.1
  unfold updateCell
  refine ⟨_, _, _, ?_, ?_, ?_, rfl⟩
  · dsimp only
    rw [hr]
  · dsimp only
    rw [c1, hcl]
  · dsimp only
    rw [r2, c2, r1, c1, hr, hcl]

theorem updateCell_clears_at (b : Board) (hc : CountConsistent b) (p : Ptr)
    (hr : (b p).row = p.1) (hcl : (b p).col = p.2)
    (g : Fin 27) (x y n : Fin 9) (hp : paths g y = p)
    (hv : (b p).value = (n.val : Int) + 1) (hx : (b (paths g x)).value = 0) :
    (updateCell b p (paths g x)).notes n = 0 := by
  obtain ⟨g1, g2, g3, e1, e2, e3, e⟩ := updateCell_sets b p hr hcl
  rw [e]
  have hown := paths_owner g y
  rw [hp] at hown
  rw [← hp] at hv
  refine three_updates_clear b hc g1 g2 g3 g ?_ x y n hx hv
  rw [e1, e2, e3]
  exact hown

theorem assignValue_clears_at (b : Board) (hc : CountConsistent b) (p : Ptr)
    (hr : (b p).row = p.1) (hcl : (b p).col = p.2) (m : Fin 9)
    (g : Fin 27) (x y : Fin 9) (hp : paths g y = p)
    (hx : (assignValue b p ((m.val : Int) + 1) (paths g x)).value = 0) :
    (assignValue b p ((m.val : Int) + 1) (paths g x)).notes m = 0 := by
  have hxp : paths g x ≠ p := by
    intro e
    rw [e, assignValue_value_same] at hx
    omega
  rw [assignValue_value_other _ _ _ _ hxp] at hx
  unfold assignValue
  apply updateCell_clears_at _ (storeValue_cc hc p _) p ?_ ?_ g x y m hp
  · rw [storeValue_same]; rfl
  · rw [storeValue_other _ _ _ _ hxp]; exact hx
  · rw [storeValue_same]; exact hr
  · rw [storeValue_same]; exact hcl

theorem assignValue_noteCount_same (b : Board) (p : Ptr) (v : Int) (hv : v ≠ 0) :
    (assignValue b p v p).noteCount = 0 := by
  have h := (assignValue_shrink b p v p).2.2.2.2.2
  rw [storeValue_same] at h
  rw [h hv]
  rfl

/-! ## solveSet: termination and the local fixpoint -/

theorem AssignSteps.zero_eq {b b2 : Board} (h : AssignSteps b 0 b2) : b2 = b := by
  cases h
  rfl

theorem AssignSteps.as_trans {b b1 b2 : Board} {k j : Nat} (h1 : AssignSteps b k b1)
    (h2 : AssignSteps b1 j b2) : AssignSteps b (k + j) b2 := by
  induction h2 with
  | start => exact h1
  | assign p m _ hv hn ih => exact AssignSteps.assign p m ih hv hn

theorem AssignSteps.as_cc {b b2 : Board} {k : Nat} (h : AssignSteps b k b2)
    (hc : CountConsistent b) : CountConsistent b2 := by
  induction h with
  | start => exact hc
  | assign p m _ _ _ ih => exact assignValue_cc ih p _

theorem AssignSteps.as_pe {b b2 : Board} {k : Nat} (h : AssignSteps b k b2)
    (hp : PlacedEmpty b) : PlacedEmpty b2 := by
  induction h with
  | start => exact hp
  | assign p m _ _ _ ih => exact assignValue_placedEmpty ih p _

theorem AssignSteps.as_extends {b b2 : Board} {k : Nat} (h : AssignSteps b k b2) :
    Extends b b2 := by
  induction h with
  | start => exact fun _ _ => rfl
  | assign p m _ hv _ ih => exact assignValue_extends ih p _ hv

theorem AssignSteps.as_noteTotal {b b2 : Board} {k : Nat} (h : AssignSteps b k b2) :
    noteTotal b2 + k ≤ noteTotal b := by
  induction h with
  | start => exact Nat.le_of_eq (Nat.add_zero _)
  | assign p m _ _ hn ih =>
    have := assignValue_noteTotal_lt _ p ((m.val : Int) + 1) m hn
    omega

theorem assignValue_emptyCount (b : Board) (p : Ptr) (v : Int) (hv : v ≠ 0)
    (hp : (b p).value = 0) : emptyCount (assignValue b p v) + 1 = emptyCount b := by
  unfold emptyCount
  have e : (Finset.univ.filter fun q : Ptr => (assignValue b p v q).value = 0) =
      (Finset.univ.filter fun q : Ptr => (b q).value = 0).erase p := by
    ext q
    simp only [Finset.mem_filter, Finset.mem_univ, true_and, Finset.mem_erase]
    by_cases e : q = p
    · subst e
      rw [assignValue_value_same]
      simp [hv]
    · rw [assignValue_value_other _ _ _ _ e]
      simp [e]
  have hmem : p ∈ Finset.univ.filter fun q : Ptr => (b q).value = 0 := by
    simp only [Finset.mem_filter, Finset.mem_univ, true_and]
    exact hp
  rw [e, Finset.card_erase_of_mem hmem]
  have := Finset.card_pos.mpr ⟨p, hmem⟩
  omega

theorem AssignSteps.as_emptyCount {b b2 : Board} {k : Nat} (h : AssignSteps b k b2) :
    emptyCount b2 + k = emptyCount b := by
  induction h with
  | start => exact Nat.add_zero _
  | assign p m _ hv _ ih =>
    have := assignValue_emptyCount _ p ((m.val : Int) + 1) (by omega) hv
    omega

/-- The assignment of singleNoteSolve gives an empty cell its only note. -/
theorem singleNote_assign (b : Board) (hc : CountConsistent b) (hp : PlacedEmpty b) (p : Ptr)
    (h1 : (b p).noteCount = 1) :
    AssignSteps b 1 (assignValue b p (firstNote (b p) + 1)) := by
  obtain ⟨n, hn, hs, -⟩ := firstNote_spec (b p) (hc p) h1
  rw [hn]
  refine AssignSteps.assign p n AssignSteps.start (placedEmpty_unplaced hp (Or.inl h1)) ?_
  rw [hs]
  decide

/-- The assignment of singleCellSolve gives an empty cell one of its notes. -/
theorem singleCell_assign (b : Board) (hp : PlacedEmpty b) (cells : Fin 9 → Ptr) (n : Fin 9)
    (h1 : (countNote b cells n (List.finRange 9) (0, 0)).1 = 1) :
    AssignSteps b 1 (assignValue b (cells (countNote b cells n (List.finRange 9) (0, 0)).2)
      ((n.val : Int) + 1)) := by
  obtain ⟨-, hn, -⟩ := countNote_eq_one b cells n (List.finRange 9) 0 h1
  exact AssignSteps.assign _ n AssignSteps.start (placedEmpty_unplaced hp (Or.inr ⟨n, hn⟩)) hn

theorem singleNoteSolve_fold (cells : Fin 9 → Ptr) (l : List (Fin 9)) (s : Int × Board)
    (hc : CountConsistent s.2) (hp : PlacedEmpty s.2) :
    ∃ k, AssignSteps s.2 k (l.foldl (singleNoteStep cells) s).2 ∧
      (((l.foldl (singleNoteStep cells) s).1 = s.1 ∧ k = 0 ∧
          ∀ i ∈ l, (s.2 (cells i)).noteCount ≠ 1) ∨
        ((l.foldl (singleNoteStep cells) s).1 = 1 ∧ 0 < k)) := by
  induction l generalizing s with
  | nil => exact ⟨0, AssignSteps.start, Or.inl ⟨rfl, rfl, fun i hi => absurd hi (List.not_mem_nil _)⟩⟩
  | cons a l ih =>
    rw [List.foldl_cons]
    by_cases h1 : (s.2 (cells a)).noteCount = 1
    · have hstep : singleNoteStep cells s a =
          (1, assignValue s.2 (cells a) (firstNote (s.2 (cells a)) + 1)) := by
        unfold singleNoteStep
        rw [if_pos h1]
      have ha := singleNote_assign s.2 hc hp (cells a) h1
      rw [hstep]
      obtain ⟨k, hk, hr⟩ := ih (1, assignValue s.2 (cells a) (firstNote (s.2 (cells a)) + 1))
        (ha.as_cc hc) (ha.as_pe hp)
      refine ⟨1 + k, ha.as_trans hk, Or.inr ⟨?_, by omega⟩⟩
      rcases hr with ⟨e, -, -⟩ | ⟨e, -⟩
      · exact e
      · exact e
    · have hstep : singleNoteStep cells s a = s := by
        unfold singleNoteStep
        rw [if_neg h1]
      rw [hstep]
      obtain ⟨k, hk, hr⟩ := ih s hc hp
      refine ⟨k, hk, ?_⟩
      rcases hr with ⟨e, e2, e3⟩ | ⟨e, e2⟩
      · left
        refine ⟨e, e2, ?_⟩
        intro i hi
        rcases List.mem_cons.mp hi with e4 | e4
        · subst e4; exact h1
        · exact e3 i e4
      · exact Or.inr ⟨e, e2⟩

theorem singleCellSolve_fold (cells : Fin 9 → Ptr) (l : List (Fin 9)) (s : Int × Board)
    (hc : CountConsistent s.2) (hp : PlacedEmpty s.2) :
    ∃ k, AssignSteps s.2 k (l.foldl (singleCellStep cells) s).2 ∧
      (((l.foldl (singleCellStep cells) s).1 = s.1 ∧ k = 0 ∧
          ∀ n ∈ l, (countNote s.2 cells n (List.finRange 9) (0, 0)).1 ≠ 1) ∨
        ((l.foldl (singleCellStep cells) s).1 = 1 ∧ 0 < k)) := by
  induction l generalizing s with
  | nil => exact ⟨0, AssignSteps.start, Or.inl ⟨rfl, rfl, fun i hi => absurd hi (List.not_mem_nil _)⟩⟩
  | cons a l ih =>
    rw [List.foldl_cons]
    by_cases h1 : (countNote s.2 cells a (List.finRange 9) (0, 0)).1 = 1
    · have hstep : singleCellStep cells s a =
          (1, assignValue s.2 (cells (countNote s.2 cells a (List.finRange 9) (0, 0)).2)
            ((a.val : Int) + 1)) := by
        unfold singleCellStep
        dsimp only
        rw [if_pos h1]
      have ha := singleCell_assign s.2 hp cells a h1
      rw [hstep]
      obtain ⟨k, hk, hr⟩ := ih (1, assignValue s.2
        (cells (countNote s.2 cells a (List.finRange 9) (0, 0)).2) ((a.val : Int) + 1))
        (ha.as_cc hc) (ha.as_pe hp)
      refine ⟨1 + k, ha.as_trans hk, Or.inr ⟨?_, by omega⟩⟩
      rcases hr with ⟨e, -, -⟩ | ⟨e, -⟩
      · exact e
      · exact e
    · have hstep : singleCellStep cells s a = s := by
        unfold singleCellStep
        dsimp only
        rw [if_neg h1]
      rw [hstep]
      obtain ⟨k, hk, hr⟩ := ih s hc hp
      refine ⟨k, hk, ?_⟩
      rcases hr with ⟨e, e2, e3⟩ | ⟨e, e2⟩
      · left
        refine ⟨e, e2, ?_⟩
        intro i hi
        rcases List.mem_cons.mp hi with e4 | e4
        · subst e4; exact h1
        · exact e3 i e4
      · exact Or.inr ⟨e, e2⟩

theorem singleNoteSolve_steps (b : Board) (cells : Fin 9 → Ptr) (hc : CountConsistent b)
    (hp : PlacedEmpty b) :
    ∃ k, AssignSteps b k (singleNoteSolve b cells).2 ∧
      (((singleNoteSolve b cells).1 = 0 ∧ k = 0 ∧ ∀ i, (b (cells i)).noteCount ≠ 1) ∨
        ((singleNoteSolve b cells).1 = 1 ∧ 0 < k)) := by
  obtain ⟨k, hk, hr⟩ := singleNoteSolve_fold cells (List.finRange 9) (0, b) hc hp
  refine ⟨k, hk, ?_⟩
  rcases hr with ⟨e, e2, e3⟩ | h
  · exact Or.inl ⟨e, e2, fun i => e3 i (List.mem_finRange i)⟩
  · exact Or.inr h

theorem singleCellSolve_steps (b : Board) (cells : Fin 9 → Ptr) (hc : CountConsistent b)
    (hp : PlacedEmpty b) :
    ∃ k, AssignSteps b k (singleCellSolve b cells).2 ∧
      (((singleCellSolve b cells).1 = 0 ∧ k = 0 ∧
          ∀ n, (countNote b cells n (List.finRange 9) (0, 0)).1 ≠ 1) ∨
        ((singleCellSolve b cells).1 = 1 ∧ 0 < k)) := by
  obtain ⟨k, hk, hr⟩ := singleCellSolve_fold cells (List.finRange 9) (0, b) hc hp
  refine ⟨k, hk, ?_⟩
  rcases hr with ⟨e, e2, e3⟩ | h
  · exact Or.inl ⟨e, e2, fun i => e3 i (List.mem_finRange i)⟩
  · exact Or.inr h

theorem solveSet_zero (b : Board) (cells : Fin 9 → Ptr) (chk : Int) :
    solveSet 0 b cells chk = none := rfl

theorem solveSet_succ (fuel : Nat) (b : Board) (cells : Fin 9 → Ptr) (chk : Int) :
    solveSet (fuel + 1) b cells chk =
      if (singleNoteSolve b cells).1 ≠ 0 then solveSet fuel (singleNoteSolve b cells).2 cells 1
      else if (singleCellSolve (singleNoteSolve b cells).2 cells).1 ≠ 0 then
        solveSet fuel (singleCellSolve (singleNoteSolve b cells).2 cells).2 cells 1
      else some (chk, (singleCellSolve (singleNoteSolve b cells).2 cells).2) := rfl

/-- What a result of solveSet looks like. -/
theorem solveSet_result (cells : Fin 9 → Ptr) (fuel : Nat) (b : Board) (chk : Int)
    (r : Int × Board) (hc : CountConsistent b) (hp : PlacedEmpty b)
    (h : solveSet fuel b cells chk = some r) :
    ∃ k, AssignSteps b k r.2 ∧ ((r.1 = chk ∧ k = 0) ∨ (r.1 = 1 ∧ 0 < k)) ∧
      (∀ i, (r.2 (cells i)).noteCount ≠ 1) ∧
      (∀ n, (countNote r.2 cells n (List.finRange 9) (0, 0)).1 ≠ 1) := by
  induction fuel generalizing b chk with
  | zero => rw [solveSet_zero] at h; cases h
  | succ fuel ih =>
    rw [solveSet_succ] at h
    obtain ⟨k1, hk1, hr1⟩ := singleNoteSolve_steps b cells hc hp
    by_cases h1 : (singleNoteSolve b cells).1 ≠ 0
    · rw [if_pos h1] at h
      obtain ⟨k, hk, hr, hfix⟩ := ih _ 1 (hk1.as_cc hc) (hk1.as_pe hp) h
      have hpos : 0 < k1 := by
        rcases hr1 with ⟨e, -, -⟩ | ⟨-, e⟩
        · exact absurd e h1
        · exact e
      refine ⟨k1 + k, hk1.as_trans hk, Or.inr ⟨?_, by omega⟩, hfix⟩
      rcases hr with ⟨e, -⟩ | ⟨e, -⟩
      · exact e
      · exact e
    · rw [if_neg h1] at h
      have h10 : (singleNoteSolve b cells).1 = 0 := not_not.mp h1
      have hk10 : k1 = 0 ∧ ∀ i, (b (cells i)).noteCount ≠ 1 := by
        rcases hr1 with ⟨-, e, e2⟩ | ⟨e, -⟩
        · exact ⟨e, e2⟩
        · rw [h10] at e; exact absurd e (by decide)
      obtain ⟨e1, hnote⟩ := hk10
      subst e1
      have hb1 := hk1.zero_eq
      rw [hb1] at h
      obtain ⟨k2, hk2, hr2⟩ := singleCellSolve_steps b cells hc hp
      by_cases h2 : (singleCellSolve b cells).1 ≠ 0
      · rw [if_pos h2] at h
        obtain ⟨k, hk, hr, hfix⟩ := ih _ 1 (hk2.as_cc hc) (hk2.as_pe hp) h
        have hpos : 0 < k2 := by
          rcases hr2 with ⟨e, -, -⟩ | ⟨-, e⟩
          · exact absurd e h2
          · exact e
        refine ⟨k2 + k, hk2.as_trans hk, Or.inr ⟨?_, by omega⟩, hfix⟩
        rcases hr with ⟨e, -⟩ | ⟨e, -⟩
        · exact e
        · exact e
      · rw [if_neg h2] at h
        have h20 : (singleCellSolve b cells).1 = 0 := not_not.mp h2
        have hk20 : k2 = 0 ∧ ∀ n, (countNote b cells n (List.finRange 9) (0, 0)).1 ≠ 1 := by
          rcases hr2 with ⟨-, e, e2⟩ | ⟨e, -⟩
          · exact ⟨e, e2⟩
          · rw [h20] at e; exact absurd e (by decide)
        obtain ⟨e2, hcell⟩ := hk20
        subst e2
        have hb2 := hk2.zero_eq
        rw [hb2] at h
        cases h
        exact ⟨0, AssignSteps.start, Or.inl ⟨rfl, rfl⟩, hnote, hcell⟩

/-- The RESTART loop of solveSet ends: more fuel than notes on the board is enough. -/
theorem solveSet_terminates (cells : Fin 9 → Ptr) (fuel : Nat) (b : Board) (chk : Int)
    (hc : CountConsistent b) (hp : PlacedEmpty b) (hf : noteTotal b < fuel) :
    ∃ r, solveSet fuel b cells chk = some r := by
  induction fuel generalizing b chk with
  | zero => exact absurd hf (Nat.not_lt_zero _)
  | succ fuel ih =>
    rw [solveSet_succ]
    obtain ⟨k1, hk1, hr1⟩ := singleNoteSolve_steps b cells hc hp
    by_cases h1 : (singleNoteSolve b cells).1 ≠ 0
    · rw [if_pos h1]
      have hpos : 0 < k1 := by
        rcases hr1 with ⟨e, -, -⟩ | ⟨-, e⟩
        · exact absurd e h1
        · exact e
      have := hk1.as_noteTotal
      exact ih _ 1 (hk1.as_cc hc) (hk1.as_pe hp) (by omega)
    · rw [if_neg h1]
      obtain ⟨k2, hk2, hr2⟩ := singleCellSolve_steps _ cells (hk1.as_cc hc) (hk1.as_pe hp)
      by_cases h2 : (singleCellSolve (singleNoteSolve b cells).2 cells).1 ≠ 0
      · rw [if_pos h2]
        have hpos : 0 < k2 := by
          rcases hr2 with ⟨e, -, -⟩ | ⟨-, e⟩
          · exact absurd e h2
          · exact e
        have := (hk1.as_trans hk2).as_noteTotal
        exact ih _ 1 (hk2.as_cc (hk1.as_cc hc)) (hk2.as_pe (hk1.as_pe hp)) (by omega)
      · rw [if_neg h2]
        exact ⟨_, rfl⟩

/-- When countNote does not end with count 1, the note is not set in exactly
one cell of the set. -/
theorem countNote_ne_one (b : Board) (cells : Fin 9 → Ptr) (n : Fin 9)
    (h : (countNote b cells n (List.finRange 9) (0, 0)).1 ≠ 1) :
    (Finset.univ.filter fun i : Fin 9 => (b (cells i)).notes n ≠ 0).card ≠ 1 := by
  intro hcard
  obtain ⟨x, hx⟩ := Finset.card_eq_one.mp hcard
  have hmem : ∀ y, (b (cells y)).notes n ≠ 0 ↔ y = x := by
    intro y
    have := Finset.ext_iff.mp hx y
    simpa using this
  have := countNote_unique b cells n (List.finRange 9) (List.nodup_finRange 9) 0 x
    (List.mem_finRange x) ((hmem x).mpr rfl) (fun y _ hy => (hmem y).mp hy)
  rw [this] at h
  exact h rfl

/-! ## guess: order of the trials and the counter -/

theorem guessTrials_nil (rc : State → Option (Int × State)) (entry : Board) (p : Ptr) (g : Int) :
    guessTrials rc entry p [] g = some (-1, { board := entry, guesses := g }) := rfl

theorem guessTrials_cons (rc : State → Option (Int × State)) (entry : Board) (p : Ptr)
    (i : Fin 9) (rest : List (Fin 9)) (g : Int) :
    guessTrials rc entry p (i :: rest) g =
      match rc { board := assignValue entry p ((i.val : Int) + 1), guesses := g + 1 } with
      | none => none
      | some (v, st2) =>
        if v = 0 then some (0, st2) else guessTrials rc entry p rest st2.guesses := rfl

theorem guessFrom_eq_trials (rc : State → Option (Int × State)) (entry : Board) (p : Ptr)
    (l : List (Fin 9)) (g : Int) :
    guessFrom rc entry p l { board := entry, guesses := g } =
      guessTrials rc entry p (l.filter fun i => (entry p).notes i ≠ 0) g := by
  induction l generalizing g with
  | nil => rfl
  | cons i rest ih =>
    rw [guessFrom_cons]
    by_cases hn : (entry p).notes i ≠ 0
    · rw [if_pos hn, List.filter_cons_of_pos (by simpa using hn), guessTrials_cons]
      dsimp only
      cases rc { board := assignValue entry p ((i.val : Int) + 1), guesses := g + 1 } with
      | none => rfl
      | some x =>
        obtain ⟨v, st2⟩ := x
        dsimp only
        by_cases hv : v = 0
        · rw [if_pos hv, if_pos hv]
        · rw [if_neg hv, if_neg hv, copyBoard_eq]
          exact ih st2.guesses
    · rw [if_neg hn, List.filter_cons_of_neg (by simpa using hn)]
      exact ih g

theorem guess_eq_trials (rc : State → Option (Int × State)) (st : State) :
    guess rc st =
      guessTrials rc st.board (bestGuess st.board)
        (noteValuesOf (st.board (bestGuess st.board))) st.guesses := by
  unfold guess noteValuesOf
  rw [copyBoard_eq]
  exact guessFrom_eq_trials rc st.board (bestGuess st.board) (List.finRange 9) st.guesses

theorem noteValuesOf_increasing (c : Cell) :
    (noteValuesOf c).Pairwise (fun x y => x < y) := by
  unfold noteValuesOf
  exact List.Pairwise.filter _ finRange_pairwise_lt

theorem addGuesses_add (g h : Int) (r : Int × State) :
    addGuesses h (addGuesses g r) = addGuesses (g + h) r := by
  unfold addGuesses
  dsimp only
  rw [add_assoc]

theorem guessTrials_counting (rc : State → Option (Int × State)) (hrc : Counting rc)
    (entry : Board) (p : Ptr) (l : List (Fin 9)) (a g : Int) :
    guessTrials rc entry p l (a + g) = (guessTrials rc entry p l a).map (addGuesses g) := by
  induction l generalizing a with
  | nil => rfl
  | cons i rest ih =>
    rw [guessTrials_cons, guessTrials_cons]
    have e : a + g + 1 = a + 1 + g := by ring
    rw [e, hrc]
    cases rc { board := assignValue entry p ((i.val : Int) + 1), guesses := a + 1 } with
    | none => rfl
    | some x =>
      obtain ⟨v, st2⟩ := x
      simp only [Option.map_some']
      by_cases hv : v = 0
      · have : (addGuesses g (v, st2)).1 = 0 := hv
        simp only [hv, if_true]
        rfl
      · have hv2 : ¬ (addGuesses g (v, st2)).1 = 0 := hv
        rw [if_neg hv2, if_neg hv]
        exact ih st2.guesses

theorem guess_counting (rc : State → Option (Int × State)) (hrc : Counting rc) :
    Counting (guess rc) := by
  intro b a g
  rw [guess_eq_trials, guess_eq_trials]
  exact guessTrials_counting rc hrc b (bestGuess b) _ a g

theorem solveWhile_counting (fuel : Nat) (gr : State → Option (Int × State))
    (hgr : Counting gr) (iters : Nat) (b : Board) (a g : Int) :
    solveWhile fuel gr iters { board := b, guesses := a + g } =
      (solveWhile fuel gr iters { board := b, guesses := a }).map (addGuesses g) := by
  induction iters generalizing b with
  | zero => rfl
  | succ iters ih =>
    rw [solveWhile_succ, solveWhile_succ]
    dsimp only
    by_cases ht : trivialTest b = false
    · rw [if_pos ht, if_pos ht]
      by_cases hu : (updateAll b).1 ≠ 0
      · rw [if_pos hu, if_pos hu]
        exact ih _
      · rw [if_neg hu, if_neg hu]
        cases solveAll fuel (updateAll b).2 with
        | none => rfl
        | some x =>
          obtain ⟨s, b2⟩ := x
          dsimp only
          by_cases hs : s ≠ 0
          · rw [if_pos hs, if_pos hs]
            exact ih _
          · rw [if_neg hs, if_neg hs]
            exact hgr b2 a g
    · rw [if_neg ht, if_neg ht]
      rfl

theorem solveLoop_counting (fuel depth : Nat) : Counting (solveLoop fuel depth) := by
  induction depth with
  | zero =>
    intro b a g
    rw [solveLoop_zero, solveLoop_zero]
    exact solveWhile_counting fuel _ (fun _ _ _ => rfl) fuel b a g
  | succ depth ih =>
    intro b a g
    rw [solveLoop_succ, solveLoop_succ]
    exact solveWhile_counting fuel _ (guess_counting _ ih) fuel b a g

theorem guessTrials_grows (rc : State → Option (Int × State))
    (hrc : ∀ st r, rc st = some r → st.guesses ≤ r.2.guesses)
    (entry : Board) (p : Ptr) (l : List (Fin 9)) (g : Int) (r : Int × State)
    (h : guessTrials rc entry p l g = some r) :
    g + (if r.1 = 0 then 1 else (l.length : Int)) ≤ r.2.guesses := by
  induction l generalizing g with
  | nil =>
    rw [guessTrials_nil] at h
    cases h
    simp
  | cons i rest ih =>
    rw [guessTrials_cons] at h
    cases hx : rc { board := assignValue entry p ((i.val : Int) + 1), guesses := g + 1 } with
    | none => rw [hx] at h; cases h
    | some x =>
      obtain ⟨v, st2⟩ := x
      rw [hx] at h
      dsimp only at h
      have h1 := hrc _ _ hx
      dsimp only at h1
      by_cases hv : v = 0
      · rw [if_pos hv] at h
        cases h
        simp only [if_true]
        exact h1
      · rw [if_neg hv] at h
        have h2 := ih _ h
        split at h2
        · rename_i h0
          rw [if_pos h0]
          omega
        · rename_i h0
          rw [if_neg h0]
          simp only [List.length_cons]
          push_cast
          omega

theorem solveWhile_grows (fuel : Nat) (gr : State → Option (Int × State))
    (hgr : ∀ st r, gr st = some r → st.guesses ≤ r.2.guesses)
    (iters : Nat) (st : State) (r : Int × State)
    (h : solveWhile fuel gr iters st = some r) : st.guesses ≤ r.2.guesses := by
  induction iters generalizing st with
  | zero => rw [solveWhile_zero] at h; cases h
  | succ iters ih =>
    rw [solveWhile_succ] at h
    by_cases ht : trivialTest st.board = false
    · rw [if_pos ht] at h
      by_cases hu : (updateAll st.board).1 ≠ 0
      · rw [if_pos hu] at h
        have h2 := ih _ h
        exact h2
      · rw [if_neg hu] at h
        cases hsa : solveAll fuel (updateAll st.board).2 with
        | none => rw [hsa] at h; cases h
        | some x =>
          obtain ⟨s, b2⟩ := x
          rw [hsa] at h
          dsimp only at h
          by_cases hs : s ≠ 0
          · rw [if_pos hs] at h
            have h2 := ih _ h
            exact h2
          · rw [if_neg hs] at h
            have h2 := hgr _ _ h
            exact h2
    · rw [if_neg ht] at h
      cases h
      exact le_refl _

theorem solveLoop_grows (fuel depth : Nat) (st : State) (r : Int × State)
    (h : solveLoop fuel depth st = some r) : st.guesses ≤ r.2.guesses := by
  induction depth generalizing st r with
  | zero =>
    rw [solveLoop_zero] at h
    exact solveWhile_grows fuel _ (fun _ _ hh => by cases hh) fuel st r h
  | succ depth ih =>
    rw [solveLoop_succ] at h
    refine solveWhile_grows fuel _ ?_ fuel st r h
    intro s r2 hg
    rw [guess_eq_trials] at hg
    have := guessTrials_grows _ ih _ _ _ _ _ hg
    split at this
    · omega
    · omega

theorem guessTrials_count (rc : State → Option (Int × State)) (hrc : Counting rc)
    (entry : Board) (p : Ptr) (i : Fin 9) (rest : List (Fin 9)) (g : Int) :
    guessTrials rc entry p (i :: rest) g =
      match rc { board := assignValue entry p ((i.val : Int) + 1), guesses := 0 } with
      | none => none
      | some (v, st2) =>
        if v = 0 then some (0, { board := st2.board, guesses := st2.guesses + (g + 1) })
        else guessTrials rc entry p rest (st2.guesses + (g + 1)) := by
  rw [guessTrials_cons]
  have h := hrc (assignValue entry p ((i.val : Int) + 1)) 0 (g + 1)
  rw [zero_add] at h
  rw [h]
  cases rc { board := assignValue entry p ((i.val : Int) + 1), guesses := 0 } with
  | none => rfl
  | some x => rfl

theorem initLoop_nil (junk : Ptr → Cell) (s : LoadState) : initLoop junk [] s = s := rfl

theorem initLoop_cons (junk : Ptr → Cell) (c : Char) (rest : List Char) (s : LoadState) :
    initLoop junk (c :: rest) s =
      if h : s.i < 81 then initLoop junk rest (initBody junk s h c) else s := rfl

theorem initLoop_done (junk : Ptr → Cell) (l : List Char) (s : LoadState) (h : 81 ≤ s.i) :
    initLoop junk l s = s := by
  cases l with
  | nil => rfl
  | cons c rest => rw [initLoop_cons, dif_neg (by omega)]

theorem cellOf_eq (i : Nat) (h : i < 81) :
    ((⟨i / 9, by omega⟩, ⟨i % 9, by omega⟩) : Ptr) = cellOf i := by
  unfold cellOf
  refine Prod.ext (Fin.ext ?_) rfl
  dsimp only
  omega

theorem comma_not_digit : ¬ ('1' ≤ ',' ∧ ',' ≤ '9') := by decide

/-- A character that is not a comma and is not taken as the digit of the cell
leaves the state of the loop as it is. -/
theorem initBody_skip (junk : Ptr → Cell) (s : LoadState) (h : s.i < 81) (c : Char)
    (hc : c ≠ ',') (hd : ¬ ('1' ≤ c ∧ c ≤ '9') ∨ s.modified ≠ 0) : initBody junk s h c = s := by
  unfold initBody
  dsimp only
  rw [if_neg, if_neg hc]
  rintro ⟨h1, h2⟩
  rcases hd with hd | hd
  · exact hd h2
  · exact hd h1

theorem initBody_comma (junk : Ptr → Cell) (s : LoadState) (h : s.i < 81) :
    initBody junk s h ',' =
      { board := if s.modified = 0 then setCell s.board (cellOf s.i) (loadedCell junk (cellOf s.i) 0)
          else s.board,
        i := s.i + 1, modified := 0 } := by
  unfold initBody
  dsimp only
  rw [if_neg (fun hh => comma_not_digit hh.2), if_pos rfl, cellOf_eq s.i h]

theorem initBody_digit (junk : Ptr → Cell) (s : LoadState) (h : s.i < 81) (c : Char)
    (hm : s.modified = 0) (hd : '1' ≤ c ∧ c ≤ '9') :
    initBody junk s h c =
      { board := setCell s.board (cellOf s.i)
          (loadedCell junk (cellOf s.i) ((c.toNat : Int) - ('0'.toNat : Int))),
        i := s.i, modified := 1 } := by
  unfold initBody
  dsimp only
  rw [if_pos ⟨hm, hd⟩, cellOf_eq s.i h]

theorem initLoop_skip (junk : Ptr → Cell) (s : LoadState) (c : Char) (rest : List Char)
    (hc : c ≠ ',') (hd : ¬ ('1' ≤ c ∧ c ≤ '9') ∨ s.modified ≠ 0) :
    initLoop junk (c :: rest) s = initLoop junk rest s := by
  rw [initLoop_cons]
  by_cases h : s.i < 81
  · rw [dif_pos h, initBody_skip junk s h c hc hd]
  · rw [dif_neg h, initLoop_done junk rest s (by omega)]

/-- The counter i of initBoard counts the commas read, up to 81. -/
theorem initLoop_count (junk : Ptr → Cell) (l : List Char) (s : LoadState) (h : s.i ≤ 81) :
    (initLoop junk l s).i = min 81 (s.i + l.count ',') := by
  induction l generalizing s with
  | nil =>
    rw [initLoop_nil, List.count_nil]
    omega
  | cons c rest ih =>
    rw [initLoop_cons]
    by_cases hi : s.i < 81
    · rw [dif_pos hi]
      by_cases hc : c = ','
      · subst hc
        rw [initBody_comma, ih _ (by dsimp only; omega), List.count_cons_self]
        dsimp only
        omega
      · have hcount : List.count ',' (c :: rest) = List.count ',' rest :=
          List.count_cons_of_ne (fun e => hc e.symm) rest
        rw [hcount]
        by_cases hd : s.modified = 0 ∧ ('1' ≤ c ∧ c ≤ '9')
        · rw [initBody_digit junk s hi c hd.1 hd.2, ih _ (by dsimp only; omega)]
        · rw [initBody_skip junk s hi c hc (by tauto), ih s h]
    · rw [dif_neg hi]
      omega

theorem initBoard_result (junk : Ptr → Cell) (start : Board) (input : List Char) :
    (initBoard junk start input).1 = if input.count ',' < 81 then -1 else 0 := by
  unfold initBoard
  dsimp only
  rw [initLoop_count junk input _ (by dsimp only; omega)]
  dsimp only
  by_cases h : input.count ',' < 81
  · rw [if_pos h, if_pos (by omega)]
  · rw [if_neg h, if_neg (by omega)]

/-- The text of a value 0..9: one digit character, a comma and a blank. -/
theorem cellText_digit (v : Int) (h0 : 0 ≤ v) (h9 : v ≤ 9) :
    ∃ d : Char, cellText v = [d, ',', ' '] ∧
      ((v = 0 ∧ d = '0') ∨
        ('1' ≤ d ∧ d ≤ '9' ∧ (d.toNat : Int) - ('0'.toNat : Int) = v)) := by
  interval_cases v
  · exact ⟨'0', rfl, Or.inl ⟨rfl, rfl⟩⟩
  · exact ⟨'1', rfl, Or.inr (by decide)⟩
  · exact ⟨'2', rfl, Or.inr (by decide)⟩
  · exact ⟨'3', rfl, Or.inr (by decide)⟩
  · exact ⟨'4', rfl, Or.inr (by decide)⟩
  · exact ⟨'5', rfl, Or.inr (by decide)⟩
  · exact ⟨'6', rfl, Or.inr (by decide)⟩
  · exact ⟨'7', rfl, Or.inr (by decide)⟩
  · exact ⟨'8', rfl, Or.inr (by decide)⟩
  · exact ⟨'9', rfl, Or.inr (by decide)⟩

/-- Reading the text of one value stores it in cell number i and moves on. -/
theorem initLoop_cell (junk : Ptr → Cell) (s : LoadState) (v : Int) (rest : List Char)
    (hi : s.i < 81) (hm : s.modified = 0) (h0 : 0 ≤ v) (h9 : v ≤ 9) :
    initLoop junk (cellText v ++ rest) s =
      initLoop junk rest
        { board := setCell s.board (cellOf s.i) (loadedCell junk (cellOf s.i) v),
          i := s.i + 1, modified := 0 } := by
  obtain ⟨d, hd, hcase⟩ := cellText_digit v h0 h9
  rw [hd]
  simp only [List.cons_append, List.nil_append]
  rcases hcase with ⟨hv, hd0⟩ | ⟨h1, h2, h3⟩
  · subst hd0
    rw [initLoop_skip junk s '0' _ (by decide) (Or.inl (by decide)), initLoop_cons, dif_pos hi,
      initBody_comma, if_pos hm, hv]
    exact initLoop_skip junk _ ' ' rest (by decide) (Or.inl (by decide))
  · rw [initLoop_cons, dif_pos hi, initBody_digit junk s hi d hm ⟨h1, h2⟩, h3, initLoop_cons,
      dif_pos (by dsimp only; exact hi), initBody_comma]
    dsimp only
    rw [if_neg (by decide)]
    exact initLoop_skip junk _ ' ' rest (by decide) (Or.inl (by decide))

theorem rowMajor_cellOf (i : Nat) (h : i < 81) : rowMajor (cellOf i) = i := by
  unfold rowMajor cellOf
  dsimp only
  omega

theorem cellOf_rowMajor (p : Ptr) : cellOf (rowMajor p) = p := by
  unfold rowMajor cellOf
  refine Prod.ext (Fin.ext ?_) (Fin.ext ?_)
  · dsimp only; omega
  · dsimp only; omega

theorem rowMajor_lt (p : Ptr) : rowMajor p < 81 := by
  unfold rowMajor
  omega

/-- Reading the text of the value of the cell with number i keeps the loader
invariant: the cells before i hold the values of b. -/
theorem initLoop_cellInv (junk : Ptr → Cell) (b : Board) (hv : ValuesInRange b) (s : LoadState)
    (rest : List Char) (hi : s.i < 81) (hinv : LoadInv junk b s) :
    ∃ s2, initLoop junk (cellText (b (cellOf s.i)).value ++ rest) s = initLoop junk rest s2 ∧
      s2.i = s.i + 1 ∧ LoadInv junk b s2 := by
  refine ⟨_, initLoop_cell junk s _ rest hi hinv.1 (hv _).1 (hv _).2, rfl, rfl, ?_⟩
  intro p hp
  dsimp only at hp ⊢
  unfold setCell
  by_cases e : p = cellOf s.i
  · rw [if_pos e, e]
  · rw [if_neg e]
    apply hinv.2 p
    have : rowMajor p ≠ s.i := by
      intro h
      apply e
      rw [← h, cellOf_rowMajor]
    omega

theorem initLoop_cols (junk : Ptr → Cell) (b : Board) (hv : ValuesInRange b) (r : Fin 9)
    (rest : List Char) (l : List (Fin 9)) (c0 : Nat) (s : LoadState)
    (hl : l.map Fin.val = List.range' c0 l.length) (hi : s.i = 9 * r.val + c0)
    (hinv : LoadInv junk b s) :
    ∃ s2, initLoop junk (l.flatMap (fun c => cellText (b (r, c)).value) ++ rest) s =
        initLoop junk rest s2 ∧ s2.i = s.i + l.length ∧ LoadInv junk b s2 := by
  induction l generalizing c0 s with
  | nil => exact ⟨s, rfl, rfl, hinv⟩
  | cons a l ih =>
    simp only [List.map_cons, List.length_cons, List.range'_succ, List.cons.injEq] at hl
    obtain ⟨ha, hl⟩ := hl
    have hcell : cellOf s.i = (r, a) := by
      rw [hi, ← ha]
      exact cellOf_rowMajor (r, a)
    have hlt : s.i < 81 := by
      rw [hi, ← ha]
      exact rowMajor_lt (r, a)
    obtain ⟨s1, e1, i1, inv1⟩ := initLoop_cellInv junk b hv s
      (l.flatMap (fun c => cellText (b (r, c)).value) ++ rest) hlt hinv
    rw [hcell] at e1
    obtain ⟨s2, e2, i2, inv2⟩ := ih (c0 + 1) s1 hl (by omega) inv1
    refine ⟨s2, ?_, ?_, inv2⟩
    · rw [List.flatMap_cons, List.append_assoc, e1, e2]
    · rw [i2, i1, List.length_cons]
      omega

theorem foldl_append_flatMap {α : Type} (g : α → List Char) (l : List α) (out : List Char) :
    l.foldl (fun o c => o ++ g c) out = out ++ l.flatMap g := by
  induction l generalizing out with
  | nil => simp
  | cons a l ih => rw [List.foldl_cons, ih, List.flatMap_cons, List.append_assoc]

theorem outputRow_eq (b : Board) (r : Fin 9) (out : List Char) :
    outputRow b r out =
      out ++ ((List.finRange 9).flatMap (fun c => cellText (b (r, c)).value) ++ ['\n']) := by
  unfold outputRow
  rw [foldl_append_flatMap, List.append_assoc]

theorem finRange_val : (List.finRange 9).map Fin.val = List.range' 0 (List.finRange 9).length := by
  decide

theorem initLoop_rows (junk : Ptr → Cell) (b : Board) (hv : ValuesInRange b)
    (rest : List Char) (L : List (Fin 9)) (r0 : Nat) (s : LoadState)
    (hl : L.map Fin.val = List.range' r0 L.length) (hi : s.i = 9 * r0)
    (hinv : LoadInv junk b s) :
    ∃ s2, initLoop junk
        (L.flatMap (fun r => (List.finRange 9).flatMap (fun c => cellText (b (r, c)).value) ++ ['\n'])
          ++ rest) s =
        initLoop junk rest s2 ∧ s2.i = s.i + 9 * L.length ∧ LoadInv junk b s2 := by
  induction L generalizing r0 s with
  | nil => exact ⟨s, rfl, rfl, hinv⟩
  | cons a L ih =>
    simp only [List.map_cons, List.length_cons, List.range'_succ, List.cons.injEq] at hl
    obtain ⟨ha, hl⟩ := hl
    obtain ⟨s1, e1, i1, inv1⟩ := initLoop_cols junk b hv a
      ('\n' :: (L.flatMap (fun r => (List.finRange 9).flatMap (fun c => cellText (b (r, c)).value) ++
        ['\n']) ++ rest)) (List.finRange 9) 0 s finRange_val (by rw [hi, ha]; rfl) hinv
    have hlen : (List.finRange 9).length = 9 := List.length_finRange 9
    rw [hlen] at i1
    obtain ⟨s2, e2, i2, inv2⟩ := ih (r0 + 1) s1 hl (by omega) inv1
    refine ⟨s2, ?_, ?_, inv2⟩
    · rw [List.flatMap_cons, List.append_assoc, List.append_assoc, List.singleton_append, e1,
        initLoop_skip junk s1 '\n' _ (by decide) (Or.inl (by decide)), e2]
    · rw [i2, i1, List.length_cons]
      omega

theorem outputBoard_eq (b : Board) (guesses : Int) :
    outputBoard b guesses =
      (List.finRange 9).flatMap
          (fun r => (List.finRange 9).flatMap (fun c => cellText (b (r, c)).value) ++ ['\n']) ++
        (['\n', 'G', 'u', 'e', 's', 's', 'e', 's', ':', ' '] ++ guesses.repr.toList ++ ['\n']) := by
  unfold outputBoard
  have : (fun o r => outputRow b r o) = (fun (o : List Char) (r : Fin 9) => o ++
      ((List.finRange 9).flatMap (fun c => cellText (b (r, c)).value) ++ ['\n'])) := by
    funext o r
    exact outputRow_eq b r o
  rw [this, foldl_append_flatMap, List.nil_append]
  simp only [List.append_assoc]

/-- The state of the loop of initBoard after the text of outputBoard. -/
theorem initLoop_output (junk : Ptr → Cell) (start : Board) (b : Board) (hv : ValuesInRange b)
    (guesses : Int) :
    (initLoop junk (outputBoard b guesses) { board := start, i := 0, modified := 0 }).i = 81 ∧
    ∀ p, (initLoop junk (outputBoard b guesses) { board := start, i := 0, modified := 0 }).board p =
      loadedCell junk p (b p).value := by
  obtain ⟨s2, e2, i2, inv2⟩ := initLoop_rows junk b hv
    (['\n', 'G', 'u', 'e', 's', 's', 'e', 's', ':', ' '] ++ guesses.repr.toList ++ ['\n'])
    (List.finRange 9) 0 { board := start, i := 0, modified := 0 } finRange_val rfl
    ⟨rfl, fun p hp => absurd hp (Nat.not_lt_zero _)⟩
  have hlen : (List.finRange 9).length = 9 := List.length_finRange 9
  rw [hlen] at i2
  dsimp only at i2
  rw [outputBoard_eq, e2, initLoop_done junk _ s2 (by omega)]
  exact ⟨by omega, fun p => inv2.2 p (by have := rowMajor_lt p; omega)⟩

/-! ## Termination of solve -/

theorem Shrink.sh_emptyCount {b1 b2 : Board} (h : Shrink b1 b2) :
    emptyCount b2 = emptyCount b1 := by
  unfold emptyCount
  congr 1
  ext p
  simp only [Finset.mem_filter, Finset.mem_univ, true_and]
  rw [h.value_eq]

theorem updateAll_noteTotal_lt (b : Board) (hc : CountConsistent b)
    (h : (updateAll b).1 ≠ 0) : noteTotal (updateAll b).2 < noteTotal b := by
  have hs := updateAll_shrink b
  have hu := (updateAll_updSpec b hc.cc_zeroOne).2.2.2
  dsimp only at hu
  exact noteTotal_lt (fun _ _ hn => hs.notes_ne hn) (hu h)

theorem emptyCount_pos {b : Board} (h : trivialTest b = false) : 0 < emptyCount b := by
  have : ¬ ∀ p, (b p).value ≠ 0 := by
    rw [← trivialTest_iff, h]
    decide
  push_neg at this
  obtain ⟨p, hp⟩ := this
  unfold emptyCount
  apply Finset.card_pos.mpr
  exact ⟨p, by simp only [Finset.mem_filter, Finset.mem_univ, true_and]; exact hp⟩

theorem solveAllStep_none (fuel : Nat) (i : Fin 27) : solveAllStep fuel none i = none := rfl

theorem solveAllStep_some (fuel : Nat) (x : Int × Board) (i : Fin 27) :
    solveAllStep fuel (some x) i =
      match solveSet fuel x.2 (paths i) 0 with
      | none => none
      | some (r, b2) => some (x.1 + r, b2) := rfl

theorem solveAll_fold_none (fuel : Nat) (l : List (Fin 27)) :
    l.foldl (solveAllStep fuel) none = none := by
  induction l with
  | nil => rfl
  | cons a l ih => rw [List.foldl_cons, solveAllStep_none, ih]

/-- The loop of solveAll: the board is reached by assignments, and check
grows exactly when a cell was assigned. -/
theorem solveAll_fold_steps (fuel : Nat) (l : List (Fin 27)) (x r : Int × Board)
    (hc : CountConsistent x.2) (hp : PlacedEmpty x.2)
    (h : l.foldl (solveAllStep fuel) (some x) = some r) :
    ∃ k, AssignSteps x.2 k r.2 ∧ ((r.1 = x.1 ∧ k = 0) ∨ (x.1 < r.1 ∧ 0 < k)) := by
  induction l generalizing x with
  | nil =>
    rw [List.foldl_nil] at h
    cases h
    exact ⟨0, AssignSteps.start, Or.inl ⟨rfl, rfl⟩⟩
  | cons a l ih =>
    rw [List.foldl_cons, solveAllStep_some] at h
    cases hs : solveSet fuel x.2 (paths a) 0 with
    | none =>
      rw [hs] at h
      dsimp only at h
      rw [solveAll_fold_none] at h
      cases h
    | some y =>
      obtain ⟨v, b2⟩ := y
      rw [hs] at h
      dsimp only at h
      obtain ⟨k1, hk1, hr1, -, -⟩ := solveSet_result (paths a) fuel x.2 0 (v, b2) hc hp hs
      dsimp only at hk1 hr1
      obtain ⟨k2, hk2, hr2⟩ := ih (x.1 + v, b2) (hk1.as_cc hc) (hk1.as_pe hp) h
      dsimp only at hk2 hr2
      refine ⟨k1 + k2, hk1.as_trans hk2, ?_⟩
      rcases hr1 with ⟨e1, e2⟩ | ⟨e1, e2⟩ <;> rcases hr2 with ⟨e3, e4⟩ | ⟨e3, e4⟩
      · left; constructor <;> omega
      · right; constructor <;> omega
      · right; constructor <;> omega
      · right; constructor <;> omega

theorem solveAll_fold_terminates (fuel : Nat) (hf : 730 ≤ fuel) (l : List (Fin 27))
    (x : Int × Board) (hc : CountConsistent x.2) (hp : PlacedEmpty x.2) :
    ∃ r, l.foldl (solveAllStep fuel) (some x) = some r := by
  induction l generalizing x with
  | nil => exact ⟨x, rfl⟩
  | cons a l ih =>
    rw [List.foldl_cons, solveAllStep_some]
    have hn := noteTotal_le_729 x.2
    obtain ⟨y, hy⟩ := solveSet_terminates (paths a) fuel x.2 0 hc hp (by omega)
    obtain ⟨k1, hk1, -⟩ := solveSet_result (paths a) fuel x.2 0 y hc hp hy
    rw [hy]
    exact ih (x.1 + y.1, y.2) (hk1.as_cc hc) (hk1.as_pe hp)

theorem solveAll_steps (fuel : Nat) (b : Board) (r : Int × Board)
    (hc : CountConsistent b) (hp : PlacedEmpty b) (h : solveAll fuel b = some r) :
    ∃ k, AssignSteps b k r.2 ∧ ((r.1 = 0 ∧ k = 0) ∨ (0 < r.1 ∧ 0 < k)) := by
  unfold solveAll at h
  exact solveAll_fold_steps fuel _ (0, b) r hc hp h

theorem solveAll_terminates (fuel : Nat) (hf : 730 ≤ fuel) (b : Board)
    (hc : CountConsistent b) (hp : PlacedEmpty b) : ∃ r, solveAll fuel b = some r := by
  unfold solveAll
  exact solveAll_fold_terminates fuel hf _ (0, b) hc hp

theorem solveWhile_terminates (fuel : Nat) (hf : 730 ≤ fuel)
    (gr : State → Option (Int × State)) (D : Nat)
    (hgr : ∀ st, CountConsistent st.board → PlacedEmpty st.board → emptyCount st.board ≤ D →
      trivialTest st.board = false → ∃ r, gr st = some r ∧ (r.1 = 0 ∨ r.1 = -1))
    (iters : Nat) (st : State) (hc : CountConsistent st.board) (hp : PlacedEmpty st.board)
    (hD : emptyCount st.board ≤ D) (hn : noteTotal st.board < iters) :
    ∃ r, solveWhile fuel gr iters st = some r ∧ (r.1 = 0 ∨ r.1 = -1) := by
  induction iters generalizing st with
  | zero => exact absurd hn (Nat.not_lt_zero _)
  | succ iters ih =>
    rw [solveWhile_succ]
    by_cases ht : trivialTest st.board = false
    · rw [if_pos ht]
      have hs := updateAll_shrink st.board
      by_cases hu : (updateAll st.board).1 ≠ 0
      · rw [if_pos hu]
        have hlt := updateAll_noteTotal_lt st.board hc hu
        have hc1 := hs.sh_cc hc
        have hp1 := hs.placedEmpty hp
        refine ih { board := (updateAll st.board).2, guesses := st.guesses } ?_ ?_ ?_ ?_
        · dsimp only; exact hc1
        · dsimp only; exact hp1
        · dsimp only; rw [hs.sh_emptyCount]; exact hD
        · dsimp only; omega
      · rw [if_neg hu]
        have hc1 := hs.sh_cc hc
        have hp1 := hs.placedEmpty hp
        have hle : noteTotal (updateAll st.board).2 ≤ noteTotal st.board :=
          noteTotal_le (fun _ _ hn => hs.notes_ne hn)
        obtain ⟨x, hx⟩ := solveAll_terminates fuel hf _ hc1 hp1
        obtain ⟨k, hk, hr⟩ := solveAll_steps fuel _ x hc1 hp1 hx
        obtain ⟨s, b2⟩ := x
        rw [hx]
        dsimp only at hk hr ⊢
        have hec := hk.as_emptyCount
        have hnt := hk.as_noteTotal
        rw [hs.sh_emptyCount] at hec
        by_cases hs0 : s ≠ 0
        · rw [if_pos hs0]
          have hkpos : 0 < k := by
            rcases hr with ⟨e, -⟩ | ⟨-, e⟩
            · exact absurd e hs0
            · exact e
          refine ih { board := b2, guesses := st.guesses } (hk.as_cc hc1) (hk.as_pe hp1) ?_ ?_
          · dsimp only; omega
          · dsimp only; omega
        · rw [if_neg hs0]
          have hk0 : k = 0 := by
            rcases hr with ⟨-, e⟩ | ⟨e, -⟩
            · exact e
            · exact absurd (not_not.mp hs0) (by omega)
          subst hk0
          have hb2 := hk.zero_eq
          refine hgr { board := b2, guesses := st.guesses } (hk.as_cc hc1) (hk.as_pe hp1) ?_ ?_
          · dsimp only; omega
          · dsimp only
            rw [hb2]
            cases htt : trivialTest (updateAll st.board).2 with
            | false => rfl
            | true =>
              exfalso
              have h1 := (trivialTest_iff _).mp htt
              have h2 : trivialTest st.board = true := by
                rw [trivialTest_iff]
                intro p
                rw [← hs.value_eq]
                exact h1 p
              rw [h2] at ht
              cases ht
    · rw [if_neg ht]
      exact ⟨_, rfl, Or.inl rfl⟩

theorem guessTrials_terminates (rc : State → Option (Int × State)) (entry : Board) (p : Ptr)
    (hrc : ∀ i g, (entry p).notes i ≠ 0 →
      ∃ r, rc { board := assignValue entry p ((i.val : Int) + 1), guesses := g } = some r)
    (l : List (Fin 9)) (hl : ∀ i ∈ l, (entry p).notes i ≠ 0) (g : Int) :
    ∃ r, guessTrials rc entry p l g = some r ∧ (r.1 = 0 ∨ r.1 = -1) := by
  induction l generalizing g with
  | nil => exact ⟨_, rfl, Or.inr rfl⟩
  | cons i rest ih =>
    rw [guessTrials_cons]
    obtain ⟨r, hr⟩ := hrc i (g + 1) (hl i (List.mem_cons_self _ _))
    obtain ⟨v, st2⟩ := r
    rw [hr]
    dsimp only
    by_cases hv : v = 0
    · rw [if_pos hv]
      exact ⟨_, rfl, Or.inl rfl⟩
    · rw [if_neg hv]
      exact ih (fun j hj => hl j (List.mem_cons_of_mem _ hj)) _

theorem solveLoop_terminates (fuel : Nat) (hf : 730 ≤ fuel) (depth : Nat) (st : State)
    (hc : CountConsistent st.board) (hp : PlacedEmpty st.board)
    (hD : emptyCount st.board ≤ depth) :
    ∃ r, solveLoop fuel depth st = some r ∧ (r.1 = 0 ∨ r.1 = -1) := by
  induction depth generalizing st with
  | zero =>
    rw [solveLoop_zero]
    refine solveWhile_terminates fuel hf _ 0 ?_ fuel st hc hp hD ?_
    · intro s _ _ h0 ht
      have := emptyCount_pos ht
      omega
    · have := noteTotal_le_729 st.board
      omega
  | succ depth ih =>
    rw [solveLoop_succ]
    refine solveWhile_terminates fuel hf _ (depth + 1) ?_ fuel st hc hp hD ?_
    · intro s hcs hps hDs _
      rw [guess_eq_trials]
      refine guessTrials_terminates _ s.board (bestGuess s.board) ?_ _ ?_ s.guesses
      · intro i g hi
        have hv : (s.board (bestGuess s.board)).value = 0 :=
          placedEmpty_unplaced hps (Or.inr ⟨i, hi⟩)
        have he := assignValue_emptyCount s.board (bestGuess s.board) ((i.val : Int) + 1)
          (by omega) hv
        obtain ⟨r, hr, -⟩ := ih
          { board := assignValue s.board (bestGuess s.board) ((i.val : Int) + 1), guesses := g }
          (assignValue_cc hcs _ _) (assignValue_placedEmpty hps _ _) (by dsimp only; omega)
        exact ⟨r, hr⟩
      · intro i hi
        exact (mem_noteValuesOf _ i).mp hi
    · have := noteTotal_le_729 st.board
      omega

theorem noteValuesOf_length_le (c : Cell) : (noteValuesOf c).length ≤ 9 := by
  unfold noteValuesOf
  have := List.length_filter_le (fun i => decide (c.notes i ≠ 0)) (List.finRange 9)
  rw [List.length_finRange] at this
  exact this

/-! ## Contradictory givens -/

/-- A board that extends givens with the same digit twice in one set does not
pass testBoard. -/
theorem testBoard_clash {b b2 : Board} (he : Extends b b2) (hr : ValuesInRange b2)
    (g : Fin 27) (x y : Fin 9) (hxy : x ≠ y) (hx : (b (paths g x)).value ≠ 0)
    (hy : (b (paths g x)).value = (b (paths g y)).value) : testBoard b2 ≠ true := by
  intro ht
  have ex := he (paths g x) hx
  have ey := he (paths g y) (by rw [← hy]; exact hx)
  have h1 := hr (paths g x)
  have hne : (b2 (paths g x)).value ≠ 0 := by rw [ex]; exact hx
  have hd : ∃ d : Fin 9, (b2 (paths g x)).value = (d.val : Int) + 1 := by
    refine ⟨⟨((b2 (paths g x)).value - 1).toNat, ?_⟩, ?_⟩
    · omega
    · dsimp only; omega
  obtain ⟨d, hd⟩ := hd
  have hocc := testBoard_occurrences ht g d
  unfold occurrences at hocc
  obtain ⟨a, ha⟩ := Finset.card_eq_one.mp hocc
  have mx : x ∈ Finset.univ.filter fun n : Fin 9 => (b2 (paths g n)).value = (d.val : Int) + 1 := by
    simp only [Finset.mem_filter, Finset.mem_univ, true_and]
    exact hd
  have my : y ∈ Finset.univ.filter fun n : Fin 9 => (b2 (paths g n)).value = (d.val : Int) + 1 := by
    simp only [Finset.mem_filter, Finset.mem_univ, true_and]
    rw [ey, ← hy, ← ex]
    exact hd
  rw [ha, Finset.mem_singleton] at mx my
  exact hxy (mx.trans my.symm)

/-! ## Runs on the concrete boards -/

set_option maxRecDepth 1000000 in
theorem exampleInput_solve :
    solve 730 81 exampleInput = some (0, { board := exampleSolved, guesses := 0 }) :=
  resultIs_eq (by decide)

/-! ## The fixpoint of updateAll and naked subsets -/

theorem groupCheckInner_nil (cells : Fin 9 → Ptr) (i : Fin 9) (s : GroupState) :
    groupCheckInner cells i [] s = s := rfl

theorem groupCheckInner_cons (cells : Fin 9 → Ptr) (i n : Fin 9) (rest : List (Fin 9))
    (s : GroupState) :
    groupCheckInner cells i (n :: rest) s =
      if 9 - (n.val : Int) <
          ((groupInnerStep cells i n s).board (cells i)).noteCount -
            ((groupInnerStep cells i n s).indices.length : Int)
      then groupInnerStep cells i n s
      else groupCheckInner cells i rest (groupInnerStep cells i n s) := rfl

theorem groupInnerStep_check (cells : Fin 9 → Ptr) (i n : Fin 9) (s : GroupState) :
    (groupInnerStep cells i n s).check =
      if ((groupInnerStep cells i n s).indices.length : Int) = (s.board (cells i)).noteCount then
        s.check + (groupCancel s.board cells (groupInnerStep cells i n s).indices
          (s.board (cells i)).noteCount).1
      else s.check := by
  rw [groupInnerStep_indices]
  unfold groupInnerStep innerMatch
  dsimp only
  generalize (if (s.board (cells i)).noteCount = (s.board (cells n)).noteCount ∧
      equalsArr (s.board (cells i)).notes (s.board (cells n)).notes = true
    then s.indices ++ [n] else s.indices) = idx
  split <;> rfl

/-- The check of the inner loop of groupCheck never goes down. -/
theorem groupCheckInner_nonneg (cells : Fin 9 → Ptr) (i : Fin 9) (l : List (Fin 9))
    (s : GroupState) (hz : ZeroOne s.board) :
    s.check ≤ (groupCheckInner cells i l s).check := by
  obtain ⟨d, e, h⟩ := groupCheckInner_upd cells i l s
  have := (h.2 hz).2.1
  dsimp only at this
  omega

theorem length_le_of_gt (n : Fin 9) (l : List (Fin 9)) (hl : l.Nodup) (h : ∀ x ∈ l, n < x) :
    l.length + n.val ≤ 8 := by
  have hsub : l.toFinset ⊆ Finset.Ioi n := by
    intro x hx
    rw [List.mem_toFinset] at hx
    exact Finset.mem_Ioi.mpr (h x hx)
  have hcard := Finset.card_le_card hsub
  rw [List.toFinset_card_of_nodup hl, Fin.card_Ioi] at hcard
  omega

/-- At a fixpoint the inner loop of groupCheck for the first cell i of a naked
subset T finds the cells of T and cancels their digits from the other cells
without effect. -/
theorem groupCheckInner_fix (cells : Fin 9 → Ptr) (b : Board) (hc : CountConsistent b)
    (i : Fin 9) (T : Finset (Fin 9))
    (hk : (b (cells i)).noteCount = (T.card : Int))
    (hT : ∀ x ∈ T, (b (cells x)).noteCount = (b (cells i)).noteCount ∧
      ∀ m, (b (cells x)).notes m = (b (cells i)).notes m)
    (hTv : ∀ x ∈ T, (b (cells x)).value = 0)
    (hne : ∃ m, (b (cells i)).notes m ≠ 0)
    (rest : List (Fin 9)) (hrest : rest.Pairwise (fun x y => x < y)) (s : GroupState)
    (hsb : s.board = b) (hnd : s.indices.Nodup) (hhead : s.indices.headD 0 = i)
    (hmem : i ∈ s.indices) (hlen : (s.indices.length : Int) < T.card)
    (hnot : ∀ x ∈ s.indices, x ∉ rest) (hcover : ∀ x ∈ T, x ∈ s.indices ∨ x ∈ rest)
    (hfix : (groupCheckInner cells i rest s).check = s.check) :
    ∀ y, y ∉ T → (b (cells y)).value = 0 →
      ∀ m, (b (cells i)).notes m ≠ 0 → (b (cells y)).notes m = 0 := by
  induction rest generalizing s with
  | nil =>
    exfalso
    have hsub : T ⊆ s.indices.toFinset := by
      intro x hx
      rcases hcover x hx with h | h
      · exact List.mem_toFinset.mpr h
      · exact absurd h (List.not_mem_nil _)
    have h1 := Finset.card_le_card hsub
    have h2 := List.toFinset_card_le s.indices
    omega
  | cons n rest ih =>
    rw [groupCheckInner_cons] at hfix
    have hidx := groupInnerStep_indices cells i n s
    have hbd := groupInnerStep_board cells i n s
    have hck := groupInnerStep_check cells i n s
    obtain ⟨hn_gt, hrest2⟩ := List.pairwise_cons.mp hrest
    have hn_not : n ∉ s.indices := fun h => hnot n h (List.mem_cons_self _ _)
    have hz := hc.cc_zeroOne
    rw [hsb] at hbd hck
    -- the new list of indices
    have hmatchT : n ∈ T → innerMatch cells i n s := by
      intro hn
      unfold innerMatch
      rw [hsb, equalsArr_iff]
      exact ⟨(hT n hn).1.symm, fun m => ((hT n hn).2 m).symm⟩
    have hlen1 : ((groupInnerStep cells i n s).indices.length : Int) ≤ T.card := by
      rw [hidx]; split
      · simp only [List.length_append, List.length_singleton]; push_cast; omega
      · omega
    have hnd1 : (groupInnerStep cells i n s).indices.Nodup := by
      rw [hidx]; split
      · exact List.Nodup.append hnd (List.nodup_singleton n)
          (by
            intro x hx hx2
            rw [List.mem_singleton] at hx2
            subst hx2
            exact hn_not hx)
      · exact hnd
    have hhead1 : (groupInnerStep cells i n s).indices.headD 0 = i := by
      rw [hidx]; split
      · rw [headD_append_of_mem _ _ _ hmem]; exact hhead
      · exact hhead
    have hmem1 : i ∈ (groupInnerStep cells i n s).indices := by
      rw [hidx]; split
      · exact List.mem_append_left _ hmem
      · exact hmem
    have hnot1 : ∀ x ∈ (groupInnerStep cells i n s).indices, x ∉ rest := by
      intro x hx
      rw [hidx] at hx
      split at hx
      · rcases List.mem_append.mp hx with e | e
        · exact fun h => hnot x e (List.mem_cons_of_mem _ h)
        · rw [List.mem_singleton] at e
          subst e
          exact fun h => absurd (hn_gt x h) (lt_irrefl _)
      · exact fun h => hnot x hx (List.mem_cons_of_mem _ h)
    have hcover1 : ∀ x ∈ T, x ∈ (groupInnerStep cells i n s).indices ∨ x ∈ rest := by
      intro x hx
      rcases hcover x hx with h | h
      · left
        rw [hidx]; split
        · exact List.mem_append_left _ h
        · exact h
      · rcases List.mem_cons.mp h with e | e
        · left
          subst e
          rw [hidx, if_pos (hmatchT hx)]
          exact List.mem_append_right _ (List.mem_singleton_self _)
        · exact Or.inr e
    by_cases hcall : ((groupInnerStep cells i n s).indices.length : Int) = (b (cells i)).noteCount
    · -- groupCancel runs, and at a fixpoint it returns 0
      rw [if_pos hcall] at hbd hck
      have hsp := groupCancel_spec b cells (groupInnerStep cells i n s).indices
        (b (cells i)).noteCount
      have hu := hsp.2.2 hz
      have hz1 : ZeroOne (groupInnerStep cells i n s).board := by
        rw [hbd]; exact hsp.1.sh_zeroOne hz
      have hd0 : (groupCancel b cells (groupInnerStep cells i n s).indices
          (b (cells i)).noteCount).1 = 0 := by
        have h1 := hu.2.1
        have h2 := groupCheckInner_nonneg cells i rest (groupInnerStep cells i n s) hz1
        split at hfix
        · omega
        · omega
      have hsame := hu.2.2.1 hd0
      have hfull : (groupInnerStep cells i n s).indices.take (b (cells i)).noteCount.toNat =
          (groupInnerStep cells i n s).indices := by
        apply List.take_of_length_le
        omega
      have hR : ∀ y, y ∉ (groupInnerStep cells i n s).indices → (b (cells y)).value = 0 →
          ∀ m, (b (cells i)).notes m ≠ 0 → (b (cells y)).notes m = 0 := by
        intro y hy hv m hm
        have h1 := hsp.2.1 (cells y) m
        rw [hsame, if_pos] at h1
        · exact h1
        · refine ⟨hv, ⟨y, rfl, ?_⟩, ?_⟩
          · rw [inArray_eq_false_iff, hfull]; exact hy
          · rw [hhead1]
            have hl := noteValuesOf_length _ (hc (cells i))
            rw [List.take_of_length_le (by omega), mem_noteValuesOf]
            exact hm
      have hsub : T ⊆ (groupInnerStep cells i n s).indices.toFinset := by
        intro x hx
        rw [List.mem_toFinset]
        by_contra hx2
        obtain ⟨m, hm⟩ := hne
        have := hR x hx2 (hTv x hx) m hm
        rw [(hT x hx).2 m] at this
        exact hm this
      have heq : T = (groupInnerStep cells i n s).indices.toFinset := by
        apply Finset.eq_of_subset_of_card_le hsub
        have := List.toFinset_card_le (groupInnerStep cells i n s).indices
        omega
      intro y hy hv m hm
      refine hR y ?_ hv m hm
      intro hy2
      apply hy
      rw [heq, List.mem_toFinset]
      exact hy2
    · -- no call: the loop goes on with the same board
      rw [if_neg hcall] at hbd hck
      have hlt1 : ((groupInnerStep cells i n s).indices.length : Int) < T.card := by omega
      have hsubT : T ⊆ (groupInnerStep cells i n s).indices.toFinset ∪ rest.toFinset := by
        intro x hx
        rw [Finset.mem_union, List.mem_toFinset, List.mem_toFinset]
        exact hcover1 x hx
      have hcT := Finset.card_le_card hsubT
      have hcU := Finset.card_union_le (groupInnerStep cells i n s).indices.toFinset rest.toFinset
      have hc1 := List.toFinset_card_le (groupInnerStep cells i n s).indices
      have hc2 := List.toFinset_card_le rest
      have hrl := length_le_of_gt n rest hrest2.nodup hn_gt
      have hnb : ¬ (9 - (n.val : Int) <
          ((groupInnerStep cells i n s).board (cells i)).noteCount -
            ((groupInnerStep cells i n s).indices.length : Int)) := by
        rw [hbd, hk]
        omega
      rw [if_neg hnb] at hfix
      exact ih hrest2 (groupInnerStep cells i n s) hbd hnd1 hhead1 hmem1 hlt1 hnot1 hcover1
        (by rw [hfix, hck])

theorem groupStep_fix (cells : Fin 9 → Ptr) (b : Board) (hc : CountConsistent b)
    (i : Fin 9) (T : Finset (Fin 9)) (hi : i ∈ T) (hmin : ∀ x ∈ T, i ≤ x) (h2 : 2 ≤ T.card)
    (hk : (b (cells i)).noteCount = (T.card : Int))
    (hT : ∀ x ∈ T, (b (cells x)).noteCount = (b (cells i)).noteCount ∧
      ∀ m, (b (cells x)).notes m = (b (cells i)).notes m)
    (hTv : ∀ x ∈ T, (b (cells x)).value = 0)
    (c : Int) (hfix : (groupStep cells (c, b) i).1 = c) :
    ∀ y, y ∉ T → (b (cells y)).value = 0 →
      ∀ m, (b (cells i)).notes m ≠ 0 → (b (cells y)).notes m = 0 := by
  unfold groupStep at hfix
  dsimp only at hfix
  rw [if_pos (by rw [hk]; omega)] at hfix
  dsimp only at hfix
  refine groupCheckInner_fix cells b hc i T hk hT hTv
    (cellCC_exists_note (hc (cells i)) (by rw [hk]; omega))
    ((List.finRange 9).filter fun n => i < n) (List.Pairwise.filter _ finRange_pairwise_lt)
    { check := c, board := b, indices := [i] } rfl (List.nodup_singleton i) rfl
    (List.mem_singleton_self i) ?_ ?_ ?_ hfix
  · simp only [List.length_singleton]
    push_cast
    omega
  · intro x hx
    rw [List.mem_singleton] at hx
    subst hx
    simp [List.mem_filter]
  · intro x hx
    rcases lt_or_eq_of_le (hmin x hx) with h | h
    · right
      simp only [List.mem_filter, List.mem_finRange, true_and, decide_eq_true_eq]
      exact h
    · left
      rw [← h]
      exact List.mem_singleton_self i

theorem groupCheck_fold_zero (cells : Fin 9 → Ptr) (l : List (Fin 9)) (s : Int × Board)
    (hz : ZeroOne s.2) (h : (l.foldl (groupStep cells) s).1 = s.1) :
    ∀ i ∈ l, (groupStep cells s i).1 = s.1 := by
  induction l generalizing s with
  | nil => intro i hi; exact absurd hi (List.not_mem_nil _)
  | cons a l ih =>
    rw [List.foldl_cons] at h
    obtain ⟨d1, e1, h1⟩ := groupStep_upd cells s a
    obtain ⟨d2, e2, h2⟩ := groupCheck_fold cells l (groupStep cells s a)
    have hz1 : ZeroOne (groupStep cells s a).2 := h1.1.sh_zeroOne hz
    have n1 := (h1.2 hz).2.1
    have n2 := (h2.2 hz1).2.1
    dsimp only at n1 n2
    have hd1 : d1 = 0 := by omega
    have hb := (h1.2 hz).2.2.1 hd1
    dsimp only at hb
    have hsame : groupStep cells s a = s := Prod.ext (by rw [e1, hd1, add_zero]) hb
    intro i hi
    rcases List.mem_cons.mp hi with e | e
    · subst e
      rw [hsame]
    · have := ih (groupStep cells s a) hz1 (by omega) i e
      rw [hsame] at this
      exact this

theorem updateSet_zero_group (b : Board) (g : Fin 27) (h : (updateSet b g).1 = 0) :
    (groupCheck b (paths g)).1 = 0 := by
  have h0 := updateSet_zero_single b g h
  have hb : (singleCheck b (paths g)).2 = b := (singleCheck_spec b (paths g)).1.2.2.1 h0
  unfold updateSet at h
  dsimp only at h
  rw [if_neg (not_not.mpr h0), hb] at h
  by_contra hne
  rw [if_pos hne] at h
  dsimp only at h
  omega

theorem cellCC_noteCount_cands {c : Cell} (h : CellCC c) : c.noteCount = ((cands c).card : Int) := by
  rw [h.2]
  unfold cands
  congr 2
  ext n
  simp only [Finset.mem_filter, Finset.mem_univ, true_and]
  rcases h.1 n with e | e <;> rw [e] <;> decide

theorem notes_eq_of_cands {c1 c2 : Cell} (h1 : CellCC c1) (h2 : CellCC c2)
    (h : cands c1 = cands c2) (m : Fin 9) : c1.notes m = c2.notes m := by
  have hm : m ∈ cands c1 ↔ m ∈ cands c2 := by rw [h]
  unfold cands at hm
  simp only [Finset.mem_filter, Finset.mem_univ, true_and] at hm
  rcases h1.1 m with e1 | e1 <;> rcases h2.1 m with e2 | e2
  · rw [e1, e2]
  · exfalso
    exact (hm.mpr (by rw [e2]; decide)) e1
  · exfalso
    exact (hm.mp (by rw [e1]; decide)) e2
  · rw [e1, e2]

/-- When updateAll returns 0 no naked subset is left to cancel. -/
theorem updateAll_zero_nakedFix (b : Board) (hc : CountConsistent b)
    (h : (updateAll b).1 = 0) : NakedFix b := by
  intro g T h2 hTv hcard hsame y hy hv x hx n hn
  have hz := hc.cc_zeroOne
  have hg := updateSet_zero_group b g (updateAll_zero_sets b hz h g)
  have hne : T.Nonempty := Finset.card_pos.mp (by omega)
  have hi := Finset.min'_mem T hne
  have hstep := groupCheck_fold_zero (paths g) (List.finRange 9) (0, b) hz hg
    (T.min' hne) (List.mem_finRange _)
  have hnotes : ∀ z ∈ T, ∀ m, (b (paths g z)).notes m = (b (paths g (T.min' hne))).notes m :=
    fun z hzT m => notes_eq_of_cands (hc _) (hc _) (hsame z hzT _ hi) m
  have hk : (b (paths g (T.min' hne))).noteCount = (T.card : Int) := by
    rw [cellCC_noteCount_cands (hc _), hcard _ hi]
  have hcount : ∀ z ∈ T, (b (paths g z)).noteCount = (b (paths g (T.min' hne))).noteCount := by
    intro z hzT
    rw [cellCC_noteCount_cands (hc _), cellCC_noteCount_cands (hc _), hcard z hzT, hcard _ hi]
  refine groupStep_fix (paths g) b hc (T.min' hne) T hi (fun z hzT => Finset.min'_le T z hzT) h2
    hk (fun z hzT => ⟨hcount z hzT, hnotes z hzT⟩) hTv 0 hstep y hy hv n ?_
  rw [← hnotes x hx n]
  unfold cands at hn
  simp only [Finset.mem_filter, Finset.mem_univ, true_and] at hn
  exact hn

/-! ## Candidate soundness -/

theorem digitOf_spec {v : Int} (h1 : 1 ≤ v) (h9 : v ≤ 9) : v = ((digitOf v).val : Int) + 1 := by
  unfold digitOf
  dsimp only
  omega

theorem digitOf_add_one (n : Fin 9) : digitOf ((n.val : Int) + 1) = n := by
  unfold digitOf
  apply Fin.ext
  dsimp only
  omega

/-- In a valid grid two positions of a set with the same digit are the same. -/
theorem validGrid_inj {S : Ptr → Int} (hS : ValidGrid S) (g : Fin 27) (x y : Fin 9)
    (h : S (paths g x) = S (paths g y)) : x = y := by
  have hr := hS.1 (paths g x)
  have hocc := hS.2 g (digitOf (S (paths g x)))
  rw [← digitOf_spec hr.1 hr.2] at hocc
  unfold occurrences at hocc
  obtain ⟨a, ha⟩ := Finset.card_eq_one.mp hocc
  have mx : x ∈ Finset.univ.filter fun n : Fin 9 => S (paths g n) = S (paths g x) := by
    simp only [Finset.mem_filter, Finset.mem_univ, true_and]
  have my : y ∈ Finset.univ.filter fun n : Fin 9 => S (paths g n) = S (paths g x) := by
    simp only [Finset.mem_filter, Finset.mem_univ, true_and]
    exact h.symm
  rw [ha, Finset.mem_singleton] at mx my
  exact mx.trans my.symm

/-- In a valid grid every digit occurs in every set. -/
theorem validGrid_exists {S : Ptr → Int} (hS : ValidGrid S) (g : Fin 27) (n : Fin 9) :
    ∃ y, S (paths g y) = (n.val : Int) + 1 := by
  have hocc := hS.2 g n
  unfold occurrences at hocc
  obtain ⟨a, ha⟩ := Finset.card_eq_one.mp hocc
  have : a ∈ Finset.univ.filter fun k : Fin 9 => S (paths g k) = (n.val : Int) + 1 := by
    rw [ha]; exact Finset.mem_singleton_self a
  simp only [Finset.mem_filter, Finset.mem_univ, true_and] at this
  exact ⟨a, this⟩

theorem Shrink.agrees {b1 b2 : Board} (h : Shrink b1 b2) {S : Ptr → Int} (ha : Agrees b1 S) :
    Agrees b2 S := by
  intro p hp
  rw [h.value_eq] at hp ⊢
  exact ha p hp

/-- Value elimination keeps the digits of a completion. -/
theorem singleCheck_sound (b : Board) (S : Ptr → Int) (g : Fin 27) (hS : ValidGrid S)
    (ha : Agrees b S) (hs : Sound b S) : Sound (singleCheck b (paths g)).2 S := by
  obtain ⟨hu, hn, -⟩ := singleCheck_spec b (paths g)
  intro p hv n hSn
  rw [hu.1.value_eq] at hv
  rw [hn p n, if_neg]
  · exact hs p hv n hSn
  · rintro ⟨-, ⟨x, hx⟩, ⟨j, hj⟩, -⟩
    have hj0 : (b (paths g j)).value ≠ 0 := by rw [hj]; omega
    have hSj := ha (paths g j) hj0
    rw [hj] at hSj
    have : x = j := validGrid_inj hS g x j (by rw [hx, hSn, hSj])
    subst this
    rw [hx] at hj0
    exact hj0 hv

/-- Cancelling a naked subset keeps the digits of a completion: the cells of
the subset take all of its digits. -/
theorem groupCancel_sound (b : Board) (S : Ptr → Int) (g : Fin 27) (hS : ValidGrid S)
    (hc : CountConsistent b) (hs : Sound b S) (indices : List (Fin 9)) (i : Fin 9) (k : Int)
    (hhead : indices.headD 0 = i) (hnd : indices.Nodup) (hlen : (indices.length : Int) = k)
    (hk : (b (paths g i)).noteCount = k)
    (hmem : ∀ x ∈ indices, (b (paths g x)).value = 0 ∧
      ∀ m, (b (paths g x)).notes m = (b (paths g i)).notes m) :
    Sound (groupCancel b (paths g) indices k).2 S := by
  obtain ⟨hsh, hn, -⟩ := groupCancel_spec b (paths g) indices k
  intro p hv n hSn
  rw [hsh.value_eq] at hv
  rw [hn p n, if_neg]
  · exact hs p hv n hSn
  · rintro ⟨-, ⟨y, hy, hy2⟩, hnmem⟩
    rw [inArray_eq_false_iff, List.take_of_length_le (by omega)] at hy2
    rw [hhead] at hnmem
    have hni : (b (paths g i)).notes n ≠ 0 :=
      (mem_noteValuesOf _ n).mp (List.mem_of_mem_take hnmem)
    -- the digits that the completion gives to the cells of the subset
    have himg : indices.toFinset.image (fun x => digitOf (S (paths g x))) ⊆
        cands (b (paths g i)) := by
      intro d hd
      obtain ⟨x, hx, rfl⟩ := Finset.mem_image.mp hd
      rw [List.mem_toFinset] at hx
      obtain ⟨hxv, hxn⟩ := hmem x hx
      have hr := hS.1 (paths g x)
      have := hs (paths g x) hxv _ (digitOf_spec hr.1 hr.2)
      rw [hxn] at this
      unfold cands
      simp only [Finset.mem_filter, Finset.mem_univ, true_and]
      exact this
    have hinj : Set.InjOn (fun x => digitOf (S (paths g x))) (indices.toFinset : Set (Fin 9)) := by
      intro x _ z _ hxz
      dsimp only at hxz
      have hx := hS.1 (paths g x)
      have hz := hS.1 (paths g z)
      apply validGrid_inj hS g x z
      rw [digitOf_spec hx.1 hx.2, digitOf_spec hz.1 hz.2, hxz]
    have hcard : (indices.toFinset.image (fun x => digitOf (S (paths g x)))).card =
        (cands (b (paths g i))).card := by
      rw [Finset.card_image_of_injOn hinj, List.toFinset_card_of_nodup hnd]
      have := cellCC_noteCount_cands (hc (paths g i))
      omega
    have heq := Finset.eq_of_subset_of_card_le himg (le_of_eq hcard.symm)
    have hnc : n ∈ cands (b (paths g i)) := by
      unfold cands
      simp only [Finset.mem_filter, Finset.mem_univ, true_and]
      exact hni
    rw [← heq] at hnc
    obtain ⟨x, hx, hxd⟩ := Finset.mem_image.mp hnc
    rw [List.mem_toFinset] at hx
    have hxr := hS.1 (paths g x)
    have hSx : S (paths g x) = (n.val : Int) + 1 := by
      rw [digitOf_spec hxr.1 hxr.2, hxd]
    have : x = y := validGrid_inj hS g x y (by rw [hSx, hy, hSn])
    subst this
    exact hy2 hx

theorem soundInv_step (S : Ptr → Int) (hS : ValidGrid S) (g : Fin 27) (i n : Fin 9) (k : Int)
    (rest : List (Fin 9)) (hnd : (n :: rest).Nodup) (s : GroupState)
    (hJ : SoundInv S (paths g) i k (n :: rest) s) :
    SoundInv S (paths g) i k rest (groupInnerStep (paths g) i n s) := by
  obtain ⟨hI, hnd0, heq0, hs0⟩ := hJ
  have hI1 := innerInv_step (paths g) (fun x y h => paths_injective g x y h) i n k rest hnd s hI
  have hidx := groupInnerStep_indices (paths g) i n s
  have hbd := groupInnerStep_board (paths g) i n s
  obtain ⟨hc, hp, hk, h1, hhead, hmem, hlen, hnot, -⟩ := hI
  have hn_not : n ∉ s.indices := fun h => hnot n h (List.mem_cons_self _ _)
  have hnd1 : (groupInnerStep (paths g) i n s).indices.Nodup := by
    rw [hidx]; split
    · exact List.Nodup.append hnd0 (List.nodup_singleton n)
        (by
          intro x hx hx2
          rw [List.mem_singleton] at hx2
          subst hx2
          exact hn_not hx)
    · exact hnd0
  -- in the board before the call every cell of the new list has the notes of cell i
  have heq1 : ∀ x ∈ (groupInnerStep (paths g) i n s).indices,
      ∀ m, (s.board (paths g x)).notes m = (s.board (paths g i)).notes m := by
    intro x hx
    rw [hidx] at hx
    split at hx
    · rename_i hm
      rcases List.mem_append.mp hx with e | e
      · exact heq0 x e
      · rw [List.mem_singleton] at e
        subst e
        intro m
        exact ((equalsArr_iff _ _).mp hm.2 m).symm
    · exact heq0 x hx
  by_cases hcall : ((groupInnerStep (paths g) i n s).indices.length : Int) =
      (s.board (paths g i)).noteCount
  · rw [if_pos hcall] at hbd
    rw [hk] at hcall hbd
    have hfull : (groupInnerStep (paths g) i n s).indices.take k.toNat =
        (groupInnerStep (paths g) i n s).indices := by
      apply List.take_of_length_le
      omega
    have hprot : ∀ x ∈ (groupInnerStep (paths g) i n s).indices, ∀ m,
        ((groupInnerStep (paths g) i n s).board (paths g x)).notes m =
          (s.board (paths g x)).notes m := by
      intro x hx m
      rw [hbd]
      exact (groupCancel_protected s.board (paths g) (fun x y h => paths_injective g x y h)
        _ k x (by rw [hfull]; exact hx)).1 m
    refine ⟨hI1, hnd1, ?_, ?_⟩
    · intro x hx m
      rw [hprot x hx m, hprot i hI1.2.2.2.2.2.1 m]
      exact heq1 x hx m
    · rw [hbd]
      refine groupCancel_sound s.board S g hS hc hs0 _ i k hI1.2.2.2.2.1 hnd1 hcall hk ?_
      intro x hx
      refine ⟨?_, heq1 x hx⟩
      obtain ⟨m, hm⟩ := cellCC_exists_note (hc (paths g i)) (by omega)
      exact placedEmpty_unplaced hp (Or.inr ⟨m, by rw [heq1 x hx m]; exact hm⟩)
  · rw [if_neg hcall] at hbd
    refine ⟨hI1, hnd1, ?_, ?_⟩
    · intro x hx m
      rw [hbd]
      exact heq1 x hx m
    · rw [hbd]
      exact hs0

theorem groupCheckInner_sound (S : Ptr → Int) (hS : ValidGrid S) (g : Fin 27) (i : Fin 9)
    (k : Int) (rest : List (Fin 9)) (hnd : rest.Nodup) (s : GroupState)
    (hJ : SoundInv S (paths g) i k rest s) :
    Sound (groupCheckInner (paths g) i rest s).board S := by
  induction rest generalizing s with
  | nil => exact hJ.2.2.2
  | cons n rest ih =>
    have hstep := soundInv_step S hS g i n k rest hnd s hJ
    rw [groupCheckInner_cons]
    split
    · exact hstep.2.2.2
    · exact ih (List.nodup_cons.mp hnd).2 _ hstep

theorem groupStep_sound (S : Ptr → Int) (hS : ValidGrid S) (g : Fin 27) (s : Int × Board)
    (i : Fin 9) (hc : CountConsistent s.2) (hp : PlacedEmpty s.2) (hs : Sound s.2 S) :
    Sound (groupStep (paths g) s i).2 S := by
  unfold groupStep
  split
  · rename_i hgt
    dsimp only
    apply groupCheckInner_sound S hS g i (s.2 (paths g i)).noteCount _
      ((List.nodup_finRange 9).filter _)
    refine ⟨⟨hc, hp, rfl, hgt, rfl, List.mem_singleton_self i, ?_, ?_, ?_⟩,
      List.nodup_singleton i, ?_, hs⟩
    · simp only [List.length_singleton]
      push_cast
      omega
    · intro x hx
      rw [List.mem_singleton] at hx
      subst hx
      simp [List.mem_filter]
    · intro h
      simp only [List.length_singleton] at h
      push_cast at h
      omega
    · intro x hx m
      rw [List.mem_singleton] at hx
      subst hx
      rfl
  · exact hs

theorem groupCheck_sound (S : Ptr → Int) (hS : ValidGrid S) (g : Fin 27) (b : Board)
    (hc : CountConsistent b) (hp : PlacedEmpty b) (hs : Sound b S) :
    Sound (groupCheck b (paths g)).2 S := by
  unfold groupCheck
  have h := foldl_invariant
    (fun s : Int × Board => CountConsistent s.2 ∧ PlacedEmpty s.2 ∧ Sound s.2 S)
    (groupStep (paths g)) (List.finRange 9) (0, b) ⟨hc, hp, hs⟩
    (by
      intro s a _ hs1
      exact ⟨(groupStep_shrink (paths g) s a).sh_cc hs1.1,
        (groupStep_shrink (paths g) s a).placedEmpty hs1.2.1,
        groupStep_sound S hS g s a hs1.1 hs1.2.1 hs1.2.2⟩)
  exact h.2.2

/-- Both elimination passes of updateSet keep the digits of a completion. -/
theorem updateSet_sound (S : Ptr → Int) (hS : ValidGrid S) (g : Fin 27) (b : Board)
    (hc : CountConsistent b) (hp : PlacedEmpty b) (ha : Agrees b S) (hs : Sound b S) :
    Sound (updateSet b g).2 S := by
  have h1 := singleCheck_sound b S g hS ha hs
  have hsh := (singleCheck_spec b (paths g)).1.1
  have h2 := groupCheck_sound S hS g _ (hsh.sh_cc hc) (hsh.placedEmpty hp) h1
  unfold updateSet
  dsimp only
  split
  · exact h1
  · split
    · exact h2
    · exact h2

theorem updateAll_sound (S : Ptr → Int) (hS : ValidGrid S) (b : Board)
    (hc : CountConsistent b) (hp : PlacedEmpty b) (ha : Agrees b S) (hs : Sound b S) :
    Sound (updateAll b).2 S := by
  unfold updateAll
  have h := foldl_invariant
    (fun s : Int × Board => CountConsistent s.2 ∧ PlacedEmpty s.2 ∧ Agrees s.2 S ∧ Sound s.2 S)
    updateAllStep (List.finRange 27) (0, b) ⟨hc, hp, ha, hs⟩
    (by
      intro s a _ hs1
      have hsh := updateSet_shrink s.2 a
      exact ⟨hsh.sh_cc hs1.1, hsh.placedEmpty hs1.2.1, hsh.agrees hs1.2.2.1,
        updateSet_sound S hS a s.2 hs1.1 hs1.2.1 hs1.2.2.1 hs1.2.2.2⟩)
  exact h.2.2.2

theorem storeValue_agrees {b : Board} {S : Ptr → Int} (ha : Agrees b S) (p : Ptr) (v : Int)
    (hv : S p = v) : Agrees (storeValue b p v) S := by
  intro q hq
  by_cases e : q = p
  · subst e
    rw [storeValue_same]
    exact hv
  · rw [storeValue_other _ _ _ _ e] at hq ⊢
    exact ha q hq

theorem storeValue_sound {b : Board} {S : Ptr → Int} (hs : Sound b S) (p : Ptr) (v : Int)
    (hv : v ≠ 0) : Sound (storeValue b p v) S := by
  intro q hq n hn
  by_cases e : q = p
  · subst e
    rw [storeValue_same] at hq
    exact absurd hq hv
  · rw [storeValue_other _ _ _ _ e] at hq ⊢
    exact hs q hq n hn

theorem updateCell_sound (S : Ptr → Int) (hS : ValidGrid S) (b : Board) (p : Ptr)
    (hc : CountConsistent b) (hp : PlacedEmpty b) (ha : Agrees b S) (hs : Sound b S) :
    Sound (updateCell b p) S := by
  have three : ∀ g1 g2 g3 : Fin 27,
      Sound (updateSet (updateSet (updateSet b g1).2 g2).2 g3).2 S := by
    intro g1 g2 g3
    have s1 := updateSet_shrink b g1
    have s2 := updateSet_shrink (updateSet b g1).2 g2
    have h1 := updateSet_sound S hS g1 b hc hp ha hs
    have h2 := updateSet_sound S hS g2 _ (s1.sh_cc hc) (s1.placedEmpty hp) (s1.agrees ha) h1
    exact updateSet_sound S hS g3 _ (s2.sh_cc (s1.sh_cc hc)) (s2.placedEmpty (s1.placedEmpty hp))
      (s2.agrees (s1.agrees ha)) h2
  unfold updateCell
  dsimp only
  exact three _ _ _

/-- Assigning the digit of the completion keeps agreement and soundness. -/
theorem assignValue_sound (S : Ptr → Int) (hS : ValidGrid S) (b : Board) (p : Ptr) (n : Fin 9)
    (hc : CountConsistent b) (hp : PlacedEmpty b) (ha : Agrees b S) (hs : Sound b S)
    (hv : S p = (n.val : Int) + 1) :
    Agrees (assignValue b p ((n.val : Int) + 1)) S ∧
      Sound (assignValue b p ((n.val : Int) + 1)) S := by
  have ha1 := storeValue_agrees ha p _ hv
  have hs1 := storeValue_sound hs p ((n.val : Int) + 1) (by omega)
  refine ⟨(assignValue_shrink b p _).agrees ha1, ?_⟩
  unfold assignValue
  exact updateCell_sound S hS _ p (storeValue_cc hc p _) (storeValue_placedEmpty hp p _) ha1 hs1

theorem soundFix_assign (S : Ptr → Int) (hS : ValidGrid S) (b : Board) (p : Ptr) (n : Fin 9)
    (hQ : SoundFix S b) (hv : S p = (n.val : Int) + 1) :
    SoundFix S (assignValue b p ((n.val : Int) + 1)) := by
  obtain ⟨hc, hp, hw, ha, hs, hn⟩ := hQ
  obtain ⟨ha1, hs1⟩ := assignValue_sound S hS b p n hc hp ha hs hv
  exact ⟨assignValue_cc hc p _, assignValue_placedEmpty hp p _, assignValue_wellFormed hw p _,
    ha1, hs1, assignValue_noPlacedCand hc hw hn p n⟩

/-- The digit that singleNoteSolve assigns is the digit of the completion. -/
theorem soundFix_note (S : Ptr → Int) (hS : ValidGrid S) (b : Board) (p : Ptr)
    (hQ : SoundFix S b) (h1 : (b p).noteCount = 1) :
    SoundFix S (assignValue b p (firstNote (b p) + 1)) := by
  obtain ⟨n, hn, -, huniq⟩ := firstNote_spec (b p) (hQ.1 p) h1
  rw [hn]
  apply soundFix_assign S hS b p n hQ
  have hr := hS.1 p
  have hv := placedEmpty_unplaced hQ.2.1 (Or.inl h1)
  have hm := hQ.2.2.2.2.1 p hv _ (digitOf_spec hr.1 hr.2)
  rw [digitOf_spec hr.1 hr.2, huniq _ hm]

/-- The digit that singleCellSolve assigns is the digit of the completion. -/
theorem soundFix_cell (S : Ptr → Int) (hS : ValidGrid S) (b : Board) (g : Fin 27) (n : Fin 9)
    (hQ : SoundFix S b) (h1 : (countNote b (paths g) n (List.finRange 9) (0, 0)).1 = 1) :
    SoundFix S (assignValue b (paths g (countNote b (paths g) n (List.finRange 9) (0, 0)).2)
      ((n.val : Int) + 1)) := by
  obtain ⟨-, hloc, huniq⟩ := countNote_eq_one b (paths g) n (List.finRange 9) 0 h1
  apply soundFix_assign S hS b _ n hQ
  obtain ⟨hc, hp, hw, ha, hs, hnp⟩ := hQ
  obtain ⟨y, hy⟩ := validGrid_exists hS g n
  have hlocv := placedEmpty_unplaced hp (Or.inr ⟨n, hloc⟩)
  have hyv : (b (paths g y)).value = 0 := by
    by_contra hne
    have := ha (paths g y) hne
    rw [hy] at this
    exact hloc (hnp g _ y n hlocv this.symm)
  have := huniq y (List.mem_finRange y) (hs (paths g y) hyv n hy)
  rw [← this]
  exact hy

theorem solveAll_soundFix (S : Ptr → Int) (hS : ValidGrid S) (fuel : Nat) (b : Board)
    (r : Int × Board) (hQ : SoundFix S b) (h : solveAll fuel b = some r) : SoundFix S r.2 :=
  solveAll_preserves (SoundFix S) (fun b1 _ _ h1 h2 => soundFix_note S hS b1 _ h1 h2)
    (fun b1 g n h1 h2 => soundFix_cell S hS b1 g n h1 h2) fuel b r hQ h

/-! ## Completeness of the search -/

theorem BestEmpty.be_congr {b : Board} {s : BestState} {seen seen2 : Ptr → Prop}
    (h : BestEmpty b s seen) (e : ∀ q, seen2 q → seen q) : BestEmpty b s seen2 := by
  rcases h with ⟨h1, h2⟩ | h
  · exact Or.inl ⟨h1, fun q hq => h2 q (e q hq)⟩
  · exact Or.inr h

theorem bestEmpty_row (b : Board) (r : Fin 9) (l : List (Fin 9)) (s : BestState)
    (seen : Ptr → Prop) (h : BestEmpty b s seen) :
    BestEmpty b (bestGuessRow b r l s) (fun q => seen q ∨ (q.1 = r ∧ q.2 ∈ l)) := by
  induction l generalizing s seen with
  | nil =>
    rw [bestGuessRow_nil]
    exact h.be_congr (fun q hq => by
      rcases hq with hq | ⟨-, hq⟩
      · exact hq
      · exact absurd hq (List.not_mem_nil _))
  | cons c rest ih =>
    rw [bestGuessRow_cons]
    have h1 : BestEmpty b
        (if (b (r, c)).value = 0 ∧ (b (r, c)).noteCount < s.minNotes then
          ({ minNotes := (b (r, c)).noteCount, row := r, col := c } : BestState)
        else s) (fun q => seen q ∨ q = (r, c)) := by
      by_cases hu : (b (r, c)).value = 0 ∧ (b (r, c)).noteCount < s.minNotes
      · rw [if_pos hu]
        refine Or.inr ⟨hu.1, ?_⟩
        dsimp only
        rcases h with ⟨e, -⟩ | ⟨-, e⟩
        · have := hu.2; omega
        · have := hu.2; omega
      · rw [if_neg hu]
        rcases h with ⟨e, h2⟩ | h
        · refine Or.inl ⟨e, ?_⟩
          intro q hq hv
          rcases hq with hq | hq
          · exact h2 q hq hv
          · subst hq
            by_contra hlt
            exact hu ⟨hv, by omega⟩
        · exact Or.inr h
    generalize (if (b (r, c)).value = 0 ∧ (b (r, c)).noteCount < s.minNotes then
        ({ minNotes := (b (r, c)).noteCount, row := r, col := c } : BestState)
      else s) = s1 at h1 ⊢
    by_cases h2 : s1.minNotes = 2
    · rw [if_pos h2]
      rcases h1 with ⟨e, -⟩ | h1
      · rw [e] at h2; exact absurd h2 (by decide)
      · exact Or.inr h1
    · rw [if_neg h2]
      refine (ih s1 _ h1).be_congr ?_
      rintro q (hq | ⟨hq1, hq2⟩)
      · exact Or.inl (Or.inl hq)
      · rcases List.mem_cons.mp hq2 with e | e
        · exact Or.inl (Or.inr (Prod.ext hq1 e))
        · exact Or.inr ⟨hq1, e⟩

theorem bestEmpty_rows (b : Board) (L : List (Fin 9)) (s : BestState) (seen : Ptr → Prop)
    (h : BestEmpty b s seen) :
    BestEmpty b (L.foldl (fun s r => bestGuessRow b r (List.finRange 9) s) s)
      (fun q => seen q ∨ q.1 ∈ L) := by
  induction L generalizing s seen with
  | nil =>
    exact h.be_congr (fun q hq => by
      rcases hq with hq | hq
      · exact hq
      · exact absurd hq (List.not_mem_nil _))
  | cons r rest ih =>
    rw [List.foldl_cons]
    refine (ih _ _ (bestEmpty_row b r (List.finRange 9) s seen h)).be_congr ?_
    rintro q (hq | hq)
    · exact Or.inl (Or.inl hq)
    · rcases List.mem_cons.mp hq with e | e
      · exact Or.inl (Or.inr ⟨e, List.mem_finRange _⟩)
      · exact Or.inr e

/-- The cell that bestGuess returns is empty when the board has an empty cell. -/
theorem bestGuess_unplaced (b : Board) (hc : CountConsistent b) (hex : ∃ p, (b p).value = 0) :
    (b (bestGuess b)).value = 0 := by
  have h := bestEmpty_rows b (List.finRange 9) { minNotes := 10, row := 0, col := 0 }
    (fun _ => False) (Or.inl ⟨rfl, fun q hq => hq.elim⟩)
  unfold bestGuess
  dsimp only
  generalize (List.finRange 9).foldl (fun s r => bestGuessRow b r (List.finRange 9) s)
      { minNotes := 10, row := 0, col := 0 } = s at h ⊢
  rcases h with ⟨-, h2⟩ | ⟨h1, -⟩
  · obtain ⟨p, hp⟩ := hex
    have := h2 p (Or.inr (List.mem_finRange _)) hp
    have := cellCC_noteCount_le (hc p)
    omega
  · exact h1

theorem guessTrials_complete (rc : State → Option (Int × State)) (entry : Board) (p : Ptr)
    (m : Fin 9) (l : List (Fin 9))
    (hterm : ∀ i ∈ l, ∀ g, ∃ r,
      rc { board := assignValue entry p ((i.val : Int) + 1), guesses := g } = some r ∧
        (r.1 = 0 ∨ r.1 = -1))
    (hgood : ∀ g, ∃ st2,
      rc { board := assignValue entry p ((m.val : Int) + 1), guesses := g } = some (0, st2))
    (hm : m ∈ l) (g : Int) :
    ∃ st2, guessTrials rc entry p l g = some (0, st2) := by
  induction l generalizing g with
  | nil => exact absurd hm (List.not_mem_nil _)
  | cons i rest ih =>
    rw [guessTrials_cons]
    obtain ⟨r, hr, -⟩ := hterm i (List.mem_cons_self _ _) (g + 1)
    obtain ⟨v, st2⟩ := r
    rw [hr]
    dsimp only
    by_cases hv : v = 0
    · rw [if_pos hv]
      exact ⟨st2, rfl⟩
    · rw [if_neg hv]
      have hne : m ≠ i := by
        intro e
        subst e
        obtain ⟨st3, h3⟩ := hgood (g + 1)
        rw [h3] at hr
        cases hr
        exact hv rfl
      have hm2 : m ∈ rest := by
        rcases List.mem_cons.mp hm with e | e
        · exact absurd e hne
        · exact e
      exact ih (fun j hj => hterm j (List.mem_cons_of_mem _ hj)) hm2 _

theorem soundInvariant_assign (S : Ptr → Int) (hS : ValidGrid S) (b : Board) (p : Ptr)
    (n : Fin 9) (hP : SoundInvariant S b) (hv : S p = (n.val : Int) + 1) :
    SoundInvariant S (assignValue b p ((n.val : Int) + 1)) := by
  obtain ⟨hc, hp, hw, ha, hs⟩ := hP
  obtain ⟨ha1, hs1⟩ := assignValue_sound S hS b p n hc hp ha hs hv
  exact ⟨assignValue_cc hc p _, assignValue_placedEmpty hp p _, assignValue_wellFormed hw p _,
    ha1, hs1⟩

/-- The guess of a board that has the completion S returns 0 when the recursive
solve loop ends on every trial and returns 0 on boards that have S. -/
theorem guess_complete (S : Ptr → Int) (hS : ValidGrid S) (rc : State → Option (Int × State))
    (d : Nat)
    (hterm : ∀ st, CountConsistent st.board → PlacedEmpty st.board → emptyCount st.board ≤ d →
      ∃ r, rc st = some r ∧ (r.1 = 0 ∨ r.1 = -1))
    (hgood : ∀ st, SoundInvariant S st.board → emptyCount st.board ≤ d →
      ∃ st2, rc st = some (0, st2))
    (st : State) (hP : SoundInvariant S st.board) (ht : trivialTest st.board = false)
    (hD : emptyCount st.board ≤ d + 1) :
    ∃ st2, guess rc st = some (0, st2) := by
  obtain ⟨hc, hp, hw, ha, hs⟩ := hP
  have hex : ∃ p, (st.board p).value = 0 := by
    have : ¬ ∀ p, (st.board p).value ≠ 0 := by
      rw [← trivialTest_iff, ht]
      decide
    push_neg at this
    exact this
  have hv := bestGuess_unplaced st.board hc hex
  have hr := hS.1 (bestGuess st.board)
  have hSm := digitOf_spec hr.1 hr.2
  have hnote := hs (bestGuess st.board) hv _ hSm
  rw [guess_eq_trials]
  have hcount : ∀ i : Fin 9,
      emptyCount (assignValue st.board (bestGuess st.board) ((i.val : Int) + 1)) ≤ d := by
    intro i
    have := assignValue_emptyCount st.board (bestGuess st.board) ((i.val : Int) + 1)
      (by omega) hv
    omega
  refine guessTrials_complete rc st.board (bestGuess st.board)
    (digitOf (S (bestGuess st.board))) _ ?_ ?_ ((mem_noteValuesOf _ _).mpr hnote) st.guesses
  · intro i _ g
    exact hterm
      { board := assignValue st.board (bestGuess st.board) ((i.val : Int) + 1), guesses := g }
      (assignValue_cc hc _ _) (assignValue_placedEmpty hp _ _) (hcount i)
  · intro g
    exact hgood
      { board := assignValue st.board (bestGuess st.board)
          (((digitOf (S (bestGuess st.board))).val : Int) + 1),
        guesses := g }
      (soundInvariant_assign S hS st.board _ _ ⟨hc, hp, hw, ha, hs⟩ hSm) (hcount _)

theorem solveWhile_complete (S : Ptr → Int) (hS : ValidGrid S) (fuel : Nat) (hf : 730 ≤ fuel)
    (gr : State → Option (Int × State)) (D : Nat)
    (hgr : ∀ st, SoundInvariant S st.board → trivialTest st.board = false →
      emptyCount st.board ≤ D → ∃ st2, gr st = some (0, st2))
    (iters : Nat) (st : State) (hP : SoundInvariant S st.board)
    (hD : emptyCount st.board ≤ D) (hn : noteTotal st.board < iters) :
    ∃ st2, solveWhile fuel gr iters st = some (0, st2) := by
  induction iters generalizing st with
  | zero => exact absurd hn (Nat.not_lt_zero _)
  | succ iters ih =>
    rw [solveWhile_succ]
    by_cases ht : trivialTest st.board = false
    · rw [if_pos ht]
      obtain ⟨hc, hp, hw, ha, hs⟩ := hP
      have hsh := updateAll_shrink st.board
      have hP1 : SoundInvariant S (updateAll st.board).2 :=
        ⟨hsh.sh_cc hc, hsh.placedEmpty hp, hsh.wellFormed hw, hsh.agrees ha,
          updateAll_sound S hS st.board hc hp ha hs⟩
      have hec := hsh.sh_emptyCount
      by_cases hu : (updateAll st.board).1 ≠ 0
      · rw [if_pos hu]
        have hlt := updateAll_noteTotal_lt st.board hc hu
        refine ih { board := (updateAll st.board).2, guesses := st.guesses } ?_ ?_ ?_
        · dsimp only; exact hP1
        · dsimp only; omega
        · dsimp only; omega
      · rw [if_neg hu]
        have hu0 : (updateAll st.board).1 = 0 := not_not.mp hu
        have hnp : NoPlacedCand (updateAll st.board).2 :=
          hsh.noPlacedCand (updateAll_zero_noPlacedCand st.board hc hu0)
        have hle : noteTotal (updateAll st.board).2 ≤ noteTotal st.board :=
          noteTotal_le (fun _ _ hn => hsh.notes_ne hn)
        obtain ⟨x, hx⟩ := solveAll_terminates fuel hf _ hP1.1 hP1.2.1
        obtain ⟨k, hk, hr⟩ := solveAll_steps fuel _ x hP1.1 hP1.2.1 hx
        have hQ := solveAll_soundFix S hS fuel _ x
          ⟨hP1.1, hP1.2.1, hP1.2.2.1, hP1.2.2.2.1, hP1.2.2.2.2, hnp⟩ hx
        obtain ⟨s, b2⟩ := x
        rw [hx]
        dsimp only at hk hr hQ ⊢
        have hP2 : SoundInvariant S b2 := ⟨hQ.1, hQ.2.1, hQ.2.2.1, hQ.2.2.2.1, hQ.2.2.2.2.1⟩
        have hec2 := hk.as_emptyCount
        have hnt := hk.as_noteTotal
        by_cases hs0 : s ≠ 0
        · rw [if_pos hs0]
          have hkpos : 0 < k := by
            rcases hr with ⟨e, -⟩ | ⟨-, e⟩
            · exact absurd e hs0
            · exact e
          refine ih { board := b2, guesses := st.guesses } ?_ ?_ ?_
          · dsimp only; exact hP2
          · dsimp only; omega
          · dsimp only; omega
        · rw [if_neg hs0]
          have hk0 : k = 0 := by
            rcases hr with ⟨-, e⟩ | ⟨e, -⟩
            · exact e
            · exact absurd (not_not.mp hs0) (by omega)
          subst hk0
          have hb2 := hk.zero_eq
          refine hgr { board := b2, guesses := st.guesses } ?_ ?_ ?_
          · dsimp only; exact hP2
          · dsimp only
            rw [hb2]
            cases htt : trivialTest (updateAll st.board).2 with
            | false => rfl
            | true =>
              exfalso
              have h1 := (trivialTest_iff _).mp htt
              have h2 : trivialTest st.board = true := by
                rw [trivialTest_iff]
                intro p
                rw [← hsh.value_eq]
                exact h1 p
              rw [h2] at ht
              cases ht
          · dsimp only; omega
    · rw [if_neg ht]
      exact ⟨st, rfl⟩

theorem solveLoop_complete (S : Ptr → Int) (hS : ValidGrid S) (fuel : Nat) (hf : 730 ≤ fuel)
    (depth : Nat) (st : State) (hP : SoundInvariant S st.board)
    (hD : emptyCount st.board ≤ depth) :
    ∃ st2, solveLoop fuel depth st = some (0, st2) := by
  induction depth generalizing st with
  | zero =>
    rw [solveLoop_zero]
    refine solveWhile_complete S hS fuel hf _ 0 ?_ fuel st hP hD ?_
    · intro s _ ht h0
      have := emptyCount_pos ht
      omega
    · have := noteTotal_le_729 st.board
      omega
  | succ depth ih =>
    rw [solveLoop_succ]
    refine solveWhile_complete S hS fuel hf _ (depth + 1) ?_ fuel st hP hD ?_
    · intro s hPs ht hDs
      exact guess_complete S hS _ depth
        (fun st1 h1 h2 h3 => solveLoop_terminates fuel hf depth st1 h1 h2 h3)
        (fun st1 h1 h2 => ih st1 h1 h2) s hPs ht hDs
    · have := noteTotal_le_729 st.board
      omega

theorem completion_noConflict {b : Board} {S : Ptr → Int} (hS : Completion b S) :
    NoConflict b := by
  intro g x y hx hxy
  have hy : (b (paths g y)).value ≠ 0 := by rw [← hxy]; exact hx
  apply validGrid_inj hS.1 g x y
  rw [hS.2 _ hx, hS.2 _ hy, hxy]

theorem completion_valuesInRange {b : Board} {S : Ptr → Int} (hS : Completion b S) :
    ValuesInRange b := by
  intro p
  by_cases h : (b p).value = 0
  · rw [h]; decide
  · have := hS.2 p h
    have hr := hS.1.1 p
    omega

theorem annotateBoard_soundInvariant {b : Board} {S : Ptr → Int} (hw : WellFormed b)
    (hS : Completion b S) : SoundInvariant S (annotateBoard b) := by
  refine ⟨annotateBoard_cc b, annotateBoard_placedEmpty b, annotateBoard_wellFormed hw, ?_, ?_⟩
  · intro p hp
    rw [annotateBoard_value] at hp ⊢
    exact hS.2 p hp
  · intro p hp n _
    rw [annotateBoard_value] at hp
    unfold annotateBoard
    rw [if_neg (not_not.mpr hp)]
    simp [setFull]

/-! ## The claims -/

/-- C10. The table written by definePaths holds the rows in sets 0..8, the
columns in sets 9..17 and the squares (through getRow and getCol) in sets
18..26; the map from (square, position) to coordinates is a bijection; every
cell lies in exactly one row set, one column set and one square set; and the
nine cells of a set are distinct. -/
theorem group_membership :
    (∀ (i : Fin 27) (n : Fin 9),
      definePaths i.val n.val = some ((paths i n).1.val, (paths i n).2.val)) ∧
    (∀ r c : Fin 9, definePaths r.val c.val = some (r.val, c.val)) ∧
    (∀ c r : Fin 9, definePaths (c.val + 9) r.val = some (r.val, c.val)) ∧
    (∀ s p : Fin 9,
      definePaths (s.val + 18) p.val = some (getRow s.val p.val, getCol s.val p.val)) ∧
    Function.Bijective squareCell ∧
    (∀ q : Ptr, (∃! i : Fin 27, i.val < 9 ∧ ∃ n, paths i n = q) ∧
      (∃! i : Fin 27, 9 ≤ i.val ∧ i.val < 18 ∧ ∃ n, paths i n = q) ∧
      (∃! i : Fin 27, 18 ≤ i.val ∧ ∃ n, paths i n = q)) ∧
    (∀ i : Fin 27, Function.Injective (paths i)) ∧
    (∀ i : Fin 27, (Finset.univ.image (paths i)).card = 9) := by
  have hinj : Function.Injective squareCell := fun a b hab => squareCell_injective a b hab
  have hpi : ∀ i : Fin 27, Function.Injective (paths i) :=
    fun i x y h => paths_injective i x y h
  refine ⟨definePaths_table, ?_, ?_, ?_,
    ⟨hinj, Finite.injective_iff_surjective.mp hinj⟩, ?_, hpi, ?_⟩
  · intro r c
    have h := definePaths_table ⟨r.val, by omega⟩ c
    rw [paths_rows _ _ (by exact r.isLt)] at h
    exact h
  · intro c r
    have h := definePaths_table ⟨c.val + 9, by omega⟩ r
    rw [paths_cols _ _ (by simp) (by simp; omega)] at h
    simpa using h
  · intro s p
    have h := definePaths_table ⟨s.val + 18, by omega⟩ p
    rw [paths_squares _ _ (by simp)] at h
    simpa using h
  · intro q
    refine ⟨⟨⟨q.1.val, by omega⟩, ⟨by exact q.1.isLt, q.2, paths_row q⟩, ?_⟩,
      ⟨⟨q.2.val + 9, by omega⟩, ⟨by simp, by simp; omega, q.1, paths_col q⟩, ?_⟩,
      ⟨⟨getSq q.1.val q.2.val + 18, by unfold getSq; omega⟩,
        ⟨by simp, _, paths_sq q⟩, ?_⟩⟩
    · rintro j ⟨hj, n, hn⟩
      have h := paths_row_owner j n hj
      rw [hn] at h
      exact Fin.ext h
    · rintro j ⟨hj, hj2, n, hn⟩
      have h := paths_col_owner j n hj hj2
      rw [hn] at h
      exact Fin.ext h
    · rintro j ⟨hj, n, hn⟩
      have h := paths_sq_owner j n hj
      rw [hn] at h
      exact Fin.ext h
  · intro i
    rw [Finset.card_image_of_injective _ (hpi i)]
    rfl

/-- C4. On a board whose values lie in 0..9, testBoard returns true exactly
when no cell is empty and in each of the 27 sets each digit 1..9 occurs exactly
once among the nine values. -/
theorem testBoard_iff (b : Board) (_hv : ValuesInRange b) :
    testBoard b = true ↔
      (∀ p, (b p).value ≠ 0) ∧
      ∀ (i : Fin 27) (d : Fin 9), occurrences (fun p => (b p).value) i ((d.val : Int) + 1) = 1 := by
  exact testBoard_eq_true_iff b

/-- C7. Count consistency (every note is 0 or 1 and noteCount is the number of
ones, for every cell) holds after annotateBoard and is preserved by updateSet,
updateAll, assignValue, solveSet, solveAll, the snapshot copy, guess and
solveLoop. -/
theorem count_consistency :
    (∀ b, CountConsistent (annotateBoard b)) ∧
    (∀ b g, CountConsistent b → CountConsistent (updateSet b g).2) ∧
    (∀ b, CountConsistent b → CountConsistent (updateAll b).2) ∧
    (∀ b p v, CountConsistent b → CountConsistent (assignValue b p v)) ∧
    (∀ fuel b cells chk r, CountConsistent b → solveSet fuel b cells chk = some r →
      CountConsistent r.2) ∧
    (∀ fuel b r, CountConsistent b → solveAll fuel b = some r → CountConsistent r.2) ∧
    (∀ b, CountConsistent b → CountConsistent (copyBoard b)) ∧
    (∀ fuel depth st r, CountConsistent st.board → guess (solveLoop fuel depth) st = some r →
      CountConsistent r.2.board) ∧
    (∀ fuel depth st r, CountConsistent st.board → solveLoop fuel depth st = some r →
      CountConsistent r.2.board) := by
  refine ⟨annotateBoard_cc, fun b g h => (updateSet_shrink b g).sh_cc h,
    fun b h => (updateAll_shrink b).sh_cc h, fun b p v h => assignValue_cc h p v, ?_, ?_,
    fun b h => h, ?_, ?_⟩
  · intro fuel b cells chk r hb h
    exact solveSet_preserves CountConsistent cells (fun _ _ h _ => assignValue_cc h _ _)
      (fun _ _ h _ => assignValue_cc h _ _) fuel b chk r hb h
  · intro fuel b r hb h
    exact solveAll_preserves CountConsistent solverInv_cc.note solverInv_cc.cell fuel b r hb h
  · intro fuel depth st r hb h
    exact guess_preserves _ _ solverInv_cc _
      (fun st2 r2 h2 e2 => solveLoop_preserves _ _ solverInv_cc fuel depth st2 r2 h2 e2) st r hb h
  · intro fuel depth st r hb h
    exact solveLoop_preserves _ _ solverInv_cc fuel depth st r hb h

/-- C8. After annotateBoard all values are unchanged, every placed cell has no
note and noteCount 0, every empty cell has all nine notes and noteCount 9; and
the placed-cell invariant is preserved by updateSet, updateAll, assignValue,
solveSet, solveAll, guess and solveLoop. -/
theorem placed_cell_invariant :
    (∀ b p, (annotateBoard b p).value = (b p).value ∧
      ((b p).value ≠ 0 →
        (∀ n, (annotateBoard b p).notes n = 0) ∧ (annotateBoard b p).noteCount = 0) ∧
      ((b p).value = 0 →
        (∀ n, (annotateBoard b p).notes n = 1) ∧ (annotateBoard b p).noteCount = 9)) ∧
    (∀ b g, PlacedEmpty b → PlacedEmpty (updateSet b g).2) ∧
    (∀ b, PlacedEmpty b → PlacedEmpty (updateAll b).2) ∧
    (∀ b p v, PlacedEmpty b → PlacedEmpty (assignValue b p v)) ∧
    (∀ fuel b cells chk r, PlacedEmpty b → solveSet fuel b cells chk = some r →
      PlacedEmpty r.2) ∧
    (∀ fuel b r, PlacedEmpty b → solveAll fuel b = some r → PlacedEmpty r.2) ∧
    (∀ fuel depth st r, PlacedEmpty st.board → guess (solveLoop fuel depth) st = some r →
      PlacedEmpty r.2.board) ∧
    (∀ fuel depth st r, PlacedEmpty st.board → solveLoop fuel depth st = some r →
      PlacedEmpty r.2.board) := by
  refine ⟨?_, fun b g h => (updateSet_shrink b g).placedEmpty h,
    fun b h => (updateAll_shrink b).placedEmpty h, fun b p v h => assignValue_placedEmpty h p v,
    ?_, ?_, ?_, ?_⟩
  · intro b p
    refine ⟨annotateBoard_value b p, ?_, ?_⟩
    · intro h
      simp [annotateBoard, h, setEmpty]
    · intro h
      simp [annotateBoard, h, setFull]
  · intro fuel b cells chk r hb h
    exact solveSet_preserves PlacedEmpty cells (fun _ _ h _ => assignValue_placedEmpty h _ _)
      (fun _ _ h _ => assignValue_placedEmpty h _ _) fuel b chk r hb h
  · intro fuel b r hb h
    exact solveAll_preserves PlacedEmpty solverInv_placedEmpty.note solverInv_placedEmpty.cell
      fuel b r hb h
  · intro fuel depth st r hb h
    exact guess_preserves _ _ solverInv_placedEmpty _
      (fun st2 r2 h2 e2 => solveLoop_preserves _ _ solverInv_placedEmpty fuel depth st2 r2 h2 e2)
      st r hb h
  · intro fuel depth st r hb h
    exact solveLoop_preserves _ _ solverInv_placedEmpty fuel depth st r hb h

/-- C9. On a count-consistent board each of updateSet, updateAll, assignValue,
solveSet and solveAll leaves every cell with a candidate set contained in the
one it had before and with a noteCount that is not larger. -/
theorem monotonicity (b : Board) (hb : CountConsistent b) :
    (∀ g, NotesShrink b (updateSet b g).2) ∧
    NotesShrink b (updateAll b).2 ∧
    (∀ p v, NotesShrink b (assignValue b p v)) ∧
    (∀ fuel cells chk r, solveSet fuel b cells chk = some r → NotesShrink b r.2) ∧
    (∀ fuel r, solveAll fuel b = some r → NotesShrink b r.2) := by
  have hq : ∀ b1 p v, (CountConsistent b1 ∧ NotesShrink b b1) →
      (CountConsistent (assignValue b1 p v) ∧ NotesShrink b (assignValue b1 p v)) :=
    fun b1 p v h => ⟨assignValue_cc h.1 p v, h.2.ns_trans (assignValue_notesShrink h.1 p v)⟩
  refine ⟨fun g => (updateSet_shrink b g).notesShrink hb, (updateAll_shrink b).notesShrink hb,
    fun p v => assignValue_notesShrink hb p v, ?_, ?_⟩
  · intro fuel cells chk r h
    exact (solveSet_preserves (fun b1 => CountConsistent b1 ∧ NotesShrink b b1) cells
      (fun b1 i h _ => hq b1 _ _ h) (fun b1 n h _ => hq b1 _ _ h) fuel b chk r
      ⟨hb, NotesShrink.ns_refl b⟩ h).2
  · intro fuel r h
    exact (solveAll_preserves (fun b1 => CountConsistent b1 ∧ NotesShrink b b1)
      (fun b1 g i h _ => hq b1 _ _ h) (fun b1 g n h _ => hq b1 _ _ h) fuel b r
      ⟨hb, NotesShrink.ns_refl b⟩ h).2


/-- C5. When guess returns -1 the board is the board at its entry, cell by
cell in value, noteCount and notes; after a failed trial the loop of guess
goes on from the entry board; and when solveLoop returns -1 the board is the
one at which the outermost guess was entered, that is the board the while loop
reaches by propagation alone. -/
theorem rollback_correct :
    (∀ (rc : State → Option (Int × State)) (st st2 : State),
      guess rc st = some (-1, st2) → st2.board = st.board ∧ SameBoard st2.board st.board) ∧
    (∀ (rc : State → Option (Int × State)) (copy : Board) (p : Ptr) (i : Fin 9)
      (rest : List (Fin 9)) (st : State) (v : Int) (st2 : State),
      (st.board p).notes i ≠ 0 →
      rc { board := assignValue st.board p ((i.val : Int) + 1), guesses := st.guesses + 1 } =
        some (v, st2) →
      v ≠ 0 →
      guessFrom rc copy p (i :: rest) st =
        guessFrom rc copy p rest { board := copy, guesses := st2.guesses }) ∧
    (∀ (fuel depth : Nat) (st st2 : State), solveLoop fuel depth st = some (-1, st2) →
      solveWhile fuel (fun s => some (-1, s)) fuel st =
        some (-1, { board := st2.board, guesses := st.guesses })) := by
  refine ⟨?_, ?_, ?_⟩
  · intro rc st st2 h
    have e := guess_fail rc st st2 h
    refine ⟨e, ?_⟩
    rw [e]
    exact fun p => ⟨rfl, rfl, fun _ => rfl⟩
  · intro rc copy p i rest st v st2 hn hrc hv
    rw [guessFrom_cons, if_pos hn, hrc]
    dsimp only
    rw [if_neg hv]
    rfl
  · intro fuel depth st st2 h
    cases depth with
    | zero =>
      rw [solveLoop_zero] at h
      exact solveWhile_fail fuel _ (fun _ _ hh => by cases hh) fuel st st2 h
    | succ depth =>
      rw [solveLoop_succ] at h
      exact solveWhile_fail fuel _ (fun s s2 hh => guess_fail _ s s2 hh) fuel st st2 h

set_option maxRecDepth 100000 in
theorem rollback_correct_witness :
    guess (fun s => some (-1, s)) { board := annotateBoard exampleInput, guesses := 0 } =
        some (-1, { board := annotateBoard exampleInput, guesses := 9 }) ∧
      ((annotateBoard exampleInput) = annotateBoard exampleInput ∧
        SameBoard (annotateBoard exampleInput) (annotateBoard exampleInput)) :=
  ⟨by decide, rollback_correct.1 (fun s => some (-1, s))
    { board := annotateBoard exampleInput, guesses := 0 }
    { board := annotateBoard exampleInput, guesses := 9 } (by decide)⟩

set_option maxRecDepth 100000 in
theorem testBoard_iff_witness :
    ValuesInRange exampleFull ∧ (testBoard exampleFull = true ↔
      (∀ p, (exampleFull p).value ≠ 0) ∧
      ∀ (i : Fin 27) (d : Fin 9),
        occurrences (fun p => (exampleFull p).value) i ((d.val : Int) + 1) = 1) :=
  ⟨by decide, testBoard_iff exampleFull (by decide)⟩

set_option maxRecDepth 100000 in
theorem count_consistency_witness :
    CountConsistent (annotateBoard exampleInput) ∧
      CountConsistent (updateAll (annotateBoard exampleInput)).2 :=
  ⟨by decide, count_consistency.2.2.1 (annotateBoard exampleInput) (by decide)⟩

set_option maxRecDepth 100000 in
theorem placed_cell_invariant_witness :
    PlacedEmpty (annotateBoard exampleInput) ∧
      PlacedEmpty (updateAll (annotateBoard exampleInput)).2 :=
  ⟨by decide, placed_cell_invariant.2.2.1 (annotateBoard exampleInput) (by decide)⟩

set_option maxRecDepth 100000 in
theorem monotonicity_witness :
    CountConsistent (annotateBoard exampleInput) ∧
      NotesShrink (annotateBoard exampleInput) (updateAll (annotateBoard exampleInput)).2 :=
  ⟨by decide, (monotonicity (annotateBoard exampleInput) (by decide)).2.1⟩


/-- C1. If solve returns 0 and testBoard is true on the final board, then the
final board is a valid completion of the input: every cell holds a digit 1..9,
each of the 27 sets contains each digit exactly once, and every given cell
still holds its given digit. -/
theorem solve_sound (b : Board) (hv : ValuesInRange b) (fuel depth : Nat) (st : State)
    (hs : solve fuel depth b = some (0, st)) (ht : testBoard st.board = true) :
    (∀ p, 1 ≤ (st.board p).value ∧ (st.board p).value ≤ 9) ∧
    (∀ (i : Fin 27) (d : Fin 9),
      occurrences (fun p => (st.board p).value) i ((d.val : Int) + 1) = 1) ∧
    (∀ p, (b p).value ≠ 0 → (st.board p).value = (b p).value) := by
  obtain ⟨-, -, hr, he⟩ := solve_invariant b hv fuel depth (0, st) hs
  refine ⟨?_, testBoard_occurrences ht, he⟩
  intro p
  have h0 := testBoard_full ht p
  have h1 := hr p
  dsimp only at h1
  omega

set_option maxRecDepth 1000000 in
theorem solve_sound_witness :
    (ValuesInRange exampleInput ∧
      solve 730 81 exampleInput = some (0, { board := exampleSolved, guesses := 0 }) ∧
      testBoard exampleSolved = true) ∧
    ((∀ p, 1 ≤ (exampleSolved p).value ∧ (exampleSolved p).value ≤ 9) ∧
    (∀ (i : Fin 27) (d : Fin 9),
      occurrences (fun p => (exampleSolved p).value) i ((d.val : Int) + 1) = 1) ∧
    (∀ p, (exampleInput p).value ≠ 0 → (exampleSolved p).value = (exampleInput p).value)) :=
  ⟨⟨by decide, exampleInput_solve, by decide⟩,
    solve_sound exampleInput (by decide) 730 81 { board := exampleSolved, guesses := 0 }
      exampleInput_solve (by decide)⟩

/-- C12. On an input that is already a valid full grid, solve returns 0 on the
first test of the while loop, whatever guess would do (it is not entered), the
guess counter is 0, every value is unchanged and testBoard is true. -/
theorem solved_input (b : Board) (hfull : ∀ p, (b p).value ≠ 0)
    (hvalid : ∀ (i : Fin 27) (d : Fin 9),
      occurrences (fun p => (b p).value) i ((d.val : Int) + 1) = 1)
    (fuel depth : Nat) (hf : 0 < fuel) :
    solve fuel depth b = some (0, { board := annotateBoard b, guesses := 0 }) ∧
    (∀ gr : State → Option (Int × State),
      solveWhile fuel gr fuel { board := annotateBoard b, guesses := 0 } =
        some (0, { board := annotateBoard b, guesses := 0 })) ∧
    (∀ p, (annotateBoard b p).value = (b p).value) ∧
    testBoard (annotateBoard b) = true := by
  have ht : trivialTest (annotateBoard b) = true := by
    rw [trivialTest_iff]
    intro p; rw [annotateBoard_value]; exact hfull p
  have hw : ∀ gr : State → Option (Int × State),
      solveWhile fuel gr fuel { board := annotateBoard b, guesses := 0 } =
        some (0, { board := annotateBoard b, guesses := 0 }) := by
    intro gr
    obtain ⟨k, rfl⟩ : ∃ k, fuel = k + 1 := ⟨fuel - 1, by omega⟩
    rw [solveWhile_succ]
    dsimp only
    rw [if_neg (by rw [ht]; exact Bool.noConfusion)]
  refine ⟨?_, hw, annotateBoard_value b, ?_⟩
  · unfold solve
    cases depth with
    | zero => rw [solveLoop_zero]; exact hw _
    | succ d => rw [solveLoop_succ]; exact hw _
  · rw [testBoard_eq_true_iff]
    refine ⟨fun p => by rw [annotateBoard_value]; exact hfull p, ?_⟩
    intro i d
    have := hvalid i d
    simp only [annotateBoard_value]
    exact this

set_option maxRecDepth 1000000 in
theorem solved_input_witness :
    ((∀ p, (exampleFull p).value ≠ 0) ∧
      (∀ (i : Fin 27) (d : Fin 9),
        occurrences (fun p => (exampleFull p).value) i ((d.val : Int) + 1) = 1) ∧ 0 < 730) ∧
    (solve 730 81 exampleFull = some (0, { board := annotateBoard exampleFull, guesses := 0 }) ∧
    (∀ gr : State → Option (Int × State),
      solveWhile 730 gr 730 { board := annotateBoard exampleFull, guesses := 0 } =
        some (0, { board := annotateBoard exampleFull, guesses := 0 })) ∧
    (∀ p, (annotateBoard exampleFull p).value = (exampleFull p).value) ∧
    testBoard (annotateBoard exampleFull) = true) :=
  ⟨⟨by decide, by decide, by decide⟩,
    solved_input exampleFull (by decide) (by decide) 730 81 (by decide)⟩


/-- C21. On an input without two equal digits in a common set, the invariant
ConflictFree (count consistency, placed-cell invariant, values in 0..9 and no
two cells of a set with the same non-zero value) holds after annotateBoard and
is maintained at every point of the run: at the head of the while loop, after
updateAll, and after every assignment of solveAll and of guess; the board of
every result has no conflict and placed values in 1..9; and when solve returns
0 testBoard is true. -/
theorem no_conflict_introduced (b : Board) (hw : WellFormed b) (hv : ValuesInRange b)
    (hk : NoConflict b) :
    ConflictFree (annotateBoard b) ∧
    SolverInv ConflictFree ConflictFreeFix ∧
    (∀ fuel depth r, solve fuel depth b = some r →
      NoConflict r.2.board ∧
        ∀ p, (r.2.board p).value ≠ 0 → 1 ≤ (r.2.board p).value ∧ (r.2.board p).value ≤ 9) ∧
    (∀ fuel depth st, solve fuel depth b = some (0, st) → testBoard st.board = true) := by
  have h0 := annotateBoard_conflictFree hw hv hk
  have hres : ∀ fuel depth r, solve fuel depth b = some r → ConflictFree r.2.board := by
    intro fuel depth r h
    unfold solve at h
    exact solveLoop_preserves _ _ solverInv_conflictFree fuel depth _ r h0 h
  refine ⟨h0, solverInv_conflictFree, ?_, ?_⟩
  · intro fuel depth r h
    have h1 := hres fuel depth r h
    refine ⟨h1.2.2.2.2, ?_⟩
    intro p hp
    have := h1.2.2.2.1 p
    omega
  · intro fuel depth st h
    have h1 := hres fuel depth (0, st) h
    unfold solve at h
    exact full_noConflict_testBoard (solveLoop_zero_full fuel depth _ st h) h1.2.2.2.1
      h1.2.2.2.2

set_option maxRecDepth 1000000 in
theorem no_conflict_introduced_witness :
    (WellFormed exampleInput ∧ ValuesInRange exampleInput ∧ NoConflict exampleInput) ∧
    (ConflictFree (annotateBoard exampleInput) ∧
    SolverInv ConflictFree ConflictFreeFix ∧
    (∀ fuel depth r, solve fuel depth exampleInput = some r →
      NoConflict r.2.board ∧
        ∀ p, (r.2.board p).value ≠ 0 → 1 ≤ (r.2.board p).value ∧ (r.2.board p).value ≤ 9) ∧
    (∀ fuel depth st, solve fuel depth exampleInput = some (0, st) →
      testBoard st.board = true)) :=
  ⟨⟨by decide, by decide, by decide⟩,
    no_conflict_introduced exampleInput (by decide) (by decide) (by decide)⟩

/-- C22. Index safety of groupCheck: on a board with consistent note counts
and empty placed cells, for every group, all through groupCheck the number of
entries of indices stays at most the allocated length, the noteCount of
cells[i], which does not change while its inner loop runs; a cell that
matches cells[i] is only found while fewer entries than that are written, so
no cell matches once the subset was cancelled; and whenever groupCancel runs,
the number of notes of cells[indices[0]] written to noteValues is the
allocated length noteCount. -/
theorem groupCheck_index_safe (b : Board) (hc : CountConsistent b) (hp : PlacedEmpty b)
    (g : Fin 27) : GroupSafe (paths g) (List.finRange 9) (0, b) :=
  groupSafe_of_inv (paths g) (fun x y h => paths_injective g x y h) (List.finRange 9) (0, b) hc hp

set_option maxRecDepth 1000000 in
theorem groupCheck_index_safe_witness :
    (CountConsistent (annotateBoard exampleInput) ∧ PlacedEmpty (annotateBoard exampleInput)) ∧
    GroupSafe (paths 0) (List.finRange 9) (0, annotateBoard exampleInput) :=
  ⟨⟨by decide, by decide⟩,
    groupCheck_index_safe (annotateBoard exampleInput) (by decide) (by decide) 0⟩

set_option maxRecDepth 100000 in
/-- C16, as stated, fails. On pairBoard, whose first row holds a placed 1 and a
pair of cells with the notes 2 and 3, singleCheck removes a note, so updateSet
returns at once: the note 2 of the fourth cell is still set, while after both
passes it is cleared. -/
theorem updateSet_skips_groupCheck :
    CountConsistent pairBoard ∧ PlacedEmpty pairBoard ∧
    ((updateSet pairBoard 0).2 (0, 3)).notes 1 = 1 ∧
    ((updateSetBothPasses pairBoard 0).2 (0, 3)).notes 1 = 0 ∧
    (updateSet pairBoard 0).2 ≠ (updateSetBothPasses pairBoard 0).2 := by
  have h1 : ((updateSet pairBoard 0).2 (0, 3)).notes 1 = 1 := by decide
  have h2 : ((updateSetBothPasses pairBoard 0).2 (0, 3)).notes 1 = 0 := by decide
  refine ⟨by decide, by decide, h1, h2, ?_⟩
  intro h
  rw [h, h2] at h1
  exact absurd h1 (by decide)

/-- C16, amended. On a board with consistent note counts and empty placed
cells updateSet runs singleCheck, and groupCheck only when singleCheck removed
no note: if singleCheck removed a note, the result is 1 with the board of
singleCheck; otherwise the board is that of groupCheck, which is the board of
both passes, and the result is non-zero exactly when groupCheck removed a note,
as for both passes. In every case the result is 0 or 1 and non-zero exactly
when a note was removed. On the board that singleCheck leaves, every write of
groupCheck to indices and of groupCancel to noteValues stays inside the
allocated length, so that the run of groupCheck is the one described here. -/
theorem updateSet_passes (b : Board) (hc : CountConsistent b) (hp : PlacedEmpty b)
    (g : Fin 27) :
    ((singleCheck b (paths g)).1 ≠ 0 ↔ Changed b (singleCheck b (paths g)).2) ∧
    (Changed b (singleCheck b (paths g)).2 →
      updateSet b g = (1, (singleCheck b (paths g)).2)) ∧
    (¬ Changed b (singleCheck b (paths g)).2 →
      (updateSet b g).2 = (groupCheck b (paths g)).2 ∧
      ((updateSet b g).1 ≠ 0 ↔ Changed b (groupCheck b (paths g)).2) ∧
      (updateSet b g).2 = (updateSetBothPasses b g).2 ∧
      ((updateSet b g).1 ≠ 0 ↔ (updateSetBothPasses b g).1 ≠ 0)) ∧
    ((updateSet b g).1 ≠ 0 ↔ Changed b (updateSet b g).2) ∧
    ((updateSet b g).1 = 0 ∨ (updateSet b g).1 = 1) ∧
    GroupSafe (paths g) (List.finRange 9) (0, (singleCheck b (paths g)).2) := by
  have hz := hc.cc_zeroOne
  have hsafe : GroupSafe (paths g) (List.finRange 9) (0, (singleCheck b (paths g)).2) := by
    have hsh := (singleCheck_spec b (paths g)).1.1
    have hc1 := hsh.sh_cc hc
    have hp1 := hsh.placedEmpty hp
    refine groupSafe_of_inv (paths g) (fun x y h => paths_injective g x y h) (List.finRange 9)
      (0, (singleCheck b (paths g)).2) ?_ ?_
    · dsimp only; exact hc1
    · dsimp only; exact hp1
  have hs : (singleCheck b (paths g)).1 ≠ 0 ↔ Changed b (singleCheck b (paths g)).2 :=
    updSpec_changed_iff (singleCheck_spec b (paths g)).1
  have hu : (updateSet b g).1 ≠ 0 ↔ Changed b (updateSet b g).2 :=
    updSpec_changed_iff (updateSet_updSpec b hz g)
  refine ⟨hs, ?_, ?_, hu, updateSet_result b g, hsafe⟩
  · intro h
    have hne := hs.mpr h
    unfold updateSet
    dsimp only
    rw [if_pos hne]
  · intro h
    have h0 : (singleCheck b (paths g)).1 = 0 := by
      by_contra hne
      exact h (hs.mp hne)
    have hb : (singleCheck b (paths g)).2 = b := (singleCheck_spec b (paths g)).1.2.2.1 h0
    have hg : (groupCheck b (paths g)).1 ≠ 0 ↔ Changed b (groupCheck b (paths g)).2 :=
      updSpec_changed_iff ((groupCheck_updSpecZ b (paths g)).2 hz)
    have e1 : (updateSet b g).2 = (groupCheck b (paths g)).2 := by
      unfold updateSet
      dsimp only
      rw [if_neg (not_not.mpr h0), hb]
      split <;> rfl
    have e2 : (updateSet b g).1 ≠ 0 ↔ (groupCheck b (paths g)).1 ≠ 0 := by
      unfold updateSet
      dsimp only
      rw [if_neg (not_not.mpr h0), hb]
      split
      · rename_i hne
        simp [hne]
      · rename_i hne
        simp [hne]
    have e3 : (updateSetBothPasses b g).2 = (groupCheck b (paths g)).2 := by
      unfold updateSetBothPasses
      dsimp only
      rw [hb]
    have e4 : (updateSetBothPasses b g).1 ≠ 0 ↔ (groupCheck b (paths g)).1 ≠ 0 := by
      unfold updateSetBothPasses
      dsimp only
      rw [hb, h0]
      by_cases hne : (groupCheck b (paths g)).1 ≠ 0
      · simp [hne]
      · simp [hne]
    exact ⟨e1, e2.trans hg, e1.trans e3.symm, e2.trans e4.symm⟩

set_option maxRecDepth 100000 in
theorem updateSet_passes_witness :
    (CountConsistent pairBoard ∧ PlacedEmpty pairBoard) ∧
    updateSet pairBoard 0 = (1, (singleCheck pairBoard (paths 0)).2) :=
  ⟨⟨by decide, by decide⟩, (updateSet_passes pairBoard (by decide) (by decide) 0).2.1
    ⟨(0, 3), 0, by decide, by decide⟩⟩

set_option maxRecDepth 100000 in
/-- C15, as stated, fails. On deadCellBoard an empty cell with a non-zero
noteCount exists, but bestGuess returns the first cell, whose noteCount is 0;
on lateSingleBoard the empty cell in row 1, column 5 has noteCount 1, but
bestGuess returns the first cell, whose noteCount is 2. -/
theorem bestGuess_not_smallest_positive :
    (CountConsistent deadCellBoard ∧ PlacedEmpty deadCellBoard ∧
      ((deadCellBoard (0, 1)).value = 0 ∧ (deadCellBoard (0, 1)).noteCount = 9) ∧
      bestGuess deadCellBoard = (0, 0) ∧
      (deadCellBoard (bestGuess deadCellBoard)).noteCount = 0) ∧
    (CountConsistent lateSingleBoard ∧ PlacedEmpty lateSingleBoard ∧
      ((lateSingleBoard (1, 5)).value = 0 ∧ (lateSingleBoard (1, 5)).noteCount = 1) ∧
      bestGuess lateSingleBoard = (0, 0) ∧
      (lateSingleBoard (bestGuess lateSingleBoard)).noteCount = 2) := by
  refine ⟨⟨by decide, by decide, by decide, by decide, by decide⟩,
    ⟨by decide, by decide, by decide, by decide, by decide⟩⟩

/-- C15, amended. On a board with consistent note counts that has an empty
cell, and on which every empty cell has at least two notes or no empty cell has
exactly two, bestGuess returns an empty cell whose noteCount is the smallest
among all empty cells (0 included), and the first such cell in row-major
order. -/
theorem bestGuess_first_min (b : Board) (hc : CountConsistent b)
    (hex : ∃ p, (b p).value = 0) (hH : BreakHarmless b) :
    (b (bestGuess b)).value = 0 ∧
    (∀ q, (b q).value = 0 → (b (bestGuess b)).noteCount ≤ (b q).noteCount) ∧
    (∀ q, (b q).value = 0 → (b q).noteCount = (b (bestGuess b)).noteCount →
      rowMajor (bestGuess b) ≤ rowMajor q) := by
  refine bestGuess_spec b hH ?_
  obtain ⟨p, hp⟩ := hex
  have := cellCC_noteCount_le (hc p)
  exact ⟨p, hp, by omega⟩

set_option maxRecDepth 100000 in
theorem bestGuess_first_min_witness :
    (CountConsistent pairBoard ∧ (∃ p, (pairBoard p).value = 0) ∧ BreakHarmless pairBoard) ∧
    bestGuess pairBoard = (0, 1) ∧
    ((pairBoard (bestGuess pairBoard)).value = 0 ∧
    (∀ q, (pairBoard q).value = 0 →
      (pairBoard (bestGuess pairBoard)).noteCount ≤ (pairBoard q).noteCount) ∧
    (∀ q, (pairBoard q).value = 0 →
      (pairBoard q).noteCount = (pairBoard (bestGuess pairBoard)).noteCount →
      rowMajor (bestGuess pairBoard) ≤ rowMajor q)) :=
  ⟨⟨by decide, ⟨(0, 1), by decide⟩, by decide⟩, by decide,
    bestGuess_first_min pairBoard (by decide) ⟨(0, 1), by decide⟩ (by decide)⟩

/-- C19. On a board with consistent note counts, for a cell that stores its
coordinates (r, c) and a digit v = m + 1 in 1..9, after assignValue the cell
has value v, no note and noteCount 0; the values of all other cells are
unchanged; no empty cell of row r, of column c or of the box of (r, c) has the
note of v; assignValue stores the value and then updates the three sets r,
c + 9 and getSq(r, c) + 18, and these are exactly the sets that contain the
cell. -/
theorem assignValue_post (b : Board) (hc : CountConsistent b) (p : Ptr)
    (hr : (b p).row = p.1) (hcl : (b p).col = p.2) (m : Fin 9) :
    (assignValue b p ((m.val : Int) + 1) p).value = (m.val : Int) + 1 ∧
    (∀ n, (assignValue b p ((m.val : Int) + 1) p).notes n = 0) ∧
    (assignValue b p ((m.val : Int) + 1) p).noteCount = 0 ∧
    (∀ q, q ≠ p → (assignValue b p ((m.val : Int) + 1) q).value = (b q).value) ∧
    (∀ q : Ptr, (q.1 = p.1 ∨ q.2 = p.2 ∨ getSq q.1.val q.2.val = getSq p.1.val p.2.val) →
      (assignValue b p ((m.val : Int) + 1) q).value = 0 →
      (assignValue b p ((m.val : Int) + 1) q).notes m = 0) ∧
    (∃ g1 g2 g3 : Fin 27, g1.val = p.1.val ∧ g2.val = p.2.val + 9 ∧
      g3.val = getSq p.1.val p.2.val + 18 ∧
      assignValue b p ((m.val : Int) + 1) =
        (updateSet (updateSet (updateSet (storeValue b p ((m.val : Int) + 1)) g1).2 g2).2 g3).2) ∧
    (∀ g : Fin 27, (∃ y, paths g y = p) ↔
      (g.val = p.1.val ∨ g.val = p.2.val + 9 ∨ g.val = getSq p.1.val p.2.val + 18)) := by
  refine ⟨assignValue_value_same b p _, assignValue_notes_same b p _,
    assignValue_noteCount_same b p _ (by omega),
    fun q hq => assignValue_value_other b p q _ hq, ?_, ?_, paths_contains p⟩
  · intro q hq hv
    have hcont : ∃ g : Fin 27, (∃ x, paths g x = q) ∧ ∃ y, paths g y = p := by
      rcases hq with e | e | e
      · refine ⟨⟨p.1.val, by omega⟩, (paths_contains q _).mpr (Or.inl ?_),
          (paths_contains p _).mpr (Or.inl rfl)⟩
        exact (congrArg Fin.val e).symm
      · refine ⟨⟨p.2.val + 9, by omega⟩, (paths_contains q _).mpr (Or.inr (Or.inl ?_)),
          (paths_contains p _).mpr (Or.inr (Or.inl rfl))⟩
        exact (congrArg (fun z : Fin 9 => z.val + 9) e).symm
      · refine ⟨⟨getSq p.1.val p.2.val + 18, by unfold getSq; omega⟩,
          (paths_contains q _).mpr (Or.inr (Or.inr ?_)),
          (paths_contains p _).mpr (Or.inr (Or.inr rfl))⟩
        exact (congrArg (fun z : Nat => z + 18) e).symm
    obtain ⟨g, ⟨x, hx⟩, ⟨y, hy⟩⟩ := hcont
    subst hx
    exact assignValue_clears_at b hc p hr hcl m g x y hy hv
  · unfold assignValue
    exact updateCell_sets _ p (by rw [storeValue_same]; exact hr)
      (by rw [storeValue_same]; exact hcl)

set_option maxRecDepth 1000000 in
theorem assignValue_post_witness :
    (CountConsistent pairBoard ∧ (pairBoard (0, 1)).row = 0 ∧ (pairBoard (0, 1)).col = 1) ∧
    (assignValue pairBoard (0, 1) 3 (0, 1)).value = 3 ∧
    (assignValue pairBoard (0, 1) 3 (0, 2)).notes 2 = 0 ∧
    (assignValue pairBoard (0, 1) 3 (0, 2)).notes 1 = 1 ∧
    (assignValue pairBoard (0, 1) 3 (0, 1)).noteCount = 0 :=
  ⟨⟨by decide, by decide, by decide⟩,
    (assignValue_post pairBoard (by decide) (0, 1) (by decide) (by decide) 2).1,
    (assignValue_post pairBoard (by decide) (0, 1) (by decide) (by decide) 2).2.2.2.2.1 (0, 2)
      (Or.inl rfl) (by decide),
    by decide,
    (assignValue_post pairBoard (by decide) (0, 1) (by decide) (by decide) 2).2.2.1⟩

/-- C18. On a board with consistent note counts and empty placed cells, for
every group, solveSet ends (more fuel than notes on the board, at most 729, is
enough); its result board is reached by k calls of assignValue, each giving a
cell that is empty at that moment one of its notes of that moment, and k is the
number of cells it filled; it returns 0 with k = 0 and the board unchanged, or
1 with k at least 1; on return no cell of the group has noteCount 1 and no
digit is a note of exactly one cell of the group. -/
theorem solveSet_fixpoint (b : Board) (hc : CountConsistent b) (hp : PlacedEmpty b)
    (g : Fin 27) :
    (∀ fuel, noteTotal b < fuel → ∃ r, solveSet fuel b (paths g) 0 = some r) ∧
    noteTotal b < 730 ∧
    (∀ fuel r, solveSet fuel b (paths g) 0 = some r →
      ∃ k, AssignSteps b k r.2 ∧ emptyCount r.2 + k = emptyCount b ∧
        ((r.1 = 0 ∧ k = 0 ∧ r.2 = b) ∨ (r.1 = 1 ∧ 0 < k)) ∧
        (∀ i, (r.2 (paths g i)).noteCount ≠ 1) ∧
        (∀ n : Fin 9,
          (Finset.univ.filter fun i : Fin 9 => (r.2 (paths g i)).notes n ≠ 0).card ≠ 1)) := by
  refine ⟨fun fuel hf => solveSet_terminates (paths g) fuel b 0 hc hp hf,
    Nat.lt_succ_of_le (noteTotal_le_729 b), ?_⟩
  intro fuel r h
  obtain ⟨k, hk, hr, hnote, hcell⟩ := solveSet_result (paths g) fuel b 0 r hc hp h
  refine ⟨k, hk, hk.as_emptyCount, ?_, hnote, fun n => countNote_ne_one r.2 (paths g) n (hcell n)⟩
  rcases hr with ⟨e1, e2⟩ | h2
  · left
    subst e2
    exact ⟨e1, rfl, hk.zero_eq⟩
  · exact Or.inr h2

set_option maxRecDepth 100000 in
theorem solveSet_fixpoint_witness :
    (CountConsistent pairBoard ∧ PlacedEmpty pairBoard) ∧
    ∃ r, solveSet 730 pairBoard (paths 0) 0 = some r :=
  ⟨⟨by decide, by decide⟩,
    (solveSet_fixpoint pairBoard (by decide) (by decide) 0).1 730
      (Nat.lt_succ_of_le (noteTotal_le_729 pairBoard))⟩

/-- C20. Trial order and counter of guess: guess tries the notes of the chosen
cell, as they are on the entry board, in strictly increasing order, and does
what guessTrials says: before each trial the counter goes up by one, a trial
whose solve loop returns 0 ends the call with the state as the loop left it,
and -1 is returned after the last note with the entry board. The result is 0
or -1; when the recursive loop never lowers the counter, the counter grows by
at least 1 on result 0 and by at least the number of notes on result -1.
solveLoop never lowers the counter and only adds to it, and so each trial adds
one plus the number of trials made inside its recursive call, rolled back or
not. -/
theorem guess_trial_order :
    (∀ (rc : State → Option (Int × State)) (st : State),
      guess rc st = guessTrials rc st.board (bestGuess st.board)
        (noteValuesOf (st.board (bestGuess st.board))) st.guesses) ∧
    (∀ c : Cell, (noteValuesOf c).Pairwise (fun x y => x < y) ∧
      ∀ i, i ∈ noteValuesOf c ↔ c.notes i ≠ 0) ∧
    (∀ (rc : State → Option (Int × State)) (st : State) (r : Int × State),
      guess rc st = some r → r.1 = 0 ∨ r.1 = -1) ∧
    (∀ rc : State → Option (Int × State),
      (∀ st r, rc st = some r → st.guesses ≤ r.2.guesses) →
      ∀ st r, guess rc st = some r →
        st.guesses + (if r.1 = 0 then 1
          else ((noteValuesOf (st.board (bestGuess st.board))).length : Int)) ≤ r.2.guesses) ∧
    (∀ (fuel depth : Nat) (st : State) (r : Int × State),
      solveLoop fuel depth st = some r → st.guesses ≤ r.2.guesses) ∧
    (∀ fuel depth : Nat, Counting (solveLoop fuel depth)) ∧
    (∀ rc : State → Option (Int × State), Counting rc →
      ∀ (entry : Board) (p : Ptr) (i : Fin 9) (rest : List (Fin 9)) (g : Int),
      guessTrials rc entry p (i :: rest) g =
        match rc { board := assignValue entry p ((i.val : Int) + 1), guesses := 0 } with
        | none => none
        | some (v, st2) =>
          if v = 0 then some (0, { board := st2.board, guesses := st2.guesses + (g + 1) })
          else guessTrials rc entry p rest (st2.guesses + (g + 1))) := by
  refine ⟨guess_eq_trials, fun c => ⟨noteValuesOf_increasing c, mem_noteValuesOf c⟩, ?_, ?_,
    solveLoop_grows, solveLoop_counting, fun rc hrc => guessTrials_count rc hrc⟩
  · intro rc st r h
    unfold guess at h
    exact guessFrom_result rc _ _ _ st r h
  · intro rc hrc st r h
    rw [guess_eq_trials] at h
    exact guessTrials_grows rc hrc _ _ _ _ r h

set_option maxRecDepth 100000 in
theorem guess_trial_order_witness :
    bestGuess pairBoard = (0, 1) ∧
    noteValuesOf (pairBoard (0, 1)) = [1, 2] ∧
    guess (fun s => some (-1, s)) { board := pairBoard, guesses := 0 } =
      some (-1, { board := pairBoard, guesses := 2 }) ∧
    (0 : Int) + (if (-1 : Int) = 0 then 1
      else ((noteValuesOf (pairBoard (bestGuess pairBoard))).length : Int)) ≤ 2 :=
  ⟨by decide, by decide, by decide,
    guess_trial_order.2.2.2.1 (fun s => some (-1, s))
      (fun st r h => by cases h; exact le_refl _)
      { board := pairBoard, guesses := 0 } (-1, { board := pairBoard, guesses := 2 })
      (by decide)⟩

set_option maxRecDepth 1000000 in
/-- C13, as stated, fails. The text malformedInput is one line of 81 tokens of
which the first is a letter, the second the digit 0 and the third two digits;
initBoard returns 0 on it and stores 0, 0 and 1 in the first three cells. -/
theorem initBoard_accepts_malformed :
    (initBoard blankBoard blankBoard malformedInput).1 = 0 ∧
    ((initBoard blankBoard blankBoard malformedInput).2 (0, 0)).value = 0 ∧
    ((initBoard blankBoard blankBoard malformedInput).2 (0, 1)).value = 0 ∧
    ((initBoard blankBoard blankBoard malformedInput).2 (0, 2)).value = 1 := by
  refine ⟨by decide, by decide, by decide, by decide⟩

/-- C13, amended. The function initBoard returns -1 exactly when the text holds
fewer than 81 commas, and 0 otherwise; a character that is neither a comma nor
a digit 1..9, and every character other than a comma after the first digit of
a cell, is skipped. -/
theorem initBoard_rejects (junk : Ptr → Cell) (start : Board) (input : List Char) :
    ((initBoard junk start input).1 = -1 ↔ input.count ',' < 81) ∧
    ((initBoard junk start input).1 = 0 ↔ 81 ≤ input.count ',') ∧
    (∀ (s : LoadState) (h : s.i < 81) (c : Char), c ≠ ',' →
      (¬ ('1' ≤ c ∧ c ≤ '9') ∨ s.modified ≠ 0) → initBody junk s h c = s) := by
  have h := initBoard_result junk start input
  refine ⟨?_, ?_, fun s h c hc hd => initBody_skip junk s h c hc hd⟩
  · rw [h]
    by_cases hc : input.count ',' < 81
    · simp [hc]
    · simp [hc]
  · rw [h]
    by_cases hc : input.count ',' < 81
    · simp [hc]
    · simp [hc]
      omega

/-- C14. Text round trip: for a board whose values lie in 0..9 and every count
of guesses, initBoard accepts the text that outputBoard writes and stores in
every cell the value of the board and the coordinates of the cell, which are
the row and col of the board when these are its coordinates. -/
theorem output_roundtrip (junk : Ptr → Cell) (start : Board) (b : Board)
    (hv : ValuesInRange b) (guesses : Int) :
    (initBoard junk start (outputBoard b guesses)).1 = 0 ∧
    (∀ p, ((initBoard junk start (outputBoard b guesses)).2 p).value = (b p).value ∧
      ((initBoard junk start (outputBoard b guesses)).2 p).row = p.1 ∧
      ((initBoard junk start (outputBoard b guesses)).2 p).col = p.2) ∧
    (WellFormed b → ∀ p,
      ((initBoard junk start (outputBoard b guesses)).2 p).row = (b p).row ∧
      ((initBoard junk start (outputBoard b guesses)).2 p).col = (b p).col) := by
  obtain ⟨h1, h2⟩ := initLoop_output junk start b hv guesses
  have hb : ∀ p, (initBoard junk start (outputBoard b guesses)).2 p =
      loadedCell junk p (b p).value := by
    intro p
    unfold initBoard
    dsimp only
    exact h2 p
  refine ⟨?_, ?_, ?_⟩
  · unfold initBoard
    dsimp only
    rw [h1]
    rfl
  · intro p
    rw [hb p]
    exact ⟨rfl, rfl, rfl⟩
  · intro hw p
    rw [hb p, (hw p).1, (hw p).2]
    exact ⟨rfl, rfl⟩

set_option maxRecDepth 1000000 in
theorem output_roundtrip_witness :
    ValuesInRange exampleInput ∧
    (initBoard blankBoard blankBoard (outputBoard exampleInput 5)).1 = 0 ∧
    ((initBoard blankBoard blankBoard (outputBoard exampleInput 5)).2 (4, 4)).value = 0 ∧
    ((initBoard blankBoard blankBoard (outputBoard exampleInput 5)).2 (4, 5)).value = 1 :=
  ⟨by decide, (output_roundtrip blankBoard blankBoard exampleInput (by decide) 5).1,
    by decide, by decide⟩

/-- C3. Termination: for every input board solve ends with result 0 or -1
(fuel 730 for every loop and 81 nested calls of guess are enough). A pass of
the while loop in which updateAll returns non-zero removes a note; one in which
solveAll returns non-zero fills a cell and removes a note; every trial of guess
starts the recursive solveLoop with one empty cell less; a board has at most 81
empty cells and 729 notes, and a cell at most 9 notes to try. -/
theorem solve_terminates (b : Board) :
    (∀ fuel depth, 730 ≤ fuel → 81 ≤ depth →
      ∃ r, solve fuel depth b = some r ∧ (r.1 = 0 ∨ r.1 = -1)) ∧
    (∀ c, CountConsistent c → (updateAll c).1 ≠ 0 →
      noteTotal (updateAll c).2 < noteTotal c ∧ emptyCount (updateAll c).2 = emptyCount c) ∧
    (∀ c fuel s c2, CountConsistent c → PlacedEmpty c → solveAll fuel c = some (s, c2) →
      s ≠ 0 → emptyCount c2 < emptyCount c ∧ noteTotal c2 < noteTotal c) ∧
    (∀ (c : Board) (p : Ptr) (i : Fin 9), PlacedEmpty c → (c p).notes i ≠ 0 →
      emptyCount (assignValue c p ((i.val : Int) + 1)) + 1 = emptyCount c) ∧
    (∀ c : Board, emptyCount c ≤ 81 ∧ noteTotal c ≤ 729) ∧
    (∀ c : Cell, (noteValuesOf c).length ≤ 9) := by
  refine ⟨?_, ?_, ?_, ?_, fun c => ⟨emptyCount_le_81 c, noteTotal_le_729 c⟩,
    noteValuesOf_length_le⟩
  · intro fuel depth hf hd
    unfold solve
    refine solveLoop_terminates fuel hf depth _ (annotateBoard_cc b) (annotateBoard_placedEmpty b) ?_
    have := emptyCount_le_81 (annotateBoard b)
    dsimp only
    omega
  · intro c hc h
    exact ⟨updateAll_noteTotal_lt c hc h, (updateAll_shrink c).sh_emptyCount⟩
  · intro c fuel s c2 hc hp h hs
    obtain ⟨k, hk, hr⟩ := solveAll_steps fuel c (s, c2) hc hp h
    dsimp only at hk hr
    have h1 := hk.as_emptyCount
    have h2 := hk.as_noteTotal
    have hkpos : 0 < k := by
      rcases hr with ⟨e, -⟩ | ⟨-, e⟩
      · exact absurd e hs
      · exact e
    constructor <;> omega
  · intro c p i hp hi
    exact assignValue_emptyCount c p _ (by omega) (placedEmpty_unplaced hp (Or.inr ⟨i, hi⟩))

theorem solve_terminates_witness :
    ∃ r, solve 730 81 exampleInput = some r ∧ (r.1 = 0 ∨ r.1 = -1) :=
  (solve_terminates exampleInput).1 730 81 (le_refl _) (le_refl _)

/-- C11. Contradictory input: when two given cells of one row hold the same
digit, solve ends with result 0 or -1, and it is never the case that solve
returns 0 and testBoard is true on the board it leaves. -/
theorem contradictory_input (b : Board) (hv : ValuesInRange b) (r c1 c2 : Fin 9)
    (hne : c1 ≠ c2) (h1 : (b (r, c1)).value ≠ 0)
    (h2 : (b (r, c1)).value = (b (r, c2)).value) :
    (∀ fuel depth, 730 ≤ fuel → 81 ≤ depth →
      ∃ res, solve fuel depth b = some res ∧ (res.1 = 0 ∨ res.1 = -1)) ∧
    (∀ fuel depth st, ¬ (solve fuel depth b = some (0, st) ∧ testBoard st.board = true)) := by
  constructor
  · intro fuel depth hf hd
    unfold solve
    refine solveLoop_terminates fuel hf depth _ (annotateBoard_cc b) (annotateBoard_placedEmpty b) ?_
    have := emptyCount_le_81 (annotateBoard b)
    dsimp only
    omega
  · rintro fuel depth st ⟨hs, ht⟩
    obtain ⟨-, -, hr, he⟩ := solve_invariant b hv fuel depth (0, st) hs
    have e1 := paths_row (r, c1)
    have e2 := paths_row (r, c2)
    dsimp only at e1 e2
    refine testBoard_clash he hr ⟨r.val, by omega⟩ c1 c2 hne ?_ ?_ ht
    · rw [e1]; exact h1
    · rw [e1, e2]; exact h2

set_option maxRecDepth 100000 in
theorem contradictory_input_witness :
    (ValuesInRange clashBoard ∧ (clashBoard (0, 0)).value ≠ 0 ∧
      (clashBoard (0, 0)).value = (clashBoard (0, 1)).value) ∧
    ∀ fuel depth st,
      ¬ (solve fuel depth clashBoard = some (0, st) ∧ testBoard st.board = true) :=
  ⟨⟨by decide, by decide, by decide⟩,
    (contradictory_input clashBoard (by decide) 0 0 1 (by decide) (by decide) (by decide)).2⟩

/-- C17. Propagation fixpoint: on a board with consistent note counts updateAll
returns 0 exactly when it leaves the board as it is, and when it returns 0 no
empty cell has as a candidate a digit placed in one of its sets, and for every
set of k at least 2 empty cells of a group whose candidate sets are the same
and have k digits, no other empty cell of the group has one of these digits as
a candidate. -/
theorem updateAll_fixpoint (b : Board) (hc : CountConsistent b) :
    ((updateAll b).1 = 0 ↔ (updateAll b).2 = b) ∧
    ((updateAll b).1 = 0 → NoPlacedCand b ∧ NakedFix b) := by
  have hu := updateAll_updSpec b hc.cc_zeroOne
  have h1 := hu.2.2.1
  have h2 := hu.2.2.2
  dsimp only at h1 h2
  refine ⟨⟨h1, ?_⟩,
    fun h => ⟨updateAll_zero_noPlacedCand b hc h, updateAll_zero_nakedFix b hc h⟩⟩
  intro hb
  by_contra hne
  have hch := h2 hne
  rw [hb] at hch
  exact not_changed_self b hch

set_option maxRecDepth 1000000 in
theorem updateAll_fixpoint_witness :
    (CountConsistent (annotateBoard blankBoard) ∧ (updateAll (annotateBoard blankBoard)).1 = 0) ∧
    (NoPlacedCand (annotateBoard blankBoard) ∧ NakedFix (annotateBoard blankBoard)) :=
  ⟨⟨by decide, by decide⟩,
    (updateAll_fixpoint (annotateBoard blankBoard) (by decide)).2 (by decide)⟩

/-- C6. Candidate soundness: let S be a valid completion of the board, the
board have consistent note counts and empty placed cells, and every empty cell
have the digit of S as a candidate. Then the same holds after singleCheck,
after groupCheck and after updateSet on every group, and after updateAll. If
moreover the cells store their coordinates and no empty cell has as a
candidate a digit placed in one of its sets, then on the board that solveAll
leaves every placed value is the digit of S and every empty cell still has
the digit of S as a candidate. -/
theorem candidate_soundness (b : Board) (S : Ptr → Int) (hS : Completion b S)
    (hc : CountConsistent b) (hp : PlacedEmpty b) (hs : Sound b S) :
    (∀ g : Fin 27, Sound (singleCheck b (paths g)).2 S ∧ Sound (groupCheck b (paths g)).2 S ∧
      Sound (updateSet b g).2 S ∧ Completion (updateSet b g).2 S) ∧
    (Sound (updateAll b).2 S ∧ Completion (updateAll b).2 S) ∧
    (WellFormed b → NoPlacedCand b → ∀ fuel r, solveAll fuel b = some r →
      Completion r.2 S ∧ Sound r.2 S ∧ ∀ p, (r.2 p).value ≠ 0 → (r.2 p).value = S p) := by
  refine ⟨?_, ?_, ?_⟩
  · intro g
    exact ⟨singleCheck_sound b S g hS.1 hS.2 hs, groupCheck_sound S hS.1 g b hc hp hs,
      updateSet_sound S hS.1 g b hc hp hS.2 hs, hS.1, (updateSet_shrink b g).agrees hS.2⟩
  · exact ⟨updateAll_sound S hS.1 b hc hp hS.2 hs, hS.1, (updateAll_shrink b).agrees hS.2⟩
  · intro hw hn fuel r h
    have hQ := solveAll_soundFix S hS.1 fuel b r ⟨hc, hp, hw, hS.2, hs, hn⟩ h
    exact ⟨⟨hS.1, hQ.2.2.2.1⟩, hQ.2.2.2.2.1, fun p hv => (hQ.2.2.2.1 p hv).symm⟩

set_option maxRecDepth 1000000 in
theorem candidate_soundness_witness :
    (Completion (annotateBoard exampleInput) exampleGrid ∧
      CountConsistent (annotateBoard exampleInput) ∧ PlacedEmpty (annotateBoard exampleInput) ∧
      Sound (annotateBoard exampleInput) exampleGrid) ∧
    Sound (updateAll (annotateBoard exampleInput)).2 exampleGrid :=
  ⟨⟨by decide, by decide, by decide, by decide⟩,
    (candidate_soundness (annotateBoard exampleInput) exampleGrid (by decide) (by decide)
      (by decide) (by decide)).2.1.1⟩

/-- C2. Completeness of the search: for every input board whose cells store
their coordinates and that has a valid completion, solve returns 0 and
testBoard is true on the board it leaves (fuel 730 for every loop and 81 nested
calls of guess are enough); so a result -1, or a false testBoard, occurs only
for an input without valid completion. -/
theorem solve_complete (b : Board) (hw : WellFormed b) (S : Ptr → Int) (hS : Completion b S)
    (fuel depth : Nat) (hf : 730 ≤ fuel) (hd : 81 ≤ depth) :
    (∃ st, solve fuel depth b = some (0, st) ∧ testBoard st.board = true) ∧
    (∀ r, solve fuel depth b = some r → r.1 = 0 ∧ testBoard r.2.board = true) := by
  have hex : ∃ st, solve fuel depth b = some (0, st) := by
    unfold solve
    refine solveLoop_complete S hS.1 fuel hf depth _ (annotateBoard_soundInvariant hw hS) ?_
    have := emptyCount_le_81 (annotateBoard b)
    dsimp only
    omega
  obtain ⟨st, hst⟩ := hex
  have htest : testBoard st.board = true := by
    have h0 := annotateBoard_conflictFree hw (completion_valuesInRange hS)
      (completion_noConflict hS)
    have hst2 := hst
    unfold solve at hst2
    have h1 := solveLoop_preserves _ _ solverInv_conflictFree fuel depth _ (0, st) h0 hst2
    exact full_noConflict_testBoard (solveLoop_zero_full fuel depth _ st hst2) h1.2.2.2.1
      h1.2.2.2.2
  refine ⟨⟨st, hst, htest⟩, ?_⟩
  intro r hr
  rw [hst] at hr
  cases hr
  exact ⟨rfl, htest⟩

set_option maxRecDepth 1000000 in
theorem solve_complete_witness :
    (WellFormed exampleInput ∧ Completion exampleInput exampleGrid) ∧
    ∃ st, solve 730 81 exampleInput = some (0, st) ∧ testBoard st.board = true :=
  ⟨⟨by decide, by decide⟩,
    (solve_complete exampleInput (by decide) exampleGrid (by decide) 730 81 (le_refl _)
      (le_refl _)).1⟩

end Sudoku
